import Mathlib

/-!
Verification of the rubric synchronization engine of `codepost-powertools`.

The development shallowly embeds the relevant JavaScript sources:
* `3_CodePost.js` — field validators (`checkArgs_`, `RubricCategory.checkArgs`,
  `RubricComment.checkArgs`), resource accessors (`getByIds`, `createAll`,
  `updateAll`, `deleteAll`) and the sign-flip codec on `pointLimit`/`pointDelta`;
* the rubric import module — `checkValidRubric_` and `importRubric_`
  (wipe and incremental synchronization);
* the batched request layer — `fetch_`.

JavaScript objects with a fixed set of statically known fields are embedded as
structures whose fields are `Option`s (`none` = the property is absent).
JS `null` inside a present `pointLimit` is the inner `none` of
`Option (Option Int)`; the `NaN` that the orphan-comment loop can produce for
`sortKey` is the inner `none` of `Option (Option Nat)`.  JS numbers are
embedded as `Int` (point values) and `Nat` (ids, sort keys); strings as
`String`.  The remote store (the codePost server) is not part of the
repository; its behaviour is modelled from the spec's Resource API boundary:
records get fresh ids on creation, PATCH/DELETE of a missing id fails, and
deleting a category cascades to its comments.
-/

deriving instance DecidableEq for Except

namespace CodePost

/-! ### JS object machinery: association lists with JS insertion-order semantics -/

/-- `Object.fromEntries` / property assignment semantics for string-keyed JS
objects: inserting an existing key overwrites in place (keeping the key's
original position), a new key is appended. -/
def insertEntry {α : Type} (m : List (String × α)) (k : String) (v : α) :
    List (String × α) :=
  match m with
  | [] => [(k, v)]
  | (k', v') :: rest =>
    if k' = k then (k, v) :: rest else (k', v') :: insertEntry rest k v

/-- `Object.fromEntries`: build an object from a list of entries. -/
def fromEntries {α : Type} (l : List (String × α)) : List (String × α) :=
  l.foldl (fun m kv => insertEntry m kv.1 kv.2) []

/-- Property lookup on a string-keyed JS object. -/
def lookupEntry {α : Type} (m : List (String × α)) (k : String) : Option α :=
  match m with
  | [] => none
  | (k', v) :: rest => if k' = k then some v else lookupEntry rest k

/-- `Object.keys`. -/
def keysOf {α : Type} (m : List (String × α)) : List String := m.map Prod.fst

/-- `Object.values`. -/
def valuesOf {α : Type} (m : List (String × α)) : List α := m.map Prod.snd

/-- Nat-keyed JS object (used for the orphan-comment sort-key counters; the
values are `Option Nat`, with `none` standing for the JS `NaN` that
`sortKeys[k]++` produces on a missing key). -/
def insertNatEntry (m : List (Nat × Option Nat)) (k : Nat) (v : Option Nat) :
    List (Nat × Option Nat) :=
  match m with
  | [] => [(k, v)]
  | (k', v') :: rest =>
    if k' = k then (k, v) :: rest else (k', v') :: insertNatEntry rest k v

/-- Lookup in a Nat-keyed JS object. -/
def lookupNatEntry (m : List (Nat × Option Nat)) (k : Nat) :
    Option (Option Nat) :=
  match m with
  | [] => none
  | (k', v) :: rest => if k' = k then some v else lookupNatEntry rest k

/-- `List.map` with the element index, mirroring the `(value, index)` callback
shape of JS `Array.prototype.map`/`forEach`. -/
def mapWithIndex {α β : Type} (f : Nat → α → β) : Nat → List α → List β
  | _, [] => []
  | i, a :: as => f i a :: mapWithIndex f (i + 1) as

/-! ### Data model -/

/-- Argument bag for a rubric category (`RubricCategory.checkArgs` input and
output, create payloads, and PATCH `data` objects).  A `none` field is an
absent property. -/
structure CatArgs where
  assignment : Option Nat
  name : Option String
  pointLimit : Option (Option Int)
  helpText : Option String
  atMostOnce : Option Bool
  sortKey : Option (Option Nat)
deriving DecidableEq, Repr

/-- The empty JS object `{}` as category args. -/
def emptyCatArgs : CatArgs := ⟨none, none, none, none, none, none⟩

/-- Argument bag for a rubric comment. -/
structure ComArgs where
  category : Option Nat
  name : Option String
  pointDelta : Option Int
  text : Option String
  explanation : Option String
  instructionText : Option String
  templateTextOn : Option Bool
  sortKey : Option (Option Nat)
deriving DecidableEq, Repr

/-- The empty JS object `{}` as comment args. -/
def emptyComArgs : ComArgs := ⟨none, none, none, none, none, none, none, none⟩

/-- A rubric category record held by the remote store.  `pointLimit` is stored
in wire sign (the negation of the caller-facing value). -/
structure RCat where
  id : Nat
  name : String
  pointLimit : Option Int
  helpText : String
  atMostOnce : Bool
  sortKey : Nat
deriving DecidableEq, Repr

/-- A rubric comment record held by the remote store.  `pointDelta` is stored
in wire sign. -/
structure RCom where
  id : Nat
  name : String
  category : Nat
  pointDelta : Int
  text : String
  explanation : String
  instructionText : String
  templateTextOn : Bool
  sortKey : Nat
deriving DecidableEq, Repr

/-- Placeholder records for total lookups on paths the engine only reaches
when the key is present. -/
def defaultRCat : RCat := ⟨0, "", none, "", false, 0⟩

/-- Placeholder comment record (see `defaultRCat`). -/
def defaultRCom : RCom := ⟨0, "", 0, 0, "", "", "", false, 0⟩

/-- Modelled from the spec: the remote store scoped to one assignment — its
rubric categories and rubric comments (in creation order), the next fresh id,
and the number of submissions of the assignment.  The assignment's
`rubricCategories` field and each category's `rubricComments` field are the
ids of the corresponding records in list order. -/
structure RemoteState where
  cats : List RCat
  coms : List RCom
  nextId : Nat
  subs : Nat
deriving DecidableEq, Repr

/-- `assignment.rubricCategories`. -/
def rubricCategories (s : RemoteState) : List Nat := s.cats.map RCat.id

/-- `category.rubricComments` for the category with the given id. -/
def rubricCommentIds (s : RemoteState) (catId : Nat) : List Nat :=
  (s.coms.filter fun c => c.category == catId).map RCom.id

/-- GET of a single rubric category by id. -/
def getCatById (s : RemoteState) (i : Nat) : Option RCat :=
  s.cats.find? fun c => c.id == i

/-- GET of a single rubric comment by id. -/
def getComById (s : RemoteState) (i : Nat) : Option RCom :=
  s.coms.find? fun c => c.id == i

/-- A network request issued through `fetch_`, as recorded in the run log.
POST and PATCH calls record the payloads exactly as put on the wire (after
`checkArgs`, hence in wire sign). -/
inductive NetCall where
  | getAssignment (id : Nat)
  | getSubmissions (id : Nat)
  | getCats (ids : List Nat)
  | getComs (ids : List Nat)
  | postCats (payloads : List CatArgs)
  | postComs (payloads : List ComArgs)
  | patchCats (items : List (Nat × CatArgs))
  | patchComs (items : List (Nat × ComArgs))
  | deleteCats (ids : List Nat)
  | deleteComs (ids : List Nat)
deriving DecidableEq, Repr

/-- JS `String.prototype.trim`: strip leading and trailing whitespace
(defined by structural recursion on the character list so that it evaluates
inside the kernel). -/
def jsTrim (s : String) : String :=
  ⟨((s.data.dropWhile Char.isWhitespace).reverse.dropWhile
      Char.isWhitespace).reverse⟩

/-! ### Field validation (`checkArgs_` with the per-resource field tables)

`RubricCategory.checkArgs(args, {updating, creating})`:
required = `{assignment, name}` when creating, `{name}` in the default
(partial) mode, `{}` when updating; optional =
`{pointLimit, helpText, atMostOnce, sortKey}`, plus (when updating) the
former required fields appended after them.  Fields are validated in that
iteration order and the output keeps exactly the checked fields.  On
success in create/update mode, a present non-null `pointLimit` is negated.
Value domains narrowed by the typed embedding: `assignment` values are
already non-negative integers and `pointLimit` values numbers, so only the
`name` (non-empty after trim) and `sortKey` (`NaN`, i.e. inner `none`)
validators can reject a present value. -/

def RubricCategory.checkArgs (updating creating : Bool) (args : CatArgs) :
    Except String CatArgs :=
  -- required fields, in `Object.entries(REQUIRED)` order
  if !updating && creating && args.assignment = none then
    .error "\"assignment\": missing"
  else if !updating && args.name = none then
    .error "\"name\": missing"
  else if !updating && jsTrim (args.name.getD "") = "" then
    .error "\"name\": invalid"
  -- optional fields (validated only when present)
  else if args.sortKey = some none then
    .error "\"sortKey\": not a number"
  else if updating && args.name ≠ none && jsTrim (args.name.getD "") = "" then
    .error "\"name\": invalid"
  else
    -- `fixed` keeps exactly the required and optional fields of the mode;
    -- in the default (partial) mode `assignment` is not among them.
    let fixed : CatArgs :=
      if updating || creating then args else { args with assignment := none }
    -- sign flip of a present, non-null pointLimit in create/update mode
    if updating || creating then
      match fixed.pointLimit with
      | some (some v) => .ok { fixed with pointLimit := some (some (-v)) }
      | _ => .ok fixed
    else .ok fixed

/-- `RubricComment.checkArgs(args, {updating, creating})`: required =
`{category, name, pointDelta, text}` when creating, minus `category` in the
default mode, `{}` when updating; optional =
`{explanation, instructionText, templateTextOn, sortKey}` (plus the former
required fields when updating).  On success in create/update mode a present
`pointDelta` is negated.  Only `name`/`text` (non-empty) and `sortKey`
(`NaN`) validators can reject a present value in the typed embedding. -/
def RubricComment.checkArgs (updating creating : Bool) (args : ComArgs) :
    Except String ComArgs :=
  if !updating && creating && args.category = none then
    .error "\"category\": missing"
  else if !updating && args.name = none then
    .error "\"name\": missing"
  else if !updating && jsTrim (args.name.getD "") = "" then
    .error "\"name\": invalid"
  else if !updating && args.pointDelta = none then
    .error "\"pointDelta\": missing"
  else if !updating && args.text = none then
    .error "\"text\": missing"
  else if !updating && jsTrim (args.text.getD "") = "" then
    .error "\"text\": invalid"
  else if args.sortKey = some none then
    .error "\"sortKey\": not a number"
  else if updating && args.name ≠ none && jsTrim (args.name.getD "") = "" then
    .error "\"name\": invalid"
  else if updating && args.text ≠ none && jsTrim (args.text.getD "") = "" then
    .error "\"text\": invalid"
  else
    let fixed : ComArgs :=
      if updating || creating then args else { args with category := none }
    if updating || creating then
      match fixed.pointDelta with
      | some v => .ok { fixed with pointDelta := some (-v) }
      | none => .ok fixed
    else .ok fixed

/-! ### Resource accessors and remote-store semantics

The decode direction of the sign-flip codec (`RubricCategory.getByIds`,
`RubricComment.getByIds`) and, modelled from the spec's Resource API
boundary, the server-side effect of POST/PATCH/DELETE.  Every accessor
returns the network calls it dispatched; `fetch_` short-circuits an empty
item list before any network activity, so an empty batch dispatches
nothing. -/

/-- The per-record flip performed by `RubricCategory.getByIds`: negate
`pointLimit`, leaving `null` as `null`. -/
def catDecode (c : RCat) : RCat :=
  { c with pointLimit := c.pointLimit.map fun v => -v }

/-- The per-record flip performed by `RubricComment.getByIds`: negate
`pointDelta`. -/
def comDecode (c : RCom) : RCom := { c with pointDelta := -c.pointDelta }

/-- `RubricCategory.getByIds`: GET each id and flip `pointLimit`.  (In the
engine's uses every id resolves; a missing id would fail the remote GET.) -/
def RubricCategory.getByIds (s : RemoteState) (ids : List Nat) : List RCat :=
  (ids.filterMap (getCatById s)).map catDecode

/-- `RubricComment.getByIds`: GET each id and flip `pointDelta`. -/
def RubricComment.getByIds (s : RemoteState) (ids : List Nat) : List RCom :=
  (ids.filterMap (getComById s)).map comDecode

/-- Modelled from the spec: the record the remote store creates from a POST
rubric-category payload (numeric fields arrive in wire sign; absent optional
fields take server defaults; the id is fresh). -/
def serverNewCat (nextId : Nat) (p : CatArgs) : RCat :=
  { id := nextId
    name := p.name.getD ""
    pointLimit := p.pointLimit.getD none
    helpText := p.helpText.getD ""
    atMostOnce := p.atMostOnce.getD false
    sortKey := (p.sortKey.getD (some 0)).getD 0 }

/-- Modelled from the spec: the record created from a POST rubric-comment
payload. -/
def serverNewCom (nextId : Nat) (p : ComArgs) : RCom :=
  { id := nextId
    name := p.name.getD ""
    category := p.category.getD 0
    pointDelta := p.pointDelta.getD 0
    text := p.text.getD ""
    explanation := p.explanation.getD ""
    instructionText := p.instructionText.getD ""
    templateTextOn := p.templateTextOn.getD false
    sortKey := (p.sortKey.getD (some 0)).getD 0 }

/-- Modelled from the spec: bulk category creation on the server; returns the
created records in request order. -/
def serverCreateCats (s : RemoteState) (ps : List CatArgs) :
    List RCat × RemoteState :=
  match ps with
  | [] => ([], s)
  | p :: rest =>
    let c := serverNewCat s.nextId p
    let (cs, s') :=
      serverCreateCats { s with cats := s.cats ++ [c], nextId := s.nextId + 1 }
        rest
    (c :: cs, s')

/-- Modelled from the spec: bulk comment creation on the server. -/
def serverCreateComs (s : RemoteState) (ps : List ComArgs) :
    List RCom × RemoteState :=
  match ps with
  | [] => ([], s)
  | p :: rest =>
    let c := serverNewCom s.nextId p
    let (cs, s') :=
      serverCreateComs { s with coms := s.coms ++ [c], nextId := s.nextId + 1 }
        rest
    (c :: cs, s')

/-- Modelled from the spec: applying a PATCH `data` object to a stored
category record (fields in wire sign; `assignment` is outside the
single-assignment model's state). -/
def applyCatUpdate (d : CatArgs) (c : RCat) : RCat :=
  { c with
    name := d.name.getD c.name
    pointLimit := d.pointLimit.getD c.pointLimit
    helpText := d.helpText.getD c.helpText
    atMostOnce := d.atMostOnce.getD c.atMostOnce
    sortKey := match d.sortKey with | some (some k) => k | _ => c.sortKey }

/-- Modelled from the spec: applying a PATCH `data` object to a stored
comment record. -/
def applyComUpdate (d : ComArgs) (c : RCom) : RCom :=
  { c with
    name := d.name.getD c.name
    category := d.category.getD c.category
    pointDelta := d.pointDelta.getD c.pointDelta
    text := d.text.getD c.text
    explanation := d.explanation.getD c.explanation
    instructionText := d.instructionText.getD c.instructionText
    templateTextOn := d.templateTextOn.getD c.templateTextOn
    sortKey := match d.sortKey with | some (some k) => k | _ => c.sortKey }

/-- Modelled from the spec: the server applies a category PATCH batch; a
request against a missing id fails (HTTP 404 surfaces as a request error
after the fan-out). -/
def serverPatchCats (s : RemoteState) (items : List (Nat × CatArgs)) :
    Except String (List RCat × RemoteState) :=
  if items.all fun it => (getCatById s it.1).isSome then
    let s' := items.foldl
      (fun st it =>
        { st with
          cats := st.cats.map fun c =>
            if c.id == it.1 then applyCatUpdate it.2 c else c })
      s
    .ok (items.filterMap (fun it => getCatById s' it.1), s')
  else .error "fetch(): PATCH rubricCategories: not found"

/-- Modelled from the spec: the server applies a comment PATCH batch. -/
def serverPatchComs (s : RemoteState) (items : List (Nat × ComArgs)) :
    Except String (List RCom × RemoteState) :=
  if items.all fun it => (getComById s it.1).isSome then
    let s' := items.foldl
      (fun st it =>
        { st with
          coms := st.coms.map fun c =>
            if c.id == it.1 then applyComUpdate it.2 c else c })
      s
    .ok (items.filterMap (fun it => getComById s' it.1), s')
  else .error "fetch(): PATCH rubricComments: not found"

/-- Modelled from the spec: DELETE of a category id set; deleting a category
cascades to its comments; a missing id fails. -/
def serverDeleteCats (s : RemoteState) (ids : List Nat) :
    Except String RemoteState :=
  if ids.all fun i => (getCatById s i).isSome then
    .ok { s with
          cats := s.cats.filter fun c => !(ids.contains c.id)
          coms := s.coms.filter fun c => !(ids.contains c.category) }
  else .error "fetch(): DELETE rubricCategories: not found"

/-- Modelled from the spec: DELETE of a comment id set; a missing id fails. -/
def serverDeleteComs (s : RemoteState) (ids : List Nat) :
    Except String RemoteState :=
  if ids.all fun i => (getComById s i).isSome then
    .ok { s with coms := s.coms.filter fun c => !(ids.contains c.id) }
  else .error "fetch(): DELETE rubricComments: not found"

/-- `RubricCategory.createAll`: `checkArgs` every payload in create mode
(fail-fast before dispatch), then POST the batch (no call for an empty
batch). -/
def RubricCategory.createAll (s : RemoteState) (data : List CatArgs) :
    List NetCall × Except String (List RCat × RemoteState) :=
  match data.mapM (RubricCategory.checkArgs false true) with
  | .error e => ([], .error e)
  | .ok checked =>
    if checked.isEmpty then ([], .ok ([], s))
    else ([.postCats checked], .ok (serverCreateCats s checked))

/-- `RubricComment.createAll`. -/
def RubricComment.createAll (s : RemoteState) (data : List ComArgs) :
    List NetCall × Except String (List RCom × RemoteState) :=
  match data.mapM (RubricComment.checkArgs false true) with
  | .error e => ([], .error e)
  | .ok checked =>
    if checked.isEmpty then ([], .ok ([], s))
    else ([.postComs checked], .ok (serverCreateComs s checked))

/-- `RubricCategory.updateAll`: `checkArgs` every item's `data` in update
mode, then PATCH the batch. -/
def RubricCategory.updateAll (s : RemoteState) (data : List (Nat × CatArgs)) :
    List NetCall × Except String (List RCat × RemoteState) :=
  match data.mapM
      (fun it => (RubricCategory.checkArgs true false it.2).map ((it.1, ·))) with
  | .error e => ([], .error e)
  | .ok checked =>
    if checked.isEmpty then ([], .ok ([], s))
    else ([.patchCats checked], serverPatchCats s checked)

/-- `RubricComment.updateAll`. -/
def RubricComment.updateAll (s : RemoteState) (data : List (Nat × ComArgs)) :
    List NetCall × Except String (List RCom × RemoteState) :=
  match data.mapM
      (fun it => (RubricComment.checkArgs true false it.2).map ((it.1, ·))) with
  | .error e => ([], .error e)
  | .ok checked =>
    if checked.isEmpty then ([], .ok ([], s))
    else ([.patchComs checked], serverPatchComs s checked)

/-- `RubricCategory.deleteAll`. -/
def RubricCategory.deleteAll (s : RemoteState) (ids : List Nat) :
    List NetCall × Except String RemoteState :=
  if ids.isEmpty then ([], .ok s)
  else ([.deleteCats ids], serverDeleteCats s ids)

/-- `RubricComment.deleteAll`. -/
def RubricComment.deleteAll (s : RemoteState) (ids : List Nat) :
    List NetCall × Except String RemoteState :=
  if ids.isEmpty then ([], .ok s)
  else ([.deleteComs ids], serverDeleteComs s ids)

/-! ### `checkValidRubric_` -/

/-- One element of the `rubric` argument: the `comments` property (with
`none` for a missing one) together with the remaining category fields.  (A
non-array `comments` value and a non-object rubric element are not
representable in the typed embedding.) -/
structure RubricEntry where
  cat : CatArgs
  comments : Option (List ComArgs)
deriving DecidableEq, Repr

/-- Error-message prefix `` `rubric`: category i: ``. -/
def catPrefixMsg (i : Nat) : String :=
  "`rubric`: category " ++ toString i ++ ": "

/-- Error-message prefix `` `rubric`: category i, comment j: ``. -/
def comPrefixMsg (i j : Nat) : String :=
  "`rubric`: category " ++ toString i ++ ", comment " ++ toString j ++ ": "

/-- The `"name": not unique ("…")` message body. -/
def notUniqueMsg (nm : String) : String :=
  "\"name\": not unique (\"" ++ nm ++ "\")"

/-- The inner comment loop of `checkValidRubric_`: check and fix each comment
of category `index1`, failing on a duplicate name across the whole rubric. -/
def checkRubricComments (index1 : Nat) (seenComments : List String)
    (index2 : Nat) :
    List ComArgs → Except String (List ComArgs × List String)
  | [] => .ok ([], seenComments)
  | a :: rest =>
    match RubricComment.checkArgs false false a with
    | .error m => .error (comPrefixMsg index1 index2 ++ m)
    | .ok comment =>
      let commentName := comment.name.getD ""
      if commentName ∈ seenComments then
        .error (comPrefixMsg index1 index2 ++ notUniqueMsg commentName)
      else
        match checkRubricComments index1 (commentName :: seenComments)
            (index2 + 1) rest with
        | .error m => .error m
        | .ok (cs, seen') => .ok (comment :: cs, seen')

/-- The category loop of `checkValidRubric_`. -/
def checkRubricCats (seenCategories seenComments : List String)
    (index1 : Nat) :
    List RubricEntry →
      Except String (List CatArgs × List (String × List ComArgs))
  | [] => .ok ([], [])
  | e :: rest =>
    match RubricCategory.checkArgs false false e.cat with
    | .error m => .error (catPrefixMsg index1 ++ m)
    | .ok category =>
      let categoryName := category.name.getD ""
      if categoryName ∈ seenCategories then
        .error (catPrefixMsg index1 ++ notUniqueMsg categoryName)
      else
        match e.comments with
        | none => .error (catPrefixMsg index1 ++ "`comments`: missing")
        | some comments =>
          match checkRubricComments index1 seenComments 0 comments with
          | .error m => .error m
          | .ok (coms, seenComments') =>
            match checkRubricCats (categoryName :: seenCategories)
                seenComments' (index1 + 1) rest with
            | .error m => .error m
            | .ok (gcats, gcoms) =>
              .ok (category :: gcats, (categoryName, coms) :: gcoms)

/-- `checkValidRubric_`: validate the `rubric` argument and return the fixed
categories and the `givenComments` object (category name → fixed comments,
in insertion order). -/
def checkValidRubric_ (rubric : Option (List RubricEntry)) :
    Except String (List CatArgs × List (String × List ComArgs)) :=
  match rubric with
  | none => .error "`rubric`: missing"
  | some entries => checkRubricCats [] [] 0 entries

/-! ### `importRubric_`: wipe mode -/

/-- The wipe branch of `importRubric_`: delete every existing category, bulk
create the desired categories (`sortKey` = position), then bulk create all
desired comments (`sortKey` = position in category, `category` = the id
returned for the category's name). -/
def importRubricWipe (assignmentId : Nat) (givenCategories : List CatArgs)
    (givenComments : List (String × List ComArgs)) (s : RemoteState) :
    List NetCall × Except String RemoteState :=
  let (dlog, del) := RubricCategory.deleteAll s (rubricCategories s)
  match del with
  | .error e => (dlog, .error e)
  | .ok s1 =>
    let catPayloads := mapWithIndex
      (fun sortKey category =>
        { category with
          assignment := some assignmentId, sortKey := some (some sortKey) })
      0 givenCategories
    let (clog, created) := RubricCategory.createAll s1 catPayloads
    match created with
    | .error e => (dlog ++ clog, .error e)
    | .ok (createdCategories, s2) =>
      let categories :=
        fromEntries (createdCategories.map fun c => (c.name, c.id))
      let comPayloads := givenComments.flatMap fun kc =>
        mapWithIndex
          (fun sortKey comment =>
            { comment with
              category := lookupEntry categories kc.1
              sortKey := some (some sortKey) })
          0 kc.2
      let (mlog, made) := RubricComment.createAll s2 comPayloads
      match made with
      | .error e => (dlog ++ clog ++ mlog, .error e)
      | .ok (_, s3) => (dlog ++ clog ++ mlog, .ok s3)

/-! ### `importRubric_`: incremental mode -/

/-- The field-level diff of a desired category against its fetched remote
counterpart (the loop over `["pointLimit", "helpText", "atMostOnce"]`
followed by the mandatory `sortKey` check); returns the PATCH `data` object
when an update is needed. -/
def catDiff (category : CatArgs) (existing : RCat) (sortKey : Nat) :
    Option CatArgs :=
  let a0 : Bool × CatArgs := (false, emptyCatArgs)
  let a1 := match category.pointLimit with
    | some v =>
      if existing.pointLimit ≠ v then
        (true, { a0.2 with pointLimit := some v })
      else a0
    | none => a0
  let a2 := match category.helpText with
    | some v =>
      if existing.helpText ≠ v then (true, { a1.2 with helpText := some v })
      else a1
    | none => a1
  let a3 := match category.atMostOnce with
    | some v =>
      if existing.atMostOnce ≠ v then
        (true, { a2.2 with atMostOnce := some v })
      else a2
    | none => a2
  let a4 :=
    if existing.sortKey ≠ sortKey then
      (true, { a3.2 with sortKey := some (some sortKey) })
    else a3
  if a4.1 then some a4.2 else none

/-- The field-level diff of a desired comment against its fetched remote
counterpart (the loop over `["text", "pointDelta", "explanation",
"instructionText", "templateTextOn"]`, then the `category` and `sortKey`
checks). -/
def comDiff (comment : ComArgs) (existing : RCom) (categoryId : Nat)
    (sortKey : Nat) : Option ComArgs :=
  let a0 : Bool × ComArgs := (false, emptyComArgs)
  let a1 := match comment.text with
    | some v =>
      if existing.text ≠ v then (true, { a0.2 with text := some v }) else a0
    | none => a0
  let a2 := match comment.pointDelta with
    | some v =>
      if existing.pointDelta ≠ v then
        (true, { a1.2 with pointDelta := some v })
      else a1
    | none => a1
  let a3 := match comment.explanation with
    | some v =>
      if existing.explanation ≠ v then
        (true, { a2.2 with explanation := some v })
      else a2
    | none => a2
  let a4 := match comment.instructionText with
    | some v =>
      if existing.instructionText ≠ v then
        (true, { a3.2 with instructionText := some v })
      else a3
    | none => a3
  let a5 := match comment.templateTextOn with
    | some v =>
      if existing.templateTextOn ≠ v then
        (true, { a4.2 with templateTextOn := some v })
      else a4
    | none => a4
  let a6 :=
    if existing.category ≠ categoryId then
      (true, { a5.2 with category := some categoryId })
    else a5
  let a7 :=
    if existing.sortKey ≠ sortKey then
      (true, { a6.2 with sortKey := some (some sortKey) })
    else a6
  if a7.1 then some a7.2 else none

/-- The desired-category loop: queue creates for names not in codePost and
updates for changed categories, consuming matched names from the
`existingCategories` set (a JS `Set` keeps insertion order and `delete`
removes). Returns (createCategories, updateCategories, remaining set). -/
def reconCats (cpCategories : List (String × RCat)) (assignmentId : Nat)
    (sortKey : Nat) (existingCategories : List String) :
    List CatArgs →
      List CatArgs × List (Nat × CatArgs) × List String
  | [] => ([], [], existingCategories)
  | category :: rest =>
    let name := category.name.getD ""
    if name ∈ existingCategories then
      let existing := (lookupEntry cpCategories name).getD defaultRCat
      let (cs, us, ex) := reconCats cpCategories assignmentId (sortKey + 1)
        (existingCategories.erase name) rest
      match catDiff category existing sortKey with
      | some update => (cs, (existing.id, update) :: us, ex)
      | none => (cs, us, ex)
    else
      let (cs, us, ex) := reconCats cpCategories assignmentId (sortKey + 1)
        existingCategories rest
      ({ category with
          assignment := some assignmentId
          sortKey := some (some sortKey) } :: cs,
        us, ex)

/-- The extra-category branch for `deleteExtra = false`: sort the orphans at
the bottom (`sortKey = offset + i`), queueing an update only when the value
changes. -/
def orphanCatUpdates (cpCategories : List (String × RCat)) (offset : Nat) :
    Nat → List String → List (Nat × CatArgs)
  | _, [] => []
  | i, name :: rest =>
    let category := (lookupEntry cpCategories name).getD defaultRCat
    let tail := orphanCatUpdates cpCategories offset (i + 1) rest
    if category.sortKey ≠ offset + i then
      (category.id,
        { emptyCatArgs with sortKey := some (some (offset + i)) }) :: tail
    else tail

/-- The inner desired-comment loop for one category. -/
def reconComsIn (cpComments : List (String × RCom)) (categoryId : Nat)
    (sortKey : Nat) (existingComments : List String) :
    List ComArgs → List ComArgs × List (Nat × ComArgs) × List String
  | [] => ([], [], existingComments)
  | comment :: rest =>
    let name := comment.name.getD ""
    if name ∈ existingComments then
      let existing := (lookupEntry cpComments name).getD defaultRCom
      let (cs, us, ex) := reconComsIn cpComments categoryId (sortKey + 1)
        (existingComments.erase name) rest
      match comDiff comment existing categoryId sortKey with
      | some update => (cs, (existing.id, update) :: us, ex)
      | none => (cs, us, ex)
    else
      let (cs, us, ex) := reconComsIn cpComments categoryId (sortKey + 1)
        existingComments rest
      ({ comment with
          category := some categoryId
          sortKey := some (some sortKey) } :: cs,
        us, ex)

/-- The outer desired-comment loop over `Object.entries(givenComments)`. -/
def reconComsAll (cpComments : List (String × RCom))
    (finalCategories : List (String × Nat)) (existingComments : List String) :
    List (String × List ComArgs) →
      List ComArgs × List (Nat × ComArgs) × List String
  | [] => ([], [], existingComments)
  | (categoryName, comments) :: rest =>
    let categoryId := (lookupEntry finalCategories categoryName).getD 0
    let (cs, us, ex) :=
      reconComsIn cpComments categoryId 0 existingComments comments
    let (cs', us', ex') := reconComsAll cpComments finalCategories ex rest
    (cs ++ cs', us ++ us', ex')

/-- The extra-comment branch for `deleteExtra = false`: each orphan continues
its category's counter (`sortKeys[comment.category]++`).  On a category id
with no counter the JS post-increment reads `undefined`, stores `NaN` and
yields `NaN` (the inner `none`), and `NaN !== sortKey` always holds, so an
update carrying the `NaN` is queued unconditionally. -/
def orphanComUpdates (cpComments : List (String × RCom))
    (sortKeys : List (Nat × Option Nat)) :
    List String → List (Nat × ComArgs)
  | [] => []
  | name :: rest =>
    let comment := (lookupEntry cpComments name).getD defaultRCom
    match lookupNatEntry sortKeys comment.category with
    | some (some k) =>
      let tail := orphanComUpdates cpComments
        (insertNatEntry sortKeys comment.category (some (k + 1))) rest
      if comment.sortKey ≠ k then
        (comment.id, { emptyComArgs with sortKey := some (some k) }) :: tail
      else tail
    | some none =>
      (comment.id, { emptyComArgs with sortKey := some none }) ::
        orphanComUpdates cpComments sortKeys rest
    | none =>
      (comment.id, { emptyComArgs with sortKey := some none }) ::
        orphanComUpdates cpComments
          (insertNatEntry sortKeys comment.category none) rest

/-- The incremental (non-wipe) branch of `importRubric_`.  `offset` is
`rubric.length`. -/
def importRubricIncremental (assignmentId : Nat) (offset : Nat)
    (givenCategories : List CatArgs)
    (givenComments : List (String × List ComArgs)) (deleteExtra : Bool)
    (s : RemoteState) : List NetCall × Except String RemoteState :=
  -- get existing rubric
  let catIds := rubricCategories s
  let fetchedCats := RubricCategory.getByIds s catIds
  let cpCategories := fromEntries (fetchedCats.map fun c => (c.name, c))
  let comIds :=
    (valuesOf cpCategories).flatMap fun c => rubricCommentIds s c.id
  let fetchedComs := RubricComment.getByIds s comIds
  let cpComments := fromEntries (fetchedComs.map fun c => (c.name, c))
  let finalCategories0 :=
    fromEntries ((valuesOf cpCategories).map fun c => (c.name, c.id))
  let existingCategories0 := keysOf cpCategories
  let fetchLog :=
    (if catIds.isEmpty then [] else [NetCall.getCats catIds]) ++
      (if comIds.isEmpty then [] else [NetCall.getComs comIds])
  let (createCategories, updateCategories0, existingCategories1) :=
    reconCats cpCategories assignmentId 0 existingCategories0 givenCategories
  let (clog, created) := RubricCategory.createAll s createCategories
  match created with
  | .error e => (fetchLog ++ clog, .error e)
  | .ok (createdCategories, s1) =>
    let finalCategories1 := createdCategories.foldl
      (fun m c => insertEntry m c.name c.id) finalCategories0
    -- deal with extra categories
    let extra :
        List NetCall × Except String (RemoteState × List (Nat × CatArgs)) :=
      if existingCategories1.isEmpty then ([], .ok (s1, updateCategories0))
      else if deleteExtra then
        let ids := existingCategories1.map fun n =>
          ((lookupEntry cpCategories n).getD defaultRCat).id
        let (dl, dr) := RubricCategory.deleteAll s1 ids
        (dl, dr.map ((·, updateCategories0)))
      else
        ([], .ok (s1, updateCategories0 ++
          orphanCatUpdates cpCategories offset 0 existingCategories1))
    match extra with
    | (dlog, .error e) => (fetchLog ++ clog ++ dlog, .error e)
    | (dlog, .ok (s2, updateCategories1)) =>
      let (ulog, updated) := RubricCategory.updateAll s2 updateCategories1
      match updated with
      | .error e => (fetchLog ++ clog ++ dlog ++ ulog, .error e)
      | .ok (updatedCategories, s3) =>
        let finalCategories2 := updatedCategories.foldl
          (fun m c => insertEntry m c.name c.id) finalCategories1
        let existingComments0 := keysOf cpComments
        let (createComments, updateComments0, existingComments1) :=
          reconComsAll cpComments finalCategories2 existingComments0
            givenComments
        let (mlog, made) := RubricComment.createAll s3 createComments
        match made with
        | .error e => (fetchLog ++ clog ++ dlog ++ ulog ++ mlog, .error e)
        | .ok (_, s4) =>
          let extraC :
              List NetCall ×
                Except String (RemoteState × List (Nat × ComArgs)) :=
            if existingComments1.isEmpty then ([], .ok (s4, updateComments0))
            else if deleteExtra then
              let ids := existingComments1.map fun n =>
                ((lookupEntry cpComments n).getD defaultRCom).id
              let (dl, dr) := RubricComment.deleteAll s4 ids
              (dl, dr.map ((·, updateComments0)))
            else
              let sortKeys := givenComments.foldl
                (fun m kc =>
                  insertNatEntry m
                    ((lookupEntry finalCategories2 kc.1).getD 0)
                    (some kc.2.length))
                []
              ([], .ok (s4, updateComments0 ++
                orphanComUpdates cpComments sortKeys existingComments1))
          match extraC with
          | (dlog2, .error e) =>
            (fetchLog ++ clog ++ dlog ++ ulog ++ mlog ++ dlog2, .error e)
          | (dlog2, .ok (s5, updateComments1)) =>
            let (ulog2, updated2) :=
              RubricComment.updateAll s5 updateComments1
            let log :=
              fetchLog ++ clog ++ dlog ++ ulog ++ mlog ++ dlog2 ++ ulog2
            match updated2 with
            | .error e => (log, .error e)
            | .ok (_, s6) => (log, .ok s6)

/-- `importRubric_ (assignmentId, rubric, wipe, deleteExtra)`.  The argument
checks and `checkValidRubric_` run before any network activity; then the
assignment and its submissions are fetched, and when the assignment has
submissions the run proceeds only if the interactive confirmation (modelled
by the `confirm` argument) answers yes. -/
def importRubric_ (assignmentId : Option Nat)
    (rubric : Option (List RubricEntry)) (wipe deleteExtra confirm : Bool)
    (s : RemoteState) : List NetCall × Except String RemoteState :=
  match assignmentId with
  | none => ([], .error "`assignmentId`: missing")
  | some aid =>
    match checkValidRubric_ rubric with
    | .error e => ([], .error e)
    | .ok (givenCategories, givenComments) =>
      let preLog := [NetCall.getAssignment aid, NetCall.getSubmissions aid]
      if s.subs > 0 && !confirm then (preLog, .ok s)
      else if wipe then
        let (l, r) := importRubricWipe aid givenCategories givenComments s
        (preLog ++ l, r)
      else
        let (l, r) := importRubricIncremental aid
          ((rubric.getD []).length) givenCategories givenComments deleteExtra s
        (preLog ++ l, r)

/-! ### The batched request layer (`fetch_`) -/

/-- The accepted method types (`METHODS_`); an unknown method string is
rejected by `checkMethod_` before this point and is not representable in the
typed embedding. -/
inductive HttpMethod where
  | GET | POST | PATCH | DELETE
deriving DecidableEq, Repr

/-- The method name as it appears in error messages. -/
def HttpMethod.nm : HttpMethod → String
  | .GET => "GET" | .POST => "POST" | .PATCH => "PATCH" | .DELETE => "DELETE"

/-- One element of the `data` array handed to `fetch_`: JS `null`
(or `undefined`), a bare number, or an object with optional `id` and `data`
properties (the `data` payload kept as its serialized form). -/
inductive ReqItem where
  | nullItem
  | num (n : Nat)
  | obj (id : Option Nat) (data : Option String)
deriving DecidableEq, Repr

/-- A fully built request as handed to the fan-out dispatch. -/
structure WireReq where
  url : String
  payload : Option String
deriving DecidableEq, Repr

/-- `BASE_ENDPOINT_`. -/
def BASE_ENDPOINT_ : String := "https://api.codepost.io/"

/-- `JSON.stringify` of a POST body (kept symbolic). -/
def stringifyItem : ReqItem → String
  | .nullItem => "null"
  | .num n => toString n
  | .obj _ d => d.getD "{}"

/-- The request-building loop of `fetch_`: for each item, build the options
(`makeOptions_` fails first if the API key is missing) and validate the item
shape for the method, failing with an index-qualified message; nothing is
dispatched until every item has been built. -/
def buildRequests (method : HttpMethod) (endpoint : String)
    (apiKey : Option String) :
    Nat → List ReqItem → Except String (List WireReq)
  | _, [] => .ok []
  | index, request :: rest =>
    if apiKey = none then
      .error "API key not found. Use the \"Set API Key\" menu to set your API key."
    else
      let this : Except String WireReq :=
        match method, request with
        | .POST, .nullItem =>
          .error ("\"POST\" request " ++ toString index ++ " missing data")
        | .POST, r =>
          .ok ⟨BASE_ENDPOINT_ ++ endpoint, some (stringifyItem r)⟩
        | .PATCH, .nullItem =>
          .error ("\"PATCH\" request " ++ toString index ++ " missing")
        | .PATCH, .num _ =>
          .error ("\"PATCH\" request " ++ toString index ++ " missing data")
        | .PATCH, .obj i d =>
          if d = none then
            .error ("\"PATCH\" request " ++ toString index ++ " missing data")
          else if i = none then
            .error ("\"PATCH\" request " ++ toString index ++ " missing id")
          else
            .ok ⟨BASE_ENDPOINT_ ++ endpoint ++ toString (i.getD 0) ++ "/", d⟩
        | _, .num n =>
          .ok ⟨BASE_ENDPOINT_ ++ endpoint ++ toString n ++ "/", none⟩
        | m, .obj i _ =>
          if i = none then
            .error ("\"" ++ m.nm ++ "\" request " ++ toString index ++
              " has no id")
          else .ok ⟨BASE_ENDPOINT_ ++ endpoint ++ toString (i.getD 0) ++ "/",
            none⟩
        | m, .nullItem =>
          .error ("TypeError: \"" ++ m.nm ++ "\" request " ++ toString index ++
            " is null")
      match this with
      | .error e => .error e
      | .ok w =>
        match buildRequests method endpoint apiKey (index + 1) rest with
        | .error e => .error e
        | .ok ws => .ok (w :: ws)

/-- `fetch_`: build every request of the batch, then (on success) dispatch
them together in one fan-out.  `.ok ws` means exactly the requests `ws` were
dispatched; `.error` means the whole batch was rejected before any network
call. -/
def fetch_ (method : HttpMethod) (endpoint : String) (apiKey : Option String)
    (data : List ReqItem) : Except String (List WireReq) :=
  buildRequests method endpoint apiKey 0 data

/-- The requests that reach the network for a `fetch_` outcome. -/
def dispatchedRequests (r : Except String (List WireReq)) : List WireReq :=
  match r with
  | .ok ws => ws
  | .error _ => []

/-! ### Characterizations of `checkArgs` -/

/-- The sign-flip `RubricCategory.checkArgs` applies in create/update mode
(a present non-null `pointLimit` is negated, `null` stays `null`). -/
def flipCat (args : CatArgs) : CatArgs :=
  { args with pointLimit := args.pointLimit.map (Option.map fun v => -v) }

/-- The sign-flip `RubricComment.checkArgs` applies in create/update mode. -/
def flipCom (args : ComArgs) : ComArgs :=
  { args with pointDelta := args.pointDelta.map fun v => -v }

theorem catCheckArgs_partial_iff (args out : CatArgs) :
    RubricCategory.checkArgs false false args = .ok out ↔
      (args.name ≠ none ∧ jsTrim (args.name.getD "") ≠ "" ∧
        args.sortKey ≠ some none ∧ out = { args with assignment := none }) := by
  obtain ⟨a, n, pl, ht, amo, sk⟩ := args
  simp only [RubricCategory.checkArgs]
  split_ifs <;> simp_all [eq_comm (a := out)]

theorem catCheckArgs_creating_iff (args out : CatArgs) :
    RubricCategory.checkArgs false true args = .ok out ↔
      (args.assignment ≠ none ∧ args.name ≠ none ∧
        jsTrim (args.name.getD "") ≠ "" ∧ args.sortKey ≠ some none ∧
        out = flipCat args) := by
  obtain ⟨a, n, pl, ht, amo, sk⟩ := args
  rcases pl with _ | _ | v <;>
  · simp only [RubricCategory.checkArgs, flipCat]
    split_ifs <;> simp_all [eq_comm (a := out)]

theorem catCheckArgs_updating_iff (args out : CatArgs) :
    RubricCategory.checkArgs true false args = .ok out ↔
      (args.sortKey ≠ some none ∧
        (args.name ≠ none → jsTrim (args.name.getD "") ≠ "") ∧
        out = flipCat args) := by
  obtain ⟨a, n, pl, ht, amo, sk⟩ := args
  rcases pl with _ | _ | v <;>
  · simp only [RubricCategory.checkArgs, flipCat]
    split_ifs <;> simp_all [eq_comm (a := out)]

theorem comCheckArgs_partial_iff (args out : ComArgs) :
    RubricComment.checkArgs false false args = .ok out ↔
      (args.name ≠ none ∧ jsTrim (args.name.getD "") ≠ "" ∧
        args.pointDelta ≠ none ∧ args.text ≠ none ∧
        jsTrim (args.text.getD "") ≠ "" ∧ args.sortKey ≠ some none ∧
        out = { args with category := none }) := by
  obtain ⟨c, n, pd, tx, ex, it, tt, sk⟩ := args
  simp only [RubricComment.checkArgs, Bool.not_false, Bool.true_and,
    Bool.false_and, Bool.and_false, Bool.false_eq_true, if_false,
    decide_eq_true_eq, Bool.false_or]
  split_ifs <;> simp_all [eq_comm (a := out)]

theorem comCheckArgs_creating_iff (args out : ComArgs) :
    RubricComment.checkArgs false true args = .ok out ↔
      (args.category ≠ none ∧ args.name ≠ none ∧
        jsTrim (args.name.getD "") ≠ "" ∧ args.pointDelta ≠ none ∧
        args.text ≠ none ∧ jsTrim (args.text.getD "") ≠ "" ∧
        args.sortKey ≠ some none ∧ out = flipCom args) := by
  obtain ⟨c, n, pd, tx, ex, it, tt, sk⟩ := args
  rcases pd with _ | v <;>
  · simp only [RubricComment.checkArgs, flipCom, Bool.not_false, Bool.true_and,
      Bool.and_true, Bool.false_and, Bool.and_false, Bool.false_eq_true,
      if_false, decide_eq_true_eq, Bool.false_or, Bool.or_true]
    split_ifs <;> simp_all [eq_comm (a := out)]

theorem comCheckArgs_updating_iff (args out : ComArgs) :
    RubricComment.checkArgs true false args = .ok out ↔
      (args.sortKey ≠ some none ∧
        (args.name ≠ none → jsTrim (args.name.getD "") ≠ "") ∧
        (args.text ≠ none → jsTrim (args.text.getD "") ≠ "") ∧
        out = flipCom args) := by
  obtain ⟨c, n, pd, tx, ex, it, tt, sk⟩ := args
  rcases pd with _ | v <;>
  · simp only [RubricComment.checkArgs, flipCom, Bool.not_true, Bool.true_and,
      Bool.false_and, Bool.and_false, Bool.and_true, Bool.false_eq_true,
      if_false, decide_eq_true_eq, Bool.true_or, Bool.or_false]
    split_ifs <;> simp_all [eq_comm (a := out)]

/-! ### Claim C8: per-record aggregation of validation failures -/

/-- C8 counterexample: a record with three missing required fields (`name`,
`pointDelta`, `text`) produces an error naming only the single field
`"name"`, not an aggregate of every failing field. -/
theorem checkArgs_no_aggregation_cex :
    emptyComArgs.name = none ∧ emptyComArgs.pointDelta = none ∧
      emptyComArgs.text = none ∧
      RubricComment.checkArgs false false emptyComArgs =
        .error "\"name\": missing" := by
  refine ⟨rfl, rfl, rfl, ?_⟩
  rfl

/-- In create mode a category record's error is exactly the message of the
first failing field in iteration order. -/
theorem catFF_create (a : CatArgs) (m : String) :
    RubricCategory.checkArgs false true a = .error m ↔
      ((a.assignment = none ∧ m = "\"assignment\": missing") ∨
       (a.assignment ≠ none ∧ a.name = none ∧ m = "\"name\": missing") ∨
       (a.assignment ≠ none ∧ a.name ≠ none ∧
         jsTrim (a.name.getD "") = "" ∧ m = "\"name\": invalid") ∨
       (a.assignment ≠ none ∧ a.name ≠ none ∧
         jsTrim (a.name.getD "") ≠ "" ∧ a.sortKey = some none ∧
         m = "\"sortKey\": not a number")) := by
  obtain ⟨asg, nm, pl, ht, amo, sk⟩ := a
  rcases pl with _ | _ | v <;>
  · simp only [RubricCategory.checkArgs]
    split_ifs <;> simp_all [eq_comm (a := m)]

/-- In the default (partial) mode a category record's error is exactly the
message of the first failing field in iteration order. -/
theorem catFF_partial (a : CatArgs) (m : String) :
    RubricCategory.checkArgs false false a = .error m ↔
      ((a.name = none ∧ m = "\"name\": missing") ∨
       (a.name ≠ none ∧ jsTrim (a.name.getD "") = "" ∧
         m = "\"name\": invalid") ∨
       (a.name ≠ none ∧ jsTrim (a.name.getD "") ≠ "" ∧
         a.sortKey = some none ∧ m = "\"sortKey\": not a number")) := by
  obtain ⟨asg, nm, pl, ht, amo, sk⟩ := a
  rcases pl with _ | _ | v <;>
  · simp only [RubricCategory.checkArgs]
    split_ifs <;> simp_all [eq_comm (a := m)]

/-- In update mode a category record's error is exactly the message of the
first failing field in iteration order (the optional `sortKey` is visited
before the re-checked former required `name`). -/
theorem catFF_update (a : CatArgs) (m : String) :
    RubricCategory.checkArgs true false a = .error m ↔
      ((a.sortKey = some none ∧ m = "\"sortKey\": not a number") ∨
       (a.sortKey ≠ some none ∧ a.name ≠ none ∧
         jsTrim (a.name.getD "") = "" ∧ m = "\"name\": invalid")) := by
  obtain ⟨asg, nm, pl, ht, amo, sk⟩ := a
  rcases pl with _ | _ | v <;>
  · simp only [RubricCategory.checkArgs]
    split_ifs <;> simp_all [eq_comm (a := m)]

/-- In create mode a comment record's error is exactly the message of the
first failing field in iteration order. -/
theorem comFF_create (b : ComArgs) (m : String) :
    RubricComment.checkArgs false true b = .error m ↔
      ((b.category = none ∧ m = "\"category\": missing") ∨
       (b.category ≠ none ∧ b.name = none ∧ m = "\"name\": missing") ∨
       (b.category ≠ none ∧ b.name ≠ none ∧
         jsTrim (b.name.getD "") = "" ∧ m = "\"name\": invalid") ∨
       (b.category ≠ none ∧ b.name ≠ none ∧
         jsTrim (b.name.getD "") ≠ "" ∧ b.pointDelta = none ∧
         m = "\"pointDelta\": missing") ∨
       (b.category ≠ none ∧ b.name ≠ none ∧
         jsTrim (b.name.getD "") ≠ "" ∧ b.pointDelta ≠ none ∧
         b.text = none ∧ m = "\"text\": missing") ∨
       (b.category ≠ none ∧ b.name ≠ none ∧
         jsTrim (b.name.getD "") ≠ "" ∧ b.pointDelta ≠ none ∧
         b.text ≠ none ∧ jsTrim (b.text.getD "") = "" ∧
         m = "\"text\": invalid") ∨
       (b.category ≠ none ∧ b.name ≠ none ∧
         jsTrim (b.name.getD "") ≠ "" ∧ b.pointDelta ≠ none ∧
         b.text ≠ none ∧ jsTrim (b.text.getD "") ≠ "" ∧
         b.sortKey = some none ∧ m = "\"sortKey\": not a number")) := by
  obtain ⟨cat, nm, pd, tx, ex, it, tt, sk⟩ := b
  rcases pd with _ | v <;>
  · simp only [RubricComment.checkArgs, Bool.not_false, Bool.not_true,
      Bool.false_and, Bool.true_and, Bool.and_false, Bool.and_eq_true,
      decide_eq_true_eq, Bool.false_eq_true, if_false, false_and,
      if_true]
    split_ifs <;> simp_all [eq_comm (a := m)]

/-- In the default (partial) mode a comment record's error is exactly the
message of the first failing field in iteration order. -/
theorem comFF_partial (b : ComArgs) (m : String) :
    RubricComment.checkArgs false false b = .error m ↔
      ((b.name = none ∧ m = "\"name\": missing") ∨
       (b.name ≠ none ∧ jsTrim (b.name.getD "") = "" ∧
         m = "\"name\": invalid") ∨
       (b.name ≠ none ∧ jsTrim (b.name.getD "") ≠ "" ∧
         b.pointDelta = none ∧ m = "\"pointDelta\": missing") ∨
       (b.name ≠ none ∧ jsTrim (b.name.getD "") ≠ "" ∧
         b.pointDelta ≠ none ∧ b.text = none ∧
         m = "\"text\": missing") ∨
       (b.name ≠ none ∧ jsTrim (b.name.getD "") ≠ "" ∧
         b.pointDelta ≠ none ∧ b.text ≠ none ∧
         jsTrim (b.text.getD "") = "" ∧ m = "\"text\": invalid") ∨
       (b.name ≠ none ∧ jsTrim (b.name.getD "") ≠ "" ∧
         b.pointDelta ≠ none ∧ b.text ≠ none ∧
         jsTrim (b.text.getD "") ≠ "" ∧ b.sortKey = some none ∧
         m = "\"sortKey\": not a number")) := by
  obtain ⟨cat, nm, pd, tx, ex, it, tt, sk⟩ := b
  rcases pd with _ | v <;>
  · simp only [RubricComment.checkArgs, Bool.not_false, Bool.not_true,
      Bool.false_and, Bool.true_and, Bool.and_false, Bool.and_eq_true,
      decide_eq_true_eq, Bool.false_eq_true, if_false, false_and,
      if_true]
    split_ifs <;> simp_all [eq_comm (a := m)]

/-- In update mode a comment record's error is exactly the message of the
first failing field in iteration order (`sortKey` first, then the
re-checked former required `name` and `text`). -/
theorem comFF_update (b : ComArgs) (m : String) :
    RubricComment.checkArgs true false b = .error m ↔
      ((b.sortKey = some none ∧ m = "\"sortKey\": not a number") ∨
       (b.sortKey ≠ some none ∧ b.name ≠ none ∧
         jsTrim (b.name.getD "") = "" ∧ m = "\"name\": invalid") ∨
       (b.sortKey ≠ some none ∧
         ¬(b.name ≠ none ∧ jsTrim (b.name.getD "") = "") ∧
         b.text ≠ none ∧ jsTrim (b.text.getD "") = "" ∧
         m = "\"text\": invalid")) := by
  obtain ⟨cat, nm, pd, tx, ex, it, tt, sk⟩ := b
  rcases pd with _ | v <;>
  · simp only [RubricComment.checkArgs, Bool.not_false, Bool.not_true,
      Bool.false_and, Bool.true_and, Bool.and_false, Bool.and_eq_true,
      decide_eq_true_eq, Bool.false_eq_true, if_false, false_and,
      if_true]
    split_ifs <;> simp_all [eq_comm (a := m)]

/-- C8 (amended): in every mode and for both resource kinds, `checkArgs_`
rejects a record with a single error that names exactly the first invalid
or missing field in field-iteration order (required fields in declaration
order, then the optional ones; in update mode the former required fields
are re-checked after the optional ones) together with the reason, and a
record errors only when some field fails with every earlier field passing —
so the remaining failing fields of the record are never aggregated into
the report. -/
theorem checkArgs_first_failure_only :
    ∀ (a : CatArgs) (b : ComArgs) (m : String),
      (RubricCategory.checkArgs false true a = .error m ↔
        ((a.assignment = none ∧ m = "\"assignment\": missing") ∨
         (a.assignment ≠ none ∧ a.name = none ∧ m = "\"name\": missing") ∨
         (a.assignment ≠ none ∧ a.name ≠ none ∧
           jsTrim (a.name.getD "") = "" ∧ m = "\"name\": invalid") ∨
         (a.assignment ≠ none ∧ a.name ≠ none ∧
           jsTrim (a.name.getD "") ≠ "" ∧ a.sortKey = some none ∧
           m = "\"sortKey\": not a number"))) ∧
      (RubricCategory.checkArgs false false a = .error m ↔
        ((a.name = none ∧ m = "\"name\": missing") ∨
         (a.name ≠ none ∧ jsTrim (a.name.getD "") = "" ∧
           m = "\"name\": invalid") ∨
         (a.name ≠ none ∧ jsTrim (a.name.getD "") ≠ "" ∧
           a.sortKey = some none ∧ m = "\"sortKey\": not a number"))) ∧
      (RubricCategory.checkArgs true false a = .error m ↔
        ((a.sortKey = some none ∧ m = "\"sortKey\": not a number") ∨
         (a.sortKey ≠ some none ∧ a.name ≠ none ∧
           jsTrim (a.name.getD "") = "" ∧ m = "\"name\": invalid"))) ∧
      (RubricComment.checkArgs false true b = .error m ↔
        ((b.category = none ∧ m = "\"category\": missing") ∨
         (b.category ≠ none ∧ b.name = none ∧ m = "\"name\": missing") ∨
         (b.category ≠ none ∧ b.name ≠ none ∧
           jsTrim (b.name.getD "") = "" ∧ m = "\"name\": invalid") ∨
         (b.category ≠ none ∧ b.name ≠ none ∧
           jsTrim (b.name.getD "") ≠ "" ∧ b.pointDelta = none ∧
           m = "\"pointDelta\": missing") ∨
         (b.category ≠ none ∧ b.name ≠ none ∧
           jsTrim (b.name.getD "") ≠ "" ∧ b.pointDelta ≠ none ∧
           b.text = none ∧ m = "\"text\": missing") ∨
         (b.category ≠ none ∧ b.name ≠ none ∧
           jsTrim (b.name.getD "") ≠ "" ∧ b.pointDelta ≠ none ∧
           b.text ≠ none ∧ jsTrim (b.text.getD "") = "" ∧
           m = "\"text\": invalid") ∨
         (b.category ≠ none ∧ b.name ≠ none ∧
           jsTrim (b.name.getD "") ≠ "" ∧ b.pointDelta ≠ none ∧
           b.text ≠ none ∧ jsTrim (b.text.getD "") ≠ "" ∧
           b.sortKey = some none ∧ m = "\"sortKey\": not a number"))) ∧
      (RubricComment.checkArgs false false b = .error m ↔
        ((b.name = none ∧ m = "\"name\": missing") ∨
         (b.name ≠ none ∧ jsTrim (b.name.getD "") = "" ∧
           m = "\"name\": invalid") ∨
         (b.name ≠ none ∧ jsTrim (b.name.getD "") ≠ "" ∧
           b.pointDelta = none ∧ m = "\"pointDelta\": missing") ∨
         (b.name ≠ none ∧ jsTrim (b.name.getD "") ≠ "" ∧
           b.pointDelta ≠ none ∧ b.text = none ∧
           m = "\"text\": missing") ∨
         (b.name ≠ none ∧ jsTrim (b.name.getD "") ≠ "" ∧
           b.pointDelta ≠ none ∧ b.text ≠ none ∧
           jsTrim (b.text.getD "") = "" ∧ m = "\"text\": invalid") ∨
         (b.name ≠ none ∧ jsTrim (b.name.getD "") ≠ "" ∧
           b.pointDelta ≠ none ∧ b.text ≠ none ∧
           jsTrim (b.text.getD "") ≠ "" ∧ b.sortKey = some none ∧
           m = "\"sortKey\": not a number"))) ∧
      (RubricComment.checkArgs true false b = .error m ↔
        ((b.sortKey = some none ∧ m = "\"sortKey\": not a number") ∨
         (b.sortKey ≠ some none ∧ b.name ≠ none ∧
           jsTrim (b.name.getD "") = "" ∧ m = "\"name\": invalid") ∨
         (b.sortKey ≠ some none ∧
           ¬(b.name ≠ none ∧ jsTrim (b.name.getD "") = "") ∧
           b.text ≠ none ∧ jsTrim (b.text.getD "") = "" ∧
           m = "\"text\": invalid"))) :=
  fun a b m =>
    ⟨catFF_create a m, catFF_partial a m, catFF_update a m,
      comFF_create b m, comFF_partial b m, comFF_update b m⟩

/-! ### Claim C9: the sign-flip codec at the accessor boundary -/

/-- C9: `checkArgs` negates `pointLimit` (when non-null) and `pointDelta`
exactly in create and update mode and leaves them unchanged in the default
(partial) mode; `getByIds` negates the fetched values (null `pointLimit`
stays null); and encoding a caller-facing value for the wire followed by
decoding the stored record round-trips to the identity. -/
theorem signFlip_codec :
    (∀ a out : CatArgs, RubricCategory.checkArgs false false a = .ok out →
      out.pointLimit = a.pointLimit) ∧
    (∀ a out : ComArgs, RubricComment.checkArgs false false a = .ok out →
      out.pointDelta = a.pointDelta) ∧
    (∀ a out : CatArgs, RubricCategory.checkArgs false true a = .ok out →
      out.pointLimit = a.pointLimit.map (Option.map fun v => -v)) ∧
    (∀ a out : CatArgs, RubricCategory.checkArgs true false a = .ok out →
      out.pointLimit = a.pointLimit.map (Option.map fun v => -v)) ∧
    (∀ a out : ComArgs, RubricComment.checkArgs false true a = .ok out →
      out.pointDelta = a.pointDelta.map fun v => -v) ∧
    (∀ a out : ComArgs, RubricComment.checkArgs true false a = .ok out →
      out.pointDelta = a.pointDelta.map fun v => -v) ∧
    (∀ (s : RemoteState) (ids : List Nat) (c : RCat),
      c ∈ RubricCategory.getByIds s ids →
        ∃ cw ∈ s.cats, c = catDecode cw ∧
          c.pointLimit = cw.pointLimit.map fun v => -v) ∧
    (∀ (s : RemoteState) (ids : List Nat) (c : RCom),
      c ∈ RubricComment.getByIds s ids →
        ∃ cw ∈ s.coms, c = comDecode cw ∧ c.pointDelta = -cw.pointDelta) ∧
    (∀ (nextId : Nat) (a out : CatArgs) (v : Int),
      a.pointLimit = some (some v) →
        RubricCategory.checkArgs false true a = .ok out →
          (catDecode (serverNewCat nextId out)).pointLimit = some v) ∧
    (∀ (nextId : Nat) (a out : CatArgs),
      a.pointLimit = some none →
        RubricCategory.checkArgs false true a = .ok out →
          (catDecode (serverNewCat nextId out)).pointLimit = none) ∧
    (∀ (nextId : Nat) (a out : ComArgs) (d : Int),
      a.pointDelta = some d →
        RubricComment.checkArgs false true a = .ok out →
          (comDecode (serverNewCom nextId out)).pointDelta = d) := by
  refine ⟨?_, ?_, ?_, ?_, ?_, ?_, ?_, ?_, ?_, ?_, ?_⟩
  · intro a out h
    obtain ⟨-, -, -, rfl⟩ := (catCheckArgs_partial_iff a out).mp h
    rfl
  · intro a out h
    obtain ⟨-, -, -, -, -, -, rfl⟩ := (comCheckArgs_partial_iff a out).mp h
    rfl
  · intro a out h
    obtain ⟨-, -, -, -, rfl⟩ := (catCheckArgs_creating_iff a out).mp h
    rfl
  · intro a out h
    obtain ⟨-, -, rfl⟩ := (catCheckArgs_updating_iff a out).mp h
    rfl
  · intro a out h
    obtain ⟨-, -, -, -, -, -, -, rfl⟩ := (comCheckArgs_creating_iff a out).mp h
    rfl
  · intro a out h
    obtain ⟨-, -, -, rfl⟩ := (comCheckArgs_updating_iff a out).mp h
    rfl
  · intro s ids c hc
    simp only [RubricCategory.getByIds, List.mem_map, List.mem_filterMap]
      at hc
    obtain ⟨cw, ⟨i, -, hfind⟩, rfl⟩ := hc
    exact ⟨cw, List.mem_of_find?_eq_some hfind, rfl, rfl⟩
  · intro s ids c hc
    simp only [RubricComment.getByIds, List.mem_map, List.mem_filterMap]
      at hc
    obtain ⟨cw, ⟨i, -, hfind⟩, rfl⟩ := hc
    exact ⟨cw, List.mem_of_find?_eq_some hfind, rfl, rfl⟩
  · intro nid a out v hv h
    obtain ⟨-, -, -, -, rfl⟩ := (catCheckArgs_creating_iff a out).mp h
    simp [catDecode, serverNewCat, flipCat, hv, neg_neg]
  · intro nid a out hv h
    obtain ⟨-, -, -, -, rfl⟩ := (catCheckArgs_creating_iff a out).mp h
    simp [catDecode, serverNewCat, flipCat, hv]
  · intro nid a out d hv h
    obtain ⟨-, -, -, -, -, -, -, rfl⟩ := (comCheckArgs_creating_iff a out).mp h
    simp [comDecode, serverNewCom, flipCom, hv, neg_neg]

/-- C9 witness: the codec at a concrete category with `pointLimit = 4` and a
concrete comment with `pointDelta = -3`. -/
theorem signFlip_codec_witness :
    (catDecode (serverNewCat 9
        { emptyCatArgs with
            assignment := some 1, name := some "A",
            pointLimit := some (some (-4)) })).pointLimit = some 4 ∧
    (comDecode (serverNewCom 9
        { emptyComArgs with
            category := some 1, name := some "x", pointDelta := some 3,
            text := some "t" })).pointDelta = -3 := by
  constructor
  · exact signFlip_codec.2.2.2.2.2.2.2.2.1 9
      { emptyCatArgs with
          assignment := some 1, name := some "A", pointLimit := some (some 4) }
      _ 4 rfl
      ((catCheckArgs_creating_iff _ _).mpr
        ⟨by simp [emptyCatArgs], by simp [emptyCatArgs], by decide,
          by simp [emptyCatArgs], rfl⟩)
  · exact signFlip_codec.2.2.2.2.2.2.2.2.2.2 9
      { emptyComArgs with
          category := some 1, name := some "x", pointDelta := some (-3),
          text := some "t" }
      _ (-3) rfl
      ((comCheckArgs_creating_iff _ _).mpr
        ⟨by simp [emptyComArgs], by simp [emptyComArgs], by decide,
          by simp [emptyComArgs], by simp [emptyComArgs], by decide,
          by simp [emptyComArgs], rfl⟩)

/-! ### Claim C7: batch item validation fail-fast -/

/-- A PATCH item of valid shape: an object with both `id` and `data`. -/
def patchOkItem : ReqItem → Bool
  | .obj (some _) (some _) => true
  | _ => false

/-- The index-qualified message `fetch_` raises for a malformed PATCH item
(`none` for a well-formed one): a missing item, then a missing `data`, then
a missing `id`. -/
def patchItemError (index : Nat) : ReqItem → Option String
  | .nullItem => some ("\"PATCH\" request " ++ toString index ++ " missing")
  | .num _ => some ("\"PATCH\" request " ++ toString index ++ " missing data")
  | .obj i d =>
    if d = none then
      some ("\"PATCH\" request " ++ toString index ++ " missing data")
    else if i = none then
      some ("\"PATCH\" request " ++ toString index ++ " missing id")
    else none

theorem buildRequests_patch_bad {idx : Nat} {it : ReqItem} {e : String}
    (ep key : String) (rest : List ReqItem)
    (h : patchItemError idx it = some e) :
    buildRequests .PATCH ep (some key) idx (it :: rest) = .error e := by
  cases it with
  | nullItem => simp_all [patchItemError, buildRequests]
  | num n => simp_all [patchItemError, buildRequests]
  | obj i d =>
    cases i <;> cases d <;> simp_all [patchItemError, buildRequests]

theorem buildRequests_patch_skip (ep key : String) (rest : List ReqItem)
    (e : String) :
    ∀ (pre : List ReqItem) (idx : Nat),
      (∀ it ∈ pre, patchOkItem it = true) →
      buildRequests .PATCH ep (some key) (idx + pre.length) rest = .error e →
      buildRequests .PATCH ep (some key) idx (pre ++ rest) = .error e := by
  intro pre
  induction pre with
  | nil => intro idx _ h; simpa using h
  | cons it pre ih =>
    intro idx hok h
    have hit := hok it (by simp)
    match it with
    | .obj (some i) (some d) =>
      have : buildRequests .PATCH ep (some key) (idx + 1)
          (pre ++ rest) = .error e := by
        refine ih (idx + 1) (fun x hx => hok x (by simp [hx])) ?_
        have : idx + 1 + pre.length = idx + (it :: pre).length := by
          simp; omega
        rw [this]; exact h
      simp [buildRequests, this]
    | .obj (some i) none => simp [patchOkItem] at hit
    | .obj none d => simp [patchOkItem] at hit
    | .nullItem => simp [patchOkItem] at hit
    | .num n => simp [patchOkItem] at hit

theorem buildRequests_post_null (ep key : String) (rest : List ReqItem)
    (idx : Nat) :
    buildRequests .POST ep (some key) idx (.nullItem :: rest) =
      .error ("\"POST\" request " ++ toString idx ++ " missing data") := by
  simp [buildRequests]

theorem buildRequests_post_skip (ep key : String) (rest : List ReqItem)
    (e : String) :
    ∀ (pre : List ReqItem) (idx : Nat),
      (∀ it ∈ pre, it ≠ .nullItem) →
      buildRequests .POST ep (some key) (idx + pre.length) rest = .error e →
      buildRequests .POST ep (some key) idx (pre ++ rest) = .error e := by
  intro pre
  induction pre with
  | nil => intro idx _ h; simpa using h
  | cons it pre ih =>
    intro idx hok h
    have hit := hok it (by simp)
    have hrec : buildRequests .POST ep (some key) (idx + 1)
        (pre ++ rest) = .error e := by
      refine ih (idx + 1) (fun x hx => hok x (by simp [hx])) ?_
      have : idx + 1 + pre.length = idx + (it :: pre).length := by
        simp; omega
      rw [this]; exact h
    match it with
    | .num n => simp [buildRequests, hrec]
    | .obj i d => simp [buildRequests, hrec]
    | .nullItem => exact absurd rfl hit

/-- C7: a PATCH batch containing a malformed item (a null item, a missing
`data`, or a missing `id`) is rejected as a whole with an error naming the
first offending item's index and the missing part, and no request of the
batch reaches the network; analogously, a POST batch containing a null item
(with well-formed items before it) is rejected with an index-qualified
`missing data` error before any dispatch. -/
theorem fetch_batch_fail_fast :
    (∀ (ep key : String) (pre post : List ReqItem) (bad : ReqItem)
        (e : String),
      (∀ it ∈ pre, patchOkItem it = true) →
      patchItemError pre.length bad = some e →
      fetch_ .PATCH ep (some key) (pre ++ bad :: post) = .error e ∧
        dispatchedRequests
          (fetch_ .PATCH ep (some key) (pre ++ bad :: post)) = []) ∧
    (∀ (ep key : String) (pre post : List ReqItem),
      (∀ it ∈ pre, it ≠ .nullItem) →
      fetch_ .POST ep (some key) (pre ++ .nullItem :: post) =
        .error ("\"POST\" request " ++ toString pre.length ++
          " missing data") ∧
        dispatchedRequests
          (fetch_ .POST ep (some key) (pre ++ .nullItem :: post)) = []) := by
  constructor
  · intro ep key pre post bad e hok hbad
    have : fetch_ .PATCH ep (some key) (pre ++ bad :: post) = .error e := by
      unfold fetch_
      refine buildRequests_patch_skip ep key (bad :: post) e pre 0 hok ?_
      refine buildRequests_patch_bad ep key post ?_
      simpa using hbad
    exact ⟨this, by simp [this, dispatchedRequests]⟩
  · intro ep key pre post hok
    have : fetch_ .POST ep (some key) (pre ++ .nullItem :: post) =
        .error ("\"POST\" request " ++ toString pre.length ++
          " missing data") := by
      unfold fetch_
      refine buildRequests_post_skip ep key (.nullItem :: post) _ pre 0 hok ?_
      simpa using buildRequests_post_null ep key post pre.length
    exact ⟨this, by simp [this, dispatchedRequests]⟩

/-- C7 witness: the spec's own example — a PATCH batch of 3 items whose item
at index 2 is missing `id` is rejected with an error naming index 2, and
nothing is dispatched. -/
theorem fetch_batch_fail_fast_witness :
    fetch_ .PATCH "rubricComments/" (some "k")
        [.obj (some 1) (some "a"), .obj (some 2) (some "b"),
          .obj none (some "c")] =
      .error "\"PATCH\" request 2 missing id" ∧
    dispatchedRequests
        (fetch_ .PATCH "rubricComments/" (some "k")
          [.obj (some 1) (some "a"), .obj (some 2) (some "b"),
            .obj none (some "c")]) = [] := by
  have h := fetch_batch_fail_fast.1 "rubricComments/" "k"
    [.obj (some 1) (some "a"), .obj (some 2) (some "b")] []
    (.obj none (some "c")) "\"PATCH\" request 2 missing id"
    (by decide) (by decide)
  simpa using h

/-! ### Claim C4: uniqueness enforcement fails fast -/

/-- The (stable) name of a rubric entry's category;
`RubricCategory.checkArgs` in the default mode returns `name` unchanged, so
this is the name the engine sees. -/
def catNameOf (e : RubricEntry) : String := e.cat.name.getD ""

/-- The comments array of an entry (defaulting the missing case). -/
def entryComs (e : RubricEntry) : List ComArgs := e.comments.getD []

/-- The names of a comment list. -/
def comNamesOf (cs : List ComArgs) : List String :=
  cs.map fun a => a.name.getD ""

/-- Category args that pass `RubricCategory.checkArgs` in the default
mode. -/
def catValidArgsB (c : CatArgs) : Bool :=
  c.name.isSome && jsTrim (c.name.getD "") != "" && c.sortKey != some none

/-- Comment args that pass `RubricComment.checkArgs` in the default mode. -/
def comValidB (a : ComArgs) : Bool :=
  a.name.isSome && jsTrim (a.name.getD "") != "" && a.pointDelta.isSome &&
    a.text.isSome && jsTrim (a.text.getD "") != "" && a.sortKey != some none

/-- A comment list that validates cleanly against the given already-seen
comment names (valid args, no duplicate). -/
def cleanComsB (seenM : List String) : List ComArgs → Bool
  | [] => true
  | a :: rest =>
    comValidB a && !(seenM.contains (a.name.getD "")) &&
      cleanComsB ((a.name.getD "") :: seenM) rest

/-- An entry list that validates cleanly against the given already-seen
category and comment names. -/
def cleanEntriesB (seenC seenM : List String) : List RubricEntry → Bool
  | [] => true
  | e :: rest =>
    catValidArgsB e.cat && !(seenC.contains (catNameOf e)) &&
      e.comments.isSome && cleanComsB seenM (entryComs e) &&
      cleanEntriesB (catNameOf e :: seenC)
        ((comNamesOf (entryComs e)).reverse ++ seenM) rest

theorem catValidArgsB_checkArgs {c : CatArgs} (h : catValidArgsB c = true) :
    RubricCategory.checkArgs false false c =
      .ok { c with assignment := none } := by
  simp only [catValidArgsB, Bool.and_eq_true, bne_iff_ne, ne_eq,
    Option.isSome_iff_ne_none] at h
  exact (catCheckArgs_partial_iff c _).mpr ⟨h.1.1, h.1.2, h.2, rfl⟩

theorem comValidB_checkArgs {a : ComArgs} (h : comValidB a = true) :
    RubricComment.checkArgs false false a =
      .ok { a with category := none } := by
  simp only [comValidB, Bool.and_eq_true, bne_iff_ne, ne_eq,
    Option.isSome_iff_ne_none] at h
  exact (comCheckArgs_partial_iff a _).mpr
    ⟨h.1.1.1.1.1, h.1.1.1.1.2, h.1.1.1.2, h.1.1.2, h.1.2, h.2, rfl⟩

theorem checkRubricComments_clean (i1 : Nat) :
    ∀ (cs : List ComArgs) (seenM : List String) (i2 : Nat),
      cleanComsB seenM cs = true →
      checkRubricComments i1 seenM i2 cs =
        .ok (cs.map fun a => { a with category := none },
          (comNamesOf cs).reverse ++ seenM) := by
  intro cs
  induction cs with
  | nil => intro seenM i2 _; simp [checkRubricComments, comNamesOf]
  | cons a rest ih =>
    intro seenM i2 h
    simp only [cleanComsB, Bool.and_eq_true, Bool.not_eq_true'] at h
    obtain ⟨⟨hv, hnm⟩, hrest⟩ := h
    replace hnm : (a.name.getD "") ∉ seenM := by simpa using hnm
    simp only [checkRubricComments, comValidB_checkArgs hv]
    rw [ih _ (i2 + 1) hrest]
    simp [comNamesOf, hnm]

theorem checkRubricComments_skip (i1 : Nat) :
    ∀ (cpre : List ComArgs) (rest : List ComArgs) (seenM : List String)
      (i2 : Nat) (e : String),
      cleanComsB seenM cpre = true →
      checkRubricComments i1 ((comNamesOf cpre).reverse ++ seenM)
          (i2 + cpre.length) rest = .error e →
      checkRubricComments i1 seenM i2 (cpre ++ rest) = .error e := by
  intro cpre
  induction cpre with
  | nil => intro rest seenM i2 e _ h; simpa [comNamesOf] using h
  | cons a cp ih =>
    intro rest seenM i2 e hc h
    simp only [cleanComsB, Bool.and_eq_true, Bool.not_eq_true'] at hc
    obtain ⟨⟨hv, hnm⟩, hrest⟩ := hc
    replace hnm : (a.name.getD "") ∉ seenM := by simpa using hnm
    have hrec := ih rest ((a.name.getD "") :: seenM) (i2 + 1) e hrest (by
      have harr : (comNamesOf cp).reverse ++ (a.name.getD "") :: seenM =
          (comNamesOf (a :: cp)).reverse ++ seenM := by
        simp [comNamesOf]
      have hlen : i2 + 1 + cp.length = i2 + (a :: cp).length := by
        simp; omega
      rw [harr, hlen]
      exact h)
    simp only [List.cons_append, checkRubricComments,
      comValidB_checkArgs hv]
    simp [hnm, hrec]

theorem checkRubricCats_skip :
    ∀ (pre : List RubricEntry) (rest : List RubricEntry)
      (seenC seenM : List String) (idx : Nat) (e : String),
      cleanEntriesB seenC seenM pre = true →
      checkRubricCats ((pre.map catNameOf).reverse ++ seenC)
          ((pre.flatMap fun en => comNamesOf (entryComs en)).reverse ++ seenM)
          (idx + pre.length) rest = .error e →
      checkRubricCats seenC seenM idx (pre ++ rest) = .error e := by
  intro pre
  induction pre with
  | nil => intro rest seenC seenM idx e _ h; simpa using h
  | cons en pr ih =>
    intro rest seenC seenM idx e hc h
    simp only [cleanEntriesB, Bool.and_eq_true, Bool.not_eq_true',
      Option.isSome_iff_ne_none] at hc
    obtain ⟨⟨⟨⟨hv, hnm⟩, hcm⟩, hcl⟩, hrest⟩ := hc
    replace hnm : catNameOf en ∉ seenC := by simpa using hnm
    obtain ⟨cs, hcs⟩ : ∃ cs, en.comments = some cs := by
      cases hcse : en.comments with
      | none => exact absurd hcse hcm
      | some cs => exact ⟨cs, rfl⟩
    have hcs' : entryComs en = cs := by simp [entryComs, hcs]
    have hrec := ih rest (catNameOf en :: seenC)
      ((comNamesOf cs).reverse ++ seenM) (idx + 1) e
      (by rw [← hcs']; exact hrest)
      (by
        have h1 : (pr.map catNameOf).reverse ++ catNameOf en :: seenC =
            ((en :: pr).map catNameOf).reverse ++ seenC := by simp
        have h2 : (pr.flatMap fun x => comNamesOf (entryComs x)).reverse ++
              ((comNamesOf cs).reverse ++ seenM) =
            ((en :: pr).flatMap fun x =>
              comNamesOf (entryComs x)).reverse ++ seenM := by
          simp [hcs']
        have h3 : idx + 1 + pr.length = idx + (en :: pr).length := by
          simp; omega
        rw [h1, h2, h3]
        exact h)
    simp only [List.cons_append, checkRubricCats, catValidArgsB_checkArgs hv,
      hcs]
    rw [checkRubricComments_clean idx cs seenM 0 (hcs' ▸ hcl)]
    simp only [catNameOf] at hnm hrec
    simp [hnm, hrec]

/-- C4: a rubric whose categories validate cleanly up to a duplicated
category name, or up to a duplicated comment name, fails `importRubric_`
with a validation error naming the index of the second (offending)
occurrence — and the run issues no network call of any kind (the log is
empty): structural validation strictly precedes the assignment fetch and
every mutation. -/
theorem importRubric_uniqueness_fail_fast :
    (∀ (aid : Nat) (wipe dx conf : Bool) (s : RemoteState)
        (pre : List RubricEntry) (ej : RubricEntry)
        (post : List RubricEntry),
      cleanEntriesB [] [] pre = true →
      catValidArgsB ej.cat = true →
      catNameOf ej ∈ pre.map catNameOf →
      importRubric_ (some aid) (some (pre ++ ej :: post)) wipe dx conf s =
        ([], .error (catPrefixMsg pre.length ++
          notUniqueMsg (catNameOf ej)))) ∧
    (∀ (aid : Nat) (wipe dx conf : Bool) (s : RemoteState)
        (pre : List RubricEntry) (ej : RubricEntry)
        (post : List RubricEntry) (cpre : List ComArgs) (abad : ComArgs)
        (cpost : List ComArgs),
      cleanEntriesB [] [] pre = true →
      catValidArgsB ej.cat = true →
      catNameOf ej ∉ pre.map catNameOf →
      ej.comments = some (cpre ++ abad :: cpost) →
      cleanComsB ((pre.flatMap fun en => comNamesOf (entryComs en)).reverse)
          cpre = true →
      comValidB abad = true →
      ((abad.name.getD "") ∈ comNamesOf cpre ∨
        (abad.name.getD "") ∈
          pre.flatMap fun en => comNamesOf (entryComs en)) →
      importRubric_ (some aid) (some (pre ++ ej :: post)) wipe dx conf s =
        ([], .error (comPrefixMsg pre.length cpre.length ++
          notUniqueMsg (abad.name.getD "")))) := by
  constructor
  · intro aid wipe dx conf s pre ej post hpre hej hdup
    have hvalid : checkValidRubric_ (some (pre ++ ej :: post)) =
        .error (catPrefixMsg pre.length ++ notUniqueMsg (catNameOf ej)) := by
      unfold checkValidRubric_
      refine checkRubricCats_skip pre (ej :: post) [] [] 0 _ hpre ?_
      have hmem : (ej.cat.name.getD "") ∈ (pre.map catNameOf).reverse := by
        simpa [catNameOf] using hdup
      simp only [checkRubricCats, catValidArgsB_checkArgs hej, Nat.zero_add,
        List.append_nil]
      rw [if_pos hmem]
      simp [catNameOf]
    simp [importRubric_, hvalid]
  · intro aid wipe dx conf s pre ej post cpre abad cpost hpre hej hnodup hcs
      hcpre habad hdup
    have hvalid : checkValidRubric_ (some (pre ++ ej :: post)) =
        .error (comPrefixMsg pre.length cpre.length ++
          notUniqueMsg (abad.name.getD "")) := by
      unfold checkValidRubric_
      refine checkRubricCats_skip pre (ej :: post) [] [] 0 _ hpre ?_
      have hnmem : (ej.cat.name.getD "") ∉ (pre.map catNameOf).reverse := by
        simpa [catNameOf] using hnodup
      have hinner : checkRubricComments pre.length
          ((pre.flatMap fun en => comNamesOf (entryComs en)).reverse)
          0 (cpre ++ abad :: cpost) =
          .error (comPrefixMsg pre.length cpre.length ++
            notUniqueMsg (abad.name.getD "")) := by
        refine checkRubricComments_skip pre.length cpre (abad :: cpost) _ 0 _
          hcpre ?_
        have hmem : (abad.name.getD "") ∈ (comNamesOf cpre).reverse ++
            (pre.flatMap fun en => comNamesOf (entryComs en)).reverse := by
          rcases hdup with h | h
          · simp [h]
          · simp [h]
        simp only [checkRubricComments, comValidB_checkArgs habad,
          Nat.zero_add]
        rw [if_pos hmem]
      simp only [checkRubricCats, catValidArgsB_checkArgs hej, hcs,
        Nat.zero_add, List.append_nil]
      rw [if_neg hnmem, hinner]
    simp [importRubric_, hvalid]

/-- C4 witness: the spec's example — two categories both named `"Style"`
fail with an error naming index 1, with an empty request log. -/
theorem importRubric_uniqueness_fail_fast_witness :
    importRubric_ (some 3)
        (some [⟨{ emptyCatArgs with name := some "Style" }, some []⟩,
          ⟨{ emptyCatArgs with name := some "Style" }, some []⟩])
        false false true ⟨[], [], 0, 0⟩ =
      ([], .error "`rubric`: category 1: \"name\": not unique (\"Style\")") := by
  have h := importRubric_uniqueness_fail_fast.1 3 false false true
    ⟨[], [], 0, 0⟩ [⟨{ emptyCatArgs with name := some "Style" }, some []⟩]
    ⟨{ emptyCatArgs with name := some "Style" }, some []⟩ []
    (by decide) (by decide) (by decide)
  simpa [catPrefixMsg, notUniqueMsg, catNameOf] using h

/-! ### Helper lemmas: indexed maps, `mapM`, JS objects -/

theorem mapWithIndex_congr {α β : Type} {f g : Nat → α → β}
    (h : ∀ i a, f i a = g i a) :
    ∀ (i : Nat) (l : List α), mapWithIndex f i l = mapWithIndex g i l := by
  intro i l
  induction l generalizing i with
  | nil => rfl
  | cons a as ih => simp [mapWithIndex, h, ih]

theorem mapWithIndex_shift {α β : Type} :
    ∀ (l : List α) (f : Nat → α → β) (i : Nat),
      mapWithIndex f i l = mapWithIndex (fun j a => f (i + j) a) 0 l := by
  intro l
  induction l with
  | nil => intro f i; rfl
  | cons a as ih =>
    intro f i
    simp only [mapWithIndex]
    rw [ih f (i + 1), ih (fun j a => f (i + j) a) 1]
    congr 1
    exact mapWithIndex_congr (fun j a => by
      have : i + 1 + j = i + (1 + j) := by omega
      rw [this]) 0 as

theorem mapWithIndex_length {α β : Type} (f : Nat → α → β) :
    ∀ (l : List α) (i : Nat), (mapWithIndex f i l).length = l.length := by
  intro l
  induction l with
  | nil => intro i; rfl
  | cons a as ih => intro i; simp [mapWithIndex, ih]

theorem mapWithIndex_getElem {α β : Type} (f : Nat → α → β) :
    ∀ (l : List α) (i j : Nat) (h : j < l.length)
      (h2 : j < (mapWithIndex f i l).length),
      (mapWithIndex f i l)[j] = f (i + j) l[j] := by
  intro l
  induction l with
  | nil => intro i j h _; simp at h
  | cons a as ih =>
    intro i j h h2
    cases j with
    | zero => simp [mapWithIndex]
    | succ j' =>
      simp only [mapWithIndex, List.getElem_cons_succ]
      rw [ih (i + 1) j' (by simpa using h) (by simpa [mapWithIndex_length]
        using h2)]
      have : i + 1 + j' = i + (j' + 1) := by omega
      rw [this]

theorem mapM_ok {α β : Type} (f : α → Except String β) (g : α → β) :
    ∀ (l : List α), (∀ a ∈ l, f a = .ok (g a)) →
      l.mapM f = .ok (l.map g) := by
  intro l
  induction l with
  | nil => intro _; rfl
  | cons a as ih =>
    intro h
    rw [List.mapM_cons, h a (by simp)]
    have := ih (fun x hx => h x (by simp [hx]))
    simp only [this]
    rfl

theorem insertEntry_notMem {α : Type} (k : String) (v : α) :
    ∀ (m : List (String × α)), k ∉ m.map Prod.fst →
      insertEntry m k v = m ++ [(k, v)] := by
  intro m
  induction m with
  | nil => intro _; rfl
  | cons kv rest ih =>
    intro h
    simp only [List.map_cons, List.mem_cons] at h
    push_neg at h
    simp only [insertEntry]
    rw [if_neg (fun he => h.1 he.symm), ih h.2]
    simp

theorem foldl_insertEntry_append {α : Type} :
    ∀ (l acc : List (String × α)),
      (acc.map Prod.fst ++ l.map Prod.fst).Nodup →
      l.foldl (fun m kv => insertEntry m kv.1 kv.2) acc = acc ++ l := by
  intro l
  induction l with
  | nil => intro acc _; simp
  | cons kv rest ih =>
    intro acc h
    simp only [List.map_cons] at h
    have hd := List.nodup_append.mp h
    have hk : kv.1 ∉ acc.map Prod.fst := by
      intro hmem
      exact hd.2.2 hmem (by simp)
    simp only [List.foldl_cons, insertEntry_notMem kv.1 kv.2 acc hk]
    have hres := ih (acc ++ [kv]) (by
      simp only [List.map_append, List.map_cons, List.map_nil,
        List.append_assoc, List.singleton_append]
      exact h)
    rw [hres]
    simp

/-- `Object.fromEntries` of an entry list with pairwise distinct keys is the
list itself. -/
theorem fromEntries_nodup {α : Type} (l : List (String × α))
    (h : (l.map Prod.fst).Nodup) : fromEntries l = l := by
  have := foldl_insertEntry_append l [] (by simpa using h)
  simpa [fromEntries] using this

theorem catValidArgsB_true_iff (c : CatArgs) :
    catValidArgsB c = true ↔
      (c.name ≠ none ∧ jsTrim (c.name.getD "") ≠ "" ∧
        c.sortKey ≠ some none) := by
  simp [catValidArgsB, Bool.and_eq_true, bne_iff_ne,
    Option.isSome_iff_ne_none, and_assoc]

theorem comValidB_true_iff (a : ComArgs) :
    comValidB a = true ↔
      (a.name ≠ none ∧ jsTrim (a.name.getD "") ≠ "" ∧
        a.pointDelta ≠ none ∧ a.text ≠ none ∧
        jsTrim (a.text.getD "") ≠ "" ∧ a.sortKey ≠ some none) := by
  simp [comValidB, Bool.and_eq_true, bne_iff_ne,
    Option.isSome_iff_ne_none, and_assoc]

theorem checkRubricComments_ok (i1 : Nat) :
    ∀ (cs : List ComArgs) (seenM : List String) (i2 : Nat)
      {outs : List ComArgs} {seen' : List String},
      checkRubricComments i1 seenM i2 cs = .ok (outs, seen') →
      outs = cs.map (fun a => { a with category := none }) ∧
        seen' = (comNamesOf cs).reverse ++ seenM ∧
        cleanComsB seenM cs = true := by
  intro cs
  induction cs with
  | nil =>
    intro seenM i2 outs seen' h
    simp only [checkRubricComments] at h
    cases h
    simp [comNamesOf, cleanComsB]
  | cons a rest ih =>
    intro seenM i2 outs seen' h
    simp only [checkRubricComments] at h
    cases hca : RubricComment.checkArgs false false a with
    | error m => rw [hca] at h; cases h
    | ok out =>
      rw [hca] at h
      obtain ⟨hn, htr, hpd, htx, httr, hsk, rfl⟩ :=
        (comCheckArgs_partial_iff a out).mp hca
      simp only at h
      by_cases hmem : (a.name.getD "") ∈ seenM
      · rw [if_pos hmem] at h; cases h
      · rw [if_neg hmem] at h
        cases hrec : checkRubricComments i1 ((a.name.getD "") :: seenM)
            (i2 + 1) rest with
        | error m => rw [hrec] at h; cases h
        | ok pr =>
          rw [hrec] at h
          obtain ⟨cs', seen''⟩ := pr
          cases h
          obtain ⟨h1, h2, h3⟩ := ih _ (i2 + 1) hrec
          refine ⟨by simp [h1], by simp [h2, comNamesOf], ?_⟩
          simp only [cleanComsB, Bool.and_eq_true]
          refine ⟨⟨(comValidB_true_iff a).mpr
            ⟨hn, htr, hpd, htx, httr, hsk⟩, by simpa using hmem⟩, h3⟩

theorem checkRubricCats_ok :
    ∀ (entries : List RubricEntry) (seenC seenM : List String) (idx : Nat)
      {gcats : List CatArgs} {gcoms : List (String × List ComArgs)},
      checkRubricCats seenC seenM idx entries = .ok (gcats, gcoms) →
      gcats = entries.map (fun e => { e.cat with assignment := none }) ∧
        gcoms = entries.map (fun e => (catNameOf e,
          (entryComs e).map fun a => { a with category := none })) ∧
        cleanEntriesB seenC seenM entries = true := by
  intro entries
  induction entries with
  | nil =>
    intro seenC seenM idx gcats gcoms h
    simp only [checkRubricCats] at h
    cases h
    simp [cleanEntriesB]
  | cons e rest ih =>
    intro seenC seenM idx gcats gcoms h
    simp only [checkRubricCats] at h
    cases hca : RubricCategory.checkArgs false false e.cat with
    | error m => rw [hca] at h; cases h
    | ok out =>
      rw [hca] at h
      obtain ⟨hn, htr, hsk, rfl⟩ := (catCheckArgs_partial_iff e.cat out).mp hca
      simp only at h
      by_cases hmem : (e.cat.name.getD "") ∈ seenC
      · rw [if_pos hmem] at h; cases h
      · rw [if_neg hmem] at h
        cases hcs : e.comments with
        | none => rw [hcs] at h; cases h
        | some cs =>
          rw [hcs] at h
          simp only at h
          cases hcc : checkRubricComments idx seenM 0 cs with
          | error m => rw [hcc] at h; cases h
          | ok pr =>
            rw [hcc] at h
            obtain ⟨coms, seenM'⟩ := pr
            simp only at h
            obtain ⟨hc1, hc2, hc3⟩ := checkRubricComments_ok idx cs seenM 0 hcc
            cases hrec : checkRubricCats ((e.cat.name.getD "") :: seenC)
                seenM' (idx + 1) rest with
            | error m => rw [hrec] at h; cases h
            | ok pr' =>
              rw [hrec] at h
              obtain ⟨gcats', gcoms'⟩ := pr'
              cases h
              subst hc2
              obtain ⟨h1, h2, h3⟩ := ih _ _ (idx + 1) hrec
              have hec : entryComs e = cs := by simp [entryComs, hcs]
              refine ⟨by simp [h1], ?_, ?_⟩
              · rw [h2, hc1]
                simp [catNameOf, hec]
              · simp only [cleanEntriesB, Bool.and_eq_true]
                refine ⟨⟨⟨⟨(catValidArgsB_true_iff e.cat).mpr ⟨hn, htr, hsk⟩,
                  by simpa [catNameOf] using hmem⟩, by simp [hcs]⟩,
                  by rw [hec]; exact hc3⟩, ?_⟩
                rw [hec]
                simpa [catNameOf] using h3

/-- The facts `importRubric_` relies on downstream of a successful
`checkValidRubric_`. -/
theorem checkValidRubric_ok {entries : List RubricEntry}
    {gcats : List CatArgs} {gcoms : List (String × List ComArgs)}
    (h : checkValidRubric_ (some entries) = .ok (gcats, gcoms)) :
    gcats = entries.map (fun e => { e.cat with assignment := none }) ∧
      gcoms = entries.map (fun e => (catNameOf e,
        (entryComs e).map fun a => { a with category := none })) ∧
      cleanEntriesB [] [] entries = true :=
  checkRubricCats_ok entries [] [] 0 h

/-! ### Server creation semantics in closed form -/

theorem serverCreateCats_spec :
    ∀ (ps : List CatArgs) (s : RemoteState),
      serverCreateCats s ps =
        (mapWithIndex (fun i p => serverNewCat (s.nextId + i) p) 0 ps,
          { s with
            cats := s.cats ++
              mapWithIndex (fun i p => serverNewCat (s.nextId + i) p) 0 ps
            nextId := s.nextId + ps.length }) := by
  intro ps
  induction ps with
  | nil => intro s; simp [serverCreateCats, mapWithIndex]
  | cons p rest ih =>
    intro s
    simp only [serverCreateCats, ih]
    rw [mapWithIndex_shift rest (fun i p => serverNewCat (s.nextId + 1 + i) p)
      0]
    simp only [mapWithIndex]
    rw [mapWithIndex_shift rest (fun i p => serverNewCat (s.nextId + i) p) 1]
    rw [mapWithIndex_congr (fun j (a : CatArgs) => by
      have hj : s.nextId + 1 + (0 + j) = s.nextId + (1 + j) := by omega
      rw [hj]) 0 rest]
    simp only [Nat.add_zero, List.append_assoc, List.singleton_append,
      Prod.mk.injEq, RemoteState.mk.injEq, List.length_cons]
    exact ⟨trivial, trivial, trivial, by omega, trivial⟩

theorem serverCreateComs_spec :
    ∀ (ps : List ComArgs) (s : RemoteState),
      serverCreateComs s ps =
        (mapWithIndex (fun i p => serverNewCom (s.nextId + i) p) 0 ps,
          { s with
            coms := s.coms ++
              mapWithIndex (fun i p => serverNewCom (s.nextId + i) p) 0 ps
            nextId := s.nextId + ps.length }) := by
  intro ps
  induction ps with
  | nil => intro s; simp [serverCreateComs, mapWithIndex]
  | cons p rest ih =>
    intro s
    simp only [serverCreateComs, ih]
    rw [mapWithIndex_shift rest (fun i p => serverNewCom (s.nextId + 1 + i) p)
      0]
    simp only [mapWithIndex]
    rw [mapWithIndex_shift rest (fun i p => serverNewCom (s.nextId + i) p) 1]
    rw [mapWithIndex_congr (fun j (a : ComArgs) => by
      have hj : s.nextId + 1 + (0 + j) = s.nextId + (1 + j) := by omega
      rw [hj]) 0 rest]
    simp only [Nat.add_zero, List.append_assoc, List.singleton_append,
      Prod.mk.injEq, RemoteState.mk.injEq, List.length_cons]
    exact ⟨trivial, trivial, trivial, by omega, trivial⟩

/-! ### Claim C2: wipe-mode semantics -/

/-- The position of the first occurrence of a name in a name list. -/
def idxOfName (nm : String) : List String → Nat
  | [] => 0
  | n :: rest => if n = nm then 0 else idxOfName nm rest + 1

/-- Modelled from the spec: the wire payloads of the wipe-mode category
creation — the desired categories in declared order, anchored to the
assignment, with `sortKey` equal to the 0-based position (in wire sign). -/
def wipeCatPayloads (aid : Nat) (gcats : List CatArgs) : List CatArgs :=
  mapWithIndex
    (fun i g =>
      flipCat { g with assignment := some aid, sortKey := some (some i) })
    0 gcats

/-- Modelled from the spec: the wire payloads of the wipe-mode comment
creation — all desired comments in declared order per category, `sortKey`
equal to the 0-based position within the category, and `category` the id
freshly returned for the category's name (the `i`-th created category gets
id `n0 + i`). -/
def wipeComPayloads (n0 : Nat) (names : List String)
    (gcoms : List (String × List ComArgs)) : List ComArgs :=
  gcoms.flatMap fun kc =>
    mapWithIndex
      (fun i a =>
        flipCom { a with
          category := some (n0 + idxOfName kc.1 names)
          sortKey := some (some i) })
      0 kc.2

theorem map_mapWithIndex {α β γ : Type} (f : Nat → α → β) (g : β → γ) :
    ∀ (l : List α) (i : Nat),
      (mapWithIndex f i l).map g = mapWithIndex (fun j a => g (f j a)) i l := by
  intro l
  induction l with
  | nil => intro i; rfl
  | cons a as ih => intro i; simp [mapWithIndex, ih]

theorem mapWithIndex_mapWithIndex {α β γ : Type} (f : Nat → α → β)
    (g : Nat → β → γ) :
    ∀ (l : List α) (i : Nat),
      mapWithIndex g i (mapWithIndex f i l) =
        mapWithIndex (fun j a => g j (f j a)) i l := by
  intro l
  induction l with
  | nil => intro i; rfl
  | cons a as ih => intro i; simp [mapWithIndex, ih]

theorem flatMap_congr_mem {α β : Type} {l : List α} {f g : α → List β}
    (h : ∀ x ∈ l, f x = g x) : l.flatMap f = l.flatMap g := by
  induction l with
  | nil => rfl
  | cons a as ih =>
    simp only [List.flatMap_cons, h a (by simp)]
    rw [ih (fun x hx => h x (by simp [hx]))]

theorem mapWithIndex_eq_nil {α β : Type} (f : Nat → α → β) (l : List α)
    (i : Nat) : mapWithIndex f i l = [] ↔ l = [] := by
  cases l <;> simp [mapWithIndex]

theorem lookupEntry_indexed :
    ∀ (names : List String) (n0 : Nat) (nm : String), nm ∈ names →
      lookupEntry (mapWithIndex (fun i n => (n, n0 + i)) 0 names) nm =
        some (n0 + idxOfName nm names) := by
  intro names
  induction names with
  | nil => intro n0 nm h; simp at h
  | cons n rest ih =>
    intro n0 nm h
    simp only [mapWithIndex, lookupEntry, idxOfName]
    by_cases he : n = nm
    · simp [he]
    · rw [if_neg he, if_neg he]
      rw [mapWithIndex_shift rest (fun i n => (n, n0 + i)) 1]
      have hmem : nm ∈ rest := by
        rcases List.mem_cons.mp h with h' | h'
        · exact absurd h'.symm he
        · exact h'
      have := ih (n0 + 1) nm hmem
      rw [mapWithIndex_shift rest (fun i n => (n, n0 + 1 + i)) 0] at this
      rw [mapWithIndex_congr (fun j a => by
        have hj : n0 + (1 + j) = n0 + 1 + (0 + j) := by omega
        rw [hj]) 0 rest]
      rw [this]
      congr 1
      omega

theorem cleanComsB_facts :
    ∀ (cs : List ComArgs) (seenM : List String),
      cleanComsB seenM cs = true →
      (∀ a ∈ cs, comValidB a = true) ∧ (comNamesOf cs).Nodup ∧
        (∀ n ∈ comNamesOf cs, n ∉ seenM) := by
  intro cs
  induction cs with
  | nil => intro seenM _; simp [comNamesOf]
  | cons a rest ih =>
    intro seenM h
    simp only [cleanComsB, Bool.and_eq_true, Bool.not_eq_true'] at h
    obtain ⟨⟨hv, hnm⟩, hrest⟩ := h
    replace hnm : (a.name.getD "") ∉ seenM := by simpa using hnm
    obtain ⟨ih1, ih2, ih3⟩ := ih _ hrest
    refine ⟨?_, ?_, ?_⟩
    · intro x hx
      rcases List.mem_cons.mp hx with rfl | hx'
      · exact hv
      · exact ih1 x hx'
    · simp only [comNamesOf, List.map_cons, List.nodup_cons]
      refine ⟨?_, ih2⟩
      intro hmem
      exact ih3 _ hmem (by simp)
    · intro n hn
      simp only [comNamesOf, List.map_cons, List.mem_cons] at hn
      rcases hn with rfl | hn'
      · exact hnm
      · intro hmem
        exact ih3 n hn' (by simp [hmem])

theorem cleanEntriesB_facts :
    ∀ (entries : List RubricEntry) (seenC seenM : List String),
      cleanEntriesB seenC seenM entries = true →
      (∀ e ∈ entries, catValidArgsB e.cat = true ∧ e.comments ≠ none ∧
        ∀ a ∈ entryComs e, comValidB a = true) ∧
      (entries.map catNameOf).Nodup ∧
      (∀ n ∈ entries.map catNameOf, n ∉ seenC) ∧
      ((entries.flatMap fun e => comNamesOf (entryComs e)).Nodup) ∧
      (∀ n ∈ entries.flatMap fun e => comNamesOf (entryComs e),
        n ∉ seenM) := by
  intro entries
  induction entries with
  | nil => intro seenC seenM _; simp
  | cons e rest ih =>
    intro seenC seenM h
    simp only [cleanEntriesB, Bool.and_eq_true, Bool.not_eq_true',
      Option.isSome_iff_ne_none] at h
    obtain ⟨⟨⟨⟨hv, hnm⟩, hcm⟩, hcl⟩, hrest⟩ := h
    replace hnm : catNameOf e ∉ seenC := by simpa using hnm
    obtain ⟨ih1, ih2, ih3, ih4, ih5⟩ := ih _ _ hrest
    obtain ⟨hc1, hc2, hc3⟩ := cleanComsB_facts _ _ hcl
    refine ⟨?_, ?_, ?_, ?_, ?_⟩
    · intro x hx
      rcases List.mem_cons.mp hx with rfl | hx'
      · exact ⟨hv, hcm, hc1⟩
      · exact ih1 x hx'
    · simp only [List.map_cons, List.nodup_cons]
      refine ⟨?_, ih2⟩
      intro hmem
      exact ih3 _ hmem (by simp)
    · intro n hn
      simp only [List.map_cons, List.mem_cons] at hn
      rcases hn with rfl | hn'
      · exact hnm
      · intro hmem
        exact ih3 n hn' (by simp [hmem])
    · simp only [List.flatMap_cons, List.nodup_append]
      refine ⟨hc2, ih4, ?_⟩
      intro n hn hn'
      exact ih5 n hn' (by simp [hn])
    · intro n hn
      simp only [List.flatMap_cons, List.mem_append] at hn
      rcases hn with hn' | hn'
      · exact hc3 n hn'
      · intro hmem
        exact ih5 n hn' (by
          simp only [List.mem_reverse, List.mem_append]
          exact Or.inr hmem)

theorem mapWithIndex_idfun {α : Type} :
    ∀ (l : List α) (i : Nat), mapWithIndex (fun _ a => a) i l = l := by
  intro l
  induction l with
  | nil => intro i; rfl
  | cons a as ih => intro i; simp [mapWithIndex, ih]

theorem mapWithIndex_map {α β γ : Type} (f : Nat → β → γ) (g : α → β) :
    ∀ (l : List α) (i : Nat),
      mapWithIndex f i (l.map g) = mapWithIndex (fun j a => f j (g a)) i l := by
  intro l
  induction l with
  | nil => intro i; rfl
  | cons a as ih => intro i; simp [mapWithIndex, ih]

theorem mapWithIndex_mem {α β : Type} (f : Nat → α → β) :
    ∀ (l : List α) (i : Nat) (x : β), x ∈ mapWithIndex f i l →
      ∃ j a, a ∈ l ∧ x = f j a := by
  intro l
  induction l with
  | nil => intro i x h; simp [mapWithIndex] at h
  | cons a as ih =>
    intro i x h
    simp only [mapWithIndex, List.mem_cons] at h
    rcases h with rfl | h'
    · exact ⟨i, a, by simp, rfl⟩
    · obtain ⟨j, b, hb, rfl⟩ := ih (i + 1) x h'
      exact ⟨j, b, by simp [hb], rfl⟩

theorem flatMap_map_comm {α β γ : Type} (f : α → List β) (g : β → γ) :
    ∀ (l : List α), (l.flatMap f).map g = l.flatMap fun a => (f a).map g := by
  intro l
  induction l with
  | nil => rfl
  | cons a as ih => simp [List.flatMap_cons, ih]

theorem flatMap_mapWithIndex_eq_nil {α : Type}
    (f : (String × List ComArgs) → Nat → ComArgs → α) :
    ∀ (l : List (String × List ComArgs)),
      ((l.flatMap fun kc => mapWithIndex (f kc) 0 kc.2) = []) ↔
        (l.flatMap Prod.snd = []) := by
  intro l
  induction l with
  | nil => simp
  | cons kc rest ih =>
    simp only [List.flatMap_cons, List.append_eq_nil, ih,
      mapWithIndex_eq_nil]

/-- The wipe branch in closed form: the whole existing category id set is
deleted, then the category payloads, then the comment payloads are posted
(empty batches dispatch nothing), and the run succeeds. -/
theorem importRubricWipe_spec (aid : Nat) (s : RemoteState)
    (entries : List RubricEntry) (gcats : List CatArgs)
    (gcoms : List (String × List ComArgs))
    (hgc : gcats = entries.map fun e => { e.cat with assignment := none })
    (hgm : gcoms = entries.map fun e => (catNameOf e,
      (entryComs e).map fun a => { a with category := none }))
    (hclean : cleanEntriesB [] [] entries = true) :
    ∃ s', importRubricWipe aid gcats gcoms s =
      ((if s.cats.isEmpty then []
          else [NetCall.deleteCats (s.cats.map RCat.id)]) ++
        (if gcats.isEmpty then []
          else [NetCall.postCats (wipeCatPayloads aid gcats)]) ++
        (if (gcoms.flatMap Prod.snd).isEmpty then []
          else [NetCall.postComs (wipeComPayloads s.nextId
            (gcats.map fun g => g.name.getD "") gcoms)]),
        .ok s') := by
  obtain ⟨hvalid, hnodupC, -, hnodupM, -⟩ :=
    cleanEntriesB_facts entries [] [] hclean
  -- the delete step succeeds and leaves `nextId` unchanged
  obtain ⟨s1, hdel, hnext⟩ : ∃ s1,
      RubricCategory.deleteAll s (rubricCategories s) =
        ((if s.cats.isEmpty then []
          else [NetCall.deleteCats (s.cats.map RCat.id)]), .ok s1) ∧
        s1.nextId = s.nextId := by
    cases hce : s.cats with
    | nil =>
      refine ⟨s, ?_, rfl⟩
      simp [RubricCategory.deleteAll, rubricCategories, hce]
    | cons c cs =>
      have hne : (rubricCategories s).isEmpty = false := by
        simp [rubricCategories, hce]
      have hce' : s.cats.isEmpty = false := by simp [hce]
      have hall : ((rubricCategories s).all
          fun i => (getCatById s i).isSome) = true := by
        rw [List.all_eq_true]
        intro i hi
        simp only [rubricCategories, List.mem_map] at hi
        obtain ⟨cc, hcc, rfl⟩ := hi
        simp only [getCatById, Option.isSome_iff_ne_none, ne_eq,
          List.find?_eq_none]
        push_neg
        exact ⟨cc, hcc, by simp⟩
      refine ⟨{ s with
          cats := s.cats.filter fun x =>
            !((rubricCategories s).contains x.id)
          coms := s.coms.filter fun x =>
            !((rubricCategories s).contains x.category) }, ?_, rfl⟩
      simp only [rubricCategories, hce] at hall ⊢
      simp [RubricCategory.deleteAll, serverDeleteCats, hce]
      simpa [Option.isSome_iff_ne_none] using hall
  -- the category payloads all validate in create mode
  have hnames : gcats.map (fun g => g.name.getD "") =
      entries.map catNameOf := by
    rw [hgc]; simp [catNameOf, List.map_map]
  have hgfacts : ∀ g ∈ gcats, g.name ≠ none ∧
      jsTrim (g.name.getD "") ≠ "" := by
    intro g hg
    rw [hgc] at hg
    simp only [List.mem_map] at hg
    obtain ⟨e, he, rfl⟩ := hg
    have := (catValidArgsB_true_iff e.cat).mp (hvalid e he).1
    exact ⟨this.1, this.2.1⟩
  have hcheck : (mapWithIndex
        (fun sortKey category => { category with
          assignment := some aid, sortKey := some (some sortKey) })
        0 gcats).mapM (RubricCategory.checkArgs false true) =
      .ok (wipeCatPayloads aid gcats) := by
    rw [mapM_ok _ flipCat _ ?_]
    · rw [map_mapWithIndex]
      rfl
    · intro p hp
      obtain ⟨j, g, hg, rfl⟩ := mapWithIndex_mem _ gcats 0 p hp
      obtain ⟨hn, ht⟩ := hgfacts g hg
      exact (catCheckArgs_creating_iff _ _).mpr
        ⟨by simp, by simpa using hn, by simpa using ht, by simp, rfl⟩
  -- the category creation step in closed form
  have hckLen :
      (wipeCatPayloads aid gcats).isEmpty = gcats.isEmpty := by
    cases gcats <;> simp [wipeCatPayloads, mapWithIndex]
  have hcreate : RubricCategory.createAll s1
      (mapWithIndex
        (fun sortKey category => { category with
          assignment := some aid, sortKey := some (some sortKey) })
        0 gcats) =
      ((if gcats.isEmpty then []
          else [NetCall.postCats (wipeCatPayloads aid gcats)]),
        .ok (mapWithIndex (fun i p => serverNewCat (s1.nextId + i) p) 0
            (wipeCatPayloads aid gcats),
          { s1 with
            cats := s1.cats ++ mapWithIndex
              (fun i p => serverNewCat (s1.nextId + i) p) 0
              (wipeCatPayloads aid gcats)
            nextId := s1.nextId + (wipeCatPayloads aid gcats).length })) := by
    simp only [RubricCategory.createAll, hcheck, hckLen]
    rw [serverCreateCats_spec]
    cases hgg : gcats with
    | nil =>
      simp [wipeCatPayloads, mapWithIndex]
    | cons g gr =>
      simp

  set names : List String := gcats.map fun g => g.name.getD ""
  have hnodupNames : names.Nodup := by rw [hnames]; exact hnodupC
  set createdList : List RCat :=
    mapWithIndex (fun i p => serverNewCat (s1.nextId + i) p) 0
      (wipeCatPayloads aid gcats) with hcreatedList
  have hassoc : createdList.map (fun c => (c.name, c.id)) =
      mapWithIndex (fun j n => (n, s.nextId + j)) 0 names := by
    rw [hcreatedList, map_mapWithIndex]
    show mapWithIndex
        (fun j (p : CatArgs) => (p.name.getD "", s1.nextId + j)) 0
        (wipeCatPayloads aid gcats) = _
    simp only [wipeCatPayloads]
    rw [mapWithIndex_mapWithIndex]
    rw [mapWithIndex_map (fun j n => (n, s.nextId + j))
      (fun g : CatArgs => g.name.getD "") gcats 0]
    rw [hnext]
    rfl
  have hlook : ∀ nm ∈ names,
      lookupEntry (fromEntries (createdList.map fun c => (c.name, c.id)))
        nm = some (s.nextId + idxOfName nm names) := by
    intro nm hnm
    rw [hassoc, fromEntries_nodup, lookupEntry_indexed names s.nextId nm hnm]
    rw [map_mapWithIndex]
    show (mapWithIndex (fun _ n => n) 0 names).Nodup
    rw [mapWithIndex_idfun]
    exact hnodupNames
  -- the comment payloads, with the category lookups resolved
  have hkeys : ∀ kc ∈ gcoms, kc.1 ∈ names := by
    intro kc hkc
    rw [hgm] at hkc
    simp only [List.mem_map] at hkc
    obtain ⟨e, he, rfl⟩ := hkc
    rw [hnames]
    exact List.mem_map.mpr ⟨e, he, rfl⟩
  have hcomPayloads :
      (gcoms.flatMap fun kc =>
        mapWithIndex
          (fun sortKey comment => { comment with
            category := lookupEntry
              (fromEntries (createdList.map fun c => (c.name, c.id))) kc.1
            sortKey := some (some sortKey) })
          0 kc.2) =
      gcoms.flatMap fun kc =>
        mapWithIndex
          (fun sortKey comment => { comment with
            category := some (s.nextId + idxOfName kc.1 names)
            sortKey := some (some sortKey) })
          0 kc.2 := by
    refine flatMap_congr_mem ?_
    intro kc hkc
    rw [hlook kc.1 (hkeys kc hkc)]
  have hcomFacts : ∀ kc ∈ gcoms, ∀ a ∈ kc.2,
      a.name ≠ none ∧ jsTrim (a.name.getD "") ≠ "" ∧ a.pointDelta ≠ none ∧
        a.text ≠ none ∧ jsTrim (a.text.getD "") ≠ "" := by
    intro kc hkc a ha
    rw [hgm] at hkc
    simp only [List.mem_map] at hkc
    obtain ⟨e, he, rfl⟩ := hkc
    simp only [List.mem_map] at ha
    obtain ⟨orig, horig, rfl⟩ := ha
    have := (comValidB_true_iff orig).mp ((hvalid e he).2.2 orig horig)
    exact ⟨this.1, this.2.1, this.2.2.1, this.2.2.2.1, this.2.2.2.2.1⟩
  have hcheckComs :
      (gcoms.flatMap fun kc =>
        mapWithIndex
          (fun sortKey comment => { comment with
            category := some (s.nextId + idxOfName kc.1 names)
            sortKey := some (some sortKey) })
          0 kc.2).mapM (RubricComment.checkArgs false true) =
      .ok (wipeComPayloads s.nextId names gcoms) := by
    rw [mapM_ok _ flipCom _ ?_]
    · rw [flatMap_map_comm]
      simp only [wipeComPayloads]
      refine congrArg Except.ok (flatMap_congr_mem ?_)
      intro kc _
      rw [map_mapWithIndex]
    · intro p hp
      simp only [List.mem_flatMap] at hp
      obtain ⟨kc, hkc, hpin⟩ := hp
      obtain ⟨j, a, ha, rfl⟩ := mapWithIndex_mem _ kc.2 0 p hpin
      obtain ⟨hn, ht, hpd, htx, httx⟩ := hcomFacts kc hkc a ha
      exact (comCheckArgs_creating_iff _ _).mpr
        ⟨by simp, by simpa using hn, by simpa using ht, by simpa using hpd,
          by simpa using htx, by simpa using httx, by simp, rfl⟩
  have hwEmpty : (wipeComPayloads s.nextId names gcoms).isEmpty =
      (gcoms.flatMap Prod.snd).isEmpty := by
    have hwiff := flatMap_mapWithIndex_eq_nil
      (fun kc i a => flipCom { a with
        category := some (s.nextId + idxOfName kc.1 names)
        sortKey := some (some i) }) gcoms
    rcases hh : gcoms.flatMap Prod.snd with _ | ⟨x, xs⟩
    · have : wipeComPayloads s.nextId names gcoms = [] := by
        rw [wipeComPayloads]; exact hwiff.mpr hh
      simp [this]
    · have : ¬ wipeComPayloads s.nextId names gcoms = [] := by
        rw [wipeComPayloads, hwiff, hh]; simp
      rcases hq : wipeComPayloads s.nextId names gcoms with _ | _
      · exact absurd hq this
      · simp
  have hcreateComs : ∀ st : RemoteState,
      RubricComment.createAll st
        (gcoms.flatMap fun kc =>
          mapWithIndex
            (fun sortKey comment => { comment with
              category := some (s.nextId + idxOfName kc.1 names)
              sortKey := some (some sortKey) })
            0 kc.2) =
      ((if (gcoms.flatMap Prod.snd).isEmpty then []
          else [NetCall.postComs (wipeComPayloads s.nextId names gcoms)]),
        .ok (serverCreateComs st (wipeComPayloads s.nextId names gcoms))) := by
    intro st
    simp only [RubricComment.createAll, hcheckComs, hwEmpty]
    rcases hh : (gcoms.flatMap Prod.snd).isEmpty with _ | _
    · simp
    · have : wipeComPayloads s.nextId names gcoms = [] := by
        rw [wipeComPayloads]
        refine (flatMap_mapWithIndex_eq_nil _ gcoms).mpr ?_
        simpa [List.isEmpty_iff] using hh
      simp only [this, serverCreateComs]
      simp
  -- assemble the wipe run
  refine ⟨{ cats := s1.cats ++ createdList
            coms := s1.coms ++ mapWithIndex
              (fun i p => serverNewCom
                (s1.nextId + (wipeCatPayloads aid gcats).length + i) p) 0
              (wipeComPayloads s.nextId names gcoms)
            nextId := s1.nextId + (wipeCatPayloads aid gcats).length +
              (wipeComPayloads s.nextId names gcoms).length
            subs := s1.subs }, ?_⟩
  simp only [importRubricWipe, hdel]
  simp only [hcreate]
  rw [hcomPayloads]
  rw [hcreateComs]
  rw [serverCreateComs_spec]

/-- C2: with `wipe = true` and a valid rubric, `importRubric_` (after the
assignment and submission-count fetches, and given confirmation when
submissions exist) first deletes every existing category of the assignment
in one batch, then creates the desired categories in declared order with
`sortKey` equal to their 0-based position, then creates all desired
comments per category with `sortKey` equal to their position within the
category and `category` set to the id freshly returned for their category's
name — and it never fetches the prior categories or comments. -/
theorem importRubric_wipe_semantics
    (aid : Nat) (dx conf : Bool) (s : RemoteState)
    (entries : List RubricEntry) (gcats : List CatArgs)
    (gcoms : List (String × List ComArgs))
    (hval : checkValidRubric_ (some entries) = .ok (gcats, gcoms))
    (hconf : s.subs = 0 ∨ conf = true) :
    (∃ s', importRubric_ (some aid) (some entries) true dx conf s =
      ([NetCall.getAssignment aid, NetCall.getSubmissions aid] ++
        ((if s.cats.isEmpty then []
            else [NetCall.deleteCats (s.cats.map RCat.id)]) ++
          (if gcats.isEmpty then []
            else [NetCall.postCats (wipeCatPayloads aid gcats)]) ++
          (if (gcoms.flatMap Prod.snd).isEmpty then []
            else [NetCall.postComs (wipeComPayloads s.nextId
              (gcats.map fun g => g.name.getD "") gcoms)])),
        .ok s')) ∧
    (∀ ids : List Nat,
      NetCall.getCats ids ∉
        (importRubric_ (some aid) (some entries) true dx conf s).1 ∧
      NetCall.getComs ids ∉
        (importRubric_ (some aid) (some entries) true dx conf s).1) := by
  obtain ⟨hgc, hgm, hclean⟩ := checkValidRubric_ok hval
  obtain ⟨s', hw⟩ :=
    importRubricWipe_spec aid s entries gcats gcoms hgc hgm hclean
  have hcond : (decide (s.subs > 0) && !conf) = false := by
    rcases hconf with h | h
    · simp [h]
    · simp [h]
  have hrun : importRubric_ (some aid) (some entries) true dx conf s =
      ([NetCall.getAssignment aid, NetCall.getSubmissions aid] ++
        ((if s.cats.isEmpty then []
            else [NetCall.deleteCats (s.cats.map RCat.id)]) ++
          (if gcats.isEmpty then []
            else [NetCall.postCats (wipeCatPayloads aid gcats)]) ++
          (if (gcoms.flatMap Prod.snd).isEmpty then []
            else [NetCall.postComs (wipeComPayloads s.nextId
              (gcats.map fun g => g.name.getD "") gcoms)])),
        .ok s') := by
    simp only [importRubric_, hval, hcond, Bool.false_eq_true, if_false]
    rw [hw]
    simp [List.append_assoc]
  refine ⟨⟨s', hrun⟩, ?_⟩
  intro ids
  rw [hrun]
  constructor <;>
  · simp only [List.mem_append, List.mem_cons, List.not_mem_nil]
    split_ifs <;> simp

/-- C2 witness: a remote state with one pre-existing category `"A"` and a
desired rubric `[{name:"B", comments:[x]}]` run in wipe mode. -/
theorem importRubric_wipe_semantics_witness :
    (∃ s', importRubric_ (some 7)
        (some [⟨{ emptyCatArgs with name := some "B" },
          some [{ emptyComArgs with
            name := some "x", pointDelta := some 2, text := some "t" }]⟩])
        true false true ⟨[⟨0, "A", none, "", false, 0⟩], [], 5, 0⟩ =
      ([NetCall.getAssignment 7, NetCall.getSubmissions 7] ++
        ((if (⟨[⟨0, "A", none, "", false, 0⟩], [], 5, 0⟩ :
              RemoteState).cats.isEmpty then []
            else [NetCall.deleteCats ((⟨[⟨0, "A", none, "", false, 0⟩], [],
              5, 0⟩ : RemoteState).cats.map RCat.id)]) ++
          (if ([{ emptyCatArgs with name := some "B" }] :
              List CatArgs).isEmpty then []
            else [NetCall.postCats (wipeCatPayloads 7
              [{ emptyCatArgs with name := some "B" }])]) ++
          (if (([("B", [{ emptyComArgs with
              name := some "x", pointDelta := some 2, text := some "t" }])] :
              List (String × List ComArgs)).flatMap Prod.snd).isEmpty then []
            else [NetCall.postComs (wipeComPayloads 5
              ([{ emptyCatArgs with name := some "B" }].map
                fun g => g.name.getD "")
              [("B", [{ emptyComArgs with
                name := some "x", pointDelta := some 2,
                text := some "t" }])])])),
        .ok s')) := by
  have h := importRubric_wipe_semantics 7 false true
    ⟨[⟨0, "A", none, "", false, 0⟩], [], 5, 0⟩
    [⟨{ emptyCatArgs with name := some "B" },
      some [{ emptyComArgs with
        name := some "x", pointDelta := some 2, text := some "t" }]⟩]
    [{ emptyCatArgs with name := some "B" }]
    [("B", [{ emptyComArgs with
      name := some "x", pointDelta := some 2, text := some "t" }])]
    (by decide) (Or.inl rfl)
  exact h.1

/-! ### Well-formed remote states and the incremental fetch in closed form -/

/-- A well-formed remote state, as guaranteed by the remote store and the
spec's data model: server-assigned ids are unique and below the fresh-id
counter, and the stable `name` keys are unique per resource kind. -/
def WF (s : RemoteState) : Prop :=
  (s.cats.map RCat.id).Nodup ∧ (s.cats.map RCat.name).Nodup ∧
    (s.coms.map RCom.id).Nodup ∧ (s.coms.map RCom.name).Nodup ∧
    (∀ c ∈ s.cats, c.id < s.nextId) ∧ (∀ c ∈ s.coms, c.id < s.nextId)

theorem filterMap_eq_map_mem {α β : Type} {l : List α} {f : α → Option β}
    {g : α → β} (h : ∀ x ∈ l, f x = some (g x)) :
    l.filterMap f = l.map g := by
  induction l with
  | nil => rfl
  | cons a as ih =>
    rw [List.filterMap_cons, h a (by simp), List.map_cons,
      ih (fun x hx => h x (by simp [hx]))]

theorem filterMap_congr_mem {α β : Type} {l : List α} {f g : α → Option β}
    (h : ∀ x ∈ l, f x = g x) : l.filterMap f = l.filterMap g := by
  induction l with
  | nil => rfl
  | cons a as ih =>
    rw [List.filterMap_cons, List.filterMap_cons, h a (by simp),
      ih (fun x hx => h x (by simp [hx]))]

theorem find?_key_self {α β : Type} [BEq β] [LawfulBEq β] (key : α → β) :
    ∀ (l : List α), ((l.map key).Nodup) → ∀ {c : α}, c ∈ l →
      l.find? (fun x => key x == key c) = some c := by
  intro l
  induction l with
  | nil => intro _ c hc; simp at hc
  | cons x xs ih =>
    intro hnd c hc
    simp only [List.map_cons, List.nodup_cons] at hnd
    rcases List.mem_cons.mp hc with rfl | hmem
    · simp [List.find?]
    · have hne : (key x == key c) = false := by
        simp only [beq_eq_false_iff_ne, ne_eq]
        intro he
        exact hnd.1 (he ▸ List.mem_map_of_mem key hmem)
      simp only [List.find?, hne]
      exact ih hnd.2 hmem

/-- With unique ids, fetching a stored record by its own id returns it. -/
theorem getCatById_self {s : RemoteState} (hnd : (s.cats.map RCat.id).Nodup)
    {c : RCat} (hc : c ∈ s.cats) : getCatById s c.id = some c :=
  find?_key_self RCat.id s.cats hnd hc

theorem getComById_self {s : RemoteState} (hnd : (s.coms.map RCom.id).Nodup)
    {c : RCom} (hc : c ∈ s.coms) : getComById s c.id = some c :=
  find?_key_self RCom.id s.coms hnd hc

/-- The category fetch of the incremental path returns exactly the stored
categories, decoded, in storage order. -/
theorem getByIds_cats_all {s : RemoteState}
    (hnd : (s.cats.map RCat.id).Nodup) :
    RubricCategory.getByIds s (rubricCategories s) =
      s.cats.map catDecode := by
  unfold RubricCategory.getByIds rubricCategories
  rw [List.filterMap_map]
  rw [filterMap_eq_map_mem (g := id) ?_]
  · simp
  · intro c hc
    simpa using getCatById_self hnd hc

/-- The comments visible through the fetched categories: for each category
in storage order, the stored comments referencing it, in storage order. -/
def visibleComs (s : RemoteState) : List RCom :=
  s.cats.flatMap fun cat => s.coms.filter fun cm => cm.category == cat.id

theorem visibleComs_sub {s : RemoteState} :
    ∀ c ∈ visibleComs s, c ∈ s.coms := by
  intro c hc
  simp only [visibleComs, List.mem_flatMap, List.mem_filter] at hc
  obtain ⟨cat, -, hc', -⟩ := hc
  exact hc'

/-- The comment fetch of the incremental path in closed form. -/
theorem getByIds_coms_visible {s : RemoteState}
    (hnd : (s.coms.map RCom.id).Nodup) :
    RubricComment.getByIds s ((visibleComs s).map RCom.id) =
      (visibleComs s).map comDecode := by
  unfold RubricComment.getByIds
  rw [List.filterMap_map]
  rw [filterMap_eq_map_mem (g := id) ?_]
  · simp
  · intro c hc
    simpa using getComById_self hnd (visibleComs_sub c hc)

/-- The names of the visible comments are unique (under `WF`). -/
theorem visibleComs_names_nodup {s : RemoteState}
    (hndCat : (s.cats.map RCat.id).Nodup)
    (hndName : (s.coms.map RCom.name).Nodup) :
    ((visibleComs s).map RCom.name).Nodup := by
  have hrecords : ∀ {a b : RCom}, a ∈ s.coms → b ∈ s.coms →
      a.name = b.name → a = b := by
    intro a b ha hb hn
    exact List.inj_on_of_nodup_map hndName ha hb hn
  -- nodup of the flatMap: per-group nodup plus disjointness of groups
  suffices h : ∀ (cats : List RCat), ((cats.map RCat.id).Nodup) →
      ((cats.flatMap fun cat =>
        s.coms.filter fun cm => cm.category == cat.id).map RCom.name).Nodup by
    exact h s.cats hndCat
  intro cats
  induction cats with
  | nil => intro _; simp
  | cons cat cats ih =>
    intro hndc
    simp only [List.map_cons, List.nodup_cons] at hndc
    simp only [List.flatMap_cons, List.map_append, List.nodup_append]
    refine ⟨?_, ih hndc.2, ?_⟩
    · exact hndName.sublist ((s.coms.filter_sublist).map RCom.name)
    · intro nm hnm hnm'
      simp only [List.mem_map, List.mem_filter] at hnm
      obtain ⟨c1, ⟨hc1, hcat1⟩, rfl⟩ := hnm
      simp only [List.mem_map, List.mem_flatMap, List.mem_filter] at hnm'
      obtain ⟨c2, ⟨cat2, hcat2m, hc2, hcat2⟩, hname2⟩ := hnm'
      have : c2 = c1 := hrecords hc2 hc1 hname2
      subst this
      have : cat.id = cat2.id := by
        have e1 := of_decide_eq_true hcat1
        have e2 := of_decide_eq_true hcat2
        omega
      exact hndc.1 (this ▸ List.mem_map_of_mem RCat.id hcat2m)

theorem lookup_map_nodup {α β : Type} (key : α → String) (val : α → β) :
    ∀ (l : List α), ((l.map key).Nodup) → ∀ {c : α}, c ∈ l →
      lookupEntry (l.map fun x => (key x, val x)) (key c) = some (val c) := by
  intro l
  induction l with
  | nil => intro _ c hc; simp at hc
  | cons x xs ih =>
    intro hnd c hc
    simp only [List.map_cons, List.nodup_cons] at hnd
    rcases List.mem_cons.mp hc with rfl | hmem
    · simp [lookupEntry]
    · have hne : key x ≠ key c := by
        intro he
        exact hnd.1 (he ▸ List.mem_map_of_mem key hmem)
      simp only [List.map_cons, lookupEntry, if_neg hne]
      exact ih hnd.2 hmem

theorem lookup_map_notMem {α β : Type} (key : α → String) (val : α → β) :
    ∀ (l : List α) (nm : String), nm ∉ l.map key →
      lookupEntry (l.map fun x => (key x, val x)) nm = none := by
  intro l
  induction l with
  | nil => intro nm _; rfl
  | cons x xs ih =>
    intro nm hnm
    simp only [List.map_cons, List.mem_cons] at hnm
    push_neg at hnm
    simp only [List.map_cons, lookupEntry]
    rw [if_neg (fun he => hnm.1 he.symm)]
    exact ih nm hnm.2

/-! ### The reconciliation loops in closed form -/

/-- The desired-category loop in closed form, for pairwise-distinct desired
names: a desired category is matched exactly when its name is in the
initial `existing` set; creates and updates keep the iteration order and
the `sortKey` positions; the final set is the initial one minus the desired
names, in order. -/
theorem reconCats_spec (cpCats : List (String × RCat)) (aid : Nat) :
    ∀ (gcats : List CatArgs) (i0 : Nat) (ex0 : List String),
      ((gcats.map fun g => g.name.getD "").Nodup) → ex0.Nodup →
      reconCats cpCats aid i0 ex0 gcats =
        (((mapWithIndex Prod.mk i0 gcats).filter fun p =>
            !(ex0.contains (p.2.name.getD ""))).map
            (fun p => { p.2 with
              assignment := some aid, sortKey := some (some p.1) }),
          (mapWithIndex Prod.mk i0 gcats).filterMap (fun p =>
            if (p.2.name.getD "") ∈ ex0 then
              (catDiff p.2
                ((lookupEntry cpCats (p.2.name.getD "")).getD defaultRCat)
                p.1).map
                (fun d =>
                  (((lookupEntry cpCats (p.2.name.getD "")).getD
                    defaultRCat).id, d))
            else none),
          ex0.filter fun n =>
            !((gcats.map fun g => g.name.getD "").contains n)) := by
  intro gcats
  induction gcats with
  | nil =>
    intro i0 ex0 _ _
    simp [reconCats, mapWithIndex]
  | cons g rest ih =>
    intro i0 ex0 hnd hex
    simp only [List.map_cons, List.nodup_cons] at hnd
    have hrestname : ∀ p ∈ mapWithIndex Prod.mk (i0 + 1) rest,
        (p.2.name.getD "") ≠ (g.name.getD "") := by
      intro p hp he
      obtain ⟨j, a, ha, rfl⟩ := mapWithIndex_mem Prod.mk rest (i0 + 1) p hp
      exact hnd.1 (he ▸ List.mem_map_of_mem _ ha)
    by_cases hm : (g.name.getD "") ∈ ex0
    · have hcontains : ex0.contains (g.name.getD "") = true := by
        simpa using hm
      have e1 : ((mapWithIndex Prod.mk (i0 + 1) rest).filter fun p =>
            !((ex0.erase (g.name.getD "")).contains (p.2.name.getD ""))) =
          ((mapWithIndex Prod.mk (i0 + 1) rest).filter fun p =>
            !(ex0.contains (p.2.name.getD ""))) := by
        refine List.filter_congr ?_
        intro p hp
        simp [List.mem_erase_of_ne (hrestname p hp)]
      have e2 : ((mapWithIndex Prod.mk (i0 + 1) rest).filterMap fun p =>
            if (p.2.name.getD "") ∈ ex0.erase (g.name.getD "") then
              (catDiff p.2
                ((lookupEntry cpCats (p.2.name.getD "")).getD defaultRCat)
                p.1).map
                (fun d =>
                  (((lookupEntry cpCats (p.2.name.getD "")).getD
                    defaultRCat).id, d))
            else none) =
          ((mapWithIndex Prod.mk (i0 + 1) rest).filterMap fun p =>
            if (p.2.name.getD "") ∈ ex0 then
              (catDiff p.2
                ((lookupEntry cpCats (p.2.name.getD "")).getD defaultRCat)
                p.1).map
                (fun d =>
                  (((lookupEntry cpCats (p.2.name.getD "")).getD
                    defaultRCat).id, d))
            else none) := by
        refine filterMap_congr_mem ?_
        intro p hp
        rw [if_congr (List.mem_erase_of_ne (hrestname p hp))
          (Eq.refl _) (Eq.refl _)]
      have e3 : ((ex0.erase (g.name.getD "")).filter fun n =>
            !((rest.map fun g => g.name.getD "").contains n)) =
          (ex0.filter fun n =>
            !(((g :: rest).map fun g => g.name.getD "").contains n)) := by
        rw [hex.erase_eq_filter, List.filter_filter]
        refine List.filter_congr ?_
        intro x _
        by_cases hx : x = (g.name.getD "")
        · subst hx; simp
        · simp [hx, Bool.and_comm]
      simp only [reconCats, if_pos hm]
      rw [ih (i0 + 1) (ex0.erase (g.name.getD "")) hnd.2 (hex.erase _)]
      cases hdiff : catDiff g
          ((lookupEntry cpCats (g.name.getD "")).getD defaultRCat) i0 with
      | none =>
        simp only [hdiff, mapWithIndex, List.filter_cons, List.filterMap_cons,
          hcontains, Bool.not_true, Bool.false_eq_true, if_false, if_pos hm,
          Option.map_none']
        rw [e1, e2, e3]
      | some d =>
        simp only [hdiff, mapWithIndex, List.filter_cons, List.filterMap_cons,
          hcontains, Bool.not_true, Bool.false_eq_true, if_false, if_pos hm,
          Option.map_some']
        rw [e1, e2, e3]
    · have hcontains : ex0.contains (g.name.getD "") = false := by
        simpa using hm
      have e3 : (ex0.filter fun n =>
            !((rest.map fun g => g.name.getD "").contains n)) =
          (ex0.filter fun n =>
            !(((g :: rest).map fun g => g.name.getD "").contains n)) := by
        refine List.filter_congr ?_
        intro x hx
        have hne : x ≠ (g.name.getD "") := by
          intro he
          exact hm (he ▸ hx)
        simp [hne]
      simp only [reconCats, if_neg hm]
      rw [ih (i0 + 1) ex0 hnd.2 hex]
      simp only [mapWithIndex, List.filter_cons, List.filterMap_cons,
        hcontains, Bool.not_false, if_true, if_neg hm]
      rw [e3]
      simp only [List.map_cons]

/-- The inner desired-comment loop in closed form (same shape as
`reconCats_spec`). -/
theorem reconComsIn_spec (cpComs : List (String × RCom)) (catId : Nat) :
    ∀ (comments : List ComArgs) (i0 : Nat) (ex0 : List String),
      ((comments.map fun a => a.name.getD "").Nodup) → ex0.Nodup →
      reconComsIn cpComs catId i0 ex0 comments =
        (((mapWithIndex Prod.mk i0 comments).filter fun p =>
            !(ex0.contains (p.2.name.getD ""))).map
            (fun p => { p.2 with
              category := some catId, sortKey := some (some p.1) }),
          (mapWithIndex Prod.mk i0 comments).filterMap (fun p =>
            if (p.2.name.getD "") ∈ ex0 then
              (comDiff p.2
                ((lookupEntry cpComs (p.2.name.getD "")).getD defaultRCom)
                catId p.1).map
                (fun d =>
                  (((lookupEntry cpComs (p.2.name.getD "")).getD
                    defaultRCom).id, d))
            else none),
          ex0.filter fun n =>
            !((comments.map fun a => a.name.getD "").contains n)) := by
  intro comments
  induction comments with
  | nil =>
    intro i0 ex0 _ _
    simp [reconComsIn, mapWithIndex]
  | cons g rest ih =>
    intro i0 ex0 hnd hex
    simp only [List.map_cons, List.nodup_cons] at hnd
    have hrestname : ∀ p ∈ mapWithIndex Prod.mk (i0 + 1) rest,
        (p.2.name.getD "") ≠ (g.name.getD "") := by
      intro p hp he
      obtain ⟨j, a, ha, rfl⟩ := mapWithIndex_mem Prod.mk rest (i0 + 1) p hp
      exact hnd.1 (he ▸ List.mem_map_of_mem _ ha)
    by_cases hm : (g.name.getD "") ∈ ex0
    · have hcontains : ex0.contains (g.name.getD "") = true := by
        simpa using hm
      have e1 : ((mapWithIndex Prod.mk (i0 + 1) rest).filter fun p =>
            !((ex0.erase (g.name.getD "")).contains (p.2.name.getD ""))) =
          ((mapWithIndex Prod.mk (i0 + 1) rest).filter fun p =>
            !(ex0.contains (p.2.name.getD ""))) := by
        refine List.filter_congr ?_
        intro p hp
        simp [List.mem_erase_of_ne (hrestname p hp)]
      have e2 : ((mapWithIndex Prod.mk (i0 + 1) rest).filterMap fun p =>
            if (p.2.name.getD "") ∈ ex0.erase (g.name.getD "") then
              (comDiff p.2
                ((lookupEntry cpComs (p.2.name.getD "")).getD defaultRCom)
                catId p.1).map
                (fun d =>
                  (((lookupEntry cpComs (p.2.name.getD "")).getD
                    defaultRCom).id, d))
            else none) =
          ((mapWithIndex Prod.mk (i0 + 1) rest).filterMap fun p =>
            if (p.2.name.getD "") ∈ ex0 then
              (comDiff p.2
                ((lookupEntry cpComs (p.2.name.getD "")).getD defaultRCom)
                catId p.1).map
                (fun d =>
                  (((lookupEntry cpComs (p.2.name.getD "")).getD
                    defaultRCom).id, d))
            else none) := by
        refine filterMap_congr_mem ?_
        intro p hp
        rw [if_congr (List.mem_erase_of_ne (hrestname p hp))
          (Eq.refl _) (Eq.refl _)]
      have e3 : ((ex0.erase (g.name.getD "")).filter fun n =>
            !((rest.map fun a => a.name.getD "").contains n)) =
          (ex0.filter fun n =>
            !(((g :: rest).map fun a => a.name.getD "").contains n)) := by
        rw [hex.erase_eq_filter, List.filter_filter]
        refine List.filter_congr ?_
        intro x _
        by_cases hx : x = (g.name.getD "")
        · subst hx; simp
        · simp [hx, Bool.and_comm]
      simp only [reconComsIn, if_pos hm]
      rw [ih (i0 + 1) (ex0.erase (g.name.getD "")) hnd.2 (hex.erase _)]
      cases hdiff : comDiff g
          ((lookupEntry cpComs (g.name.getD "")).getD defaultRCom) catId
          i0 with
      | none =>
        simp only [hdiff, mapWithIndex, List.filter_cons, List.filterMap_cons,
          hcontains, Bool.not_true, Bool.false_eq_true, if_false, if_pos hm,
          Option.map_none']
        rw [e1, e2, e3]
      | some d =>
        simp only [hdiff, mapWithIndex, List.filter_cons, List.filterMap_cons,
          hcontains, Bool.not_true, Bool.false_eq_true, if_false, if_pos hm,
          Option.map_some']
        rw [e1, e2, e3]
    · have hcontains : ex0.contains (g.name.getD "") = false := by
        simpa using hm
      have e3 : (ex0.filter fun n =>
            !((rest.map fun a => a.name.getD "").contains n)) =
          (ex0.filter fun n =>
            !(((g :: rest).map fun a => a.name.getD "").contains n)) := by
        refine List.filter_congr ?_
        intro x hx
        have hne : x ≠ (g.name.getD "") := by
          intro he
          exact hm (he ▸ hx)
        simp [hne]
      simp only [reconComsIn, if_neg hm]
      rw [ih (i0 + 1) ex0 hnd.2 hex]
      simp only [mapWithIndex, List.filter_cons, List.filterMap_cons,
        hcontains, Bool.not_false, if_true, if_neg hm]
      rw [e3]
      simp only [List.map_cons]

/-- The outer desired-comment loop in closed form, for comment names unique
across the whole rubric: every desired comment is matched against the
initial `existing` set, independently of the other categories. -/
theorem reconComsAll_spec (cpComs : List (String × RCom))
    (finalCats : List (String × Nat)) :
    ∀ (gcoms : List (String × List ComArgs)) (ex0 : List String),
      ((gcoms.flatMap fun kc => kc.2.map fun a => a.name.getD "").Nodup) →
      ex0.Nodup →
      reconComsAll cpComs finalCats ex0 gcoms =
        (gcoms.flatMap (fun kc =>
          ((mapWithIndex Prod.mk 0 kc.2).filter fun p =>
            !(ex0.contains (p.2.name.getD ""))).map
            (fun p => { p.2 with
              category := some ((lookupEntry finalCats kc.1).getD 0)
              sortKey := some (some p.1) })),
          gcoms.flatMap (fun kc =>
            (mapWithIndex Prod.mk 0 kc.2).filterMap (fun p =>
              if (p.2.name.getD "") ∈ ex0 then
                (comDiff p.2
                  ((lookupEntry cpComs (p.2.name.getD "")).getD defaultRCom)
                  ((lookupEntry finalCats kc.1).getD 0) p.1).map
                  (fun d =>
                    (((lookupEntry cpComs (p.2.name.getD "")).getD
                      defaultRCom).id, d))
              else none)),
          ex0.filter fun n =>
            !((gcoms.flatMap fun kc =>
              kc.2.map fun a => a.name.getD "").contains n)) := by
  intro gcoms
  induction gcoms with
  | nil =>
    intro ex0 _ _
    simp [reconComsAll]
  | cons kc rest ih =>
    intro ex0 hnd hex
    simp only [List.flatMap_cons, List.nodup_append] at hnd
    obtain ⟨hnd1, hndrest, hdisj⟩ := hnd
    have htailname : ∀ p ∈ rest, ∀ a ∈ p.2,
        (a.name.getD "") ∉ kc.2.map fun x => x.name.getD "" := by
      intro p hp a ha hmem
      refine hdisj hmem ?_
      simp only [List.mem_flatMap]
      exact ⟨p, hp, List.mem_map_of_mem _ ha⟩
    have hmemtrans : ∀ (x : String),
        x ∉ (kc.2.map fun a => a.name.getD "") →
        ((x ∈ ex0.filter fun n =>
          !((kc.2.map fun a => a.name.getD "").contains n)) ↔ x ∈ ex0) := by
      intro x hx
      constructor
      · exact fun h => (List.mem_filter.mp h).1
      · intro h
        refine List.mem_filter.mpr ⟨h, ?_⟩
        simpa using hx
    simp only [reconComsAll]
    rw [reconComsIn_spec cpComs _ kc.2 0 ex0 hnd1 hex]
    rw [ih (ex0.filter fun n =>
      !((kc.2.map fun a => a.name.getD "").contains n)) hndrest
      (hex.filter _)]
    have e1 : ∀ p ∈ rest,
        (((mapWithIndex Prod.mk 0 p.2).filter fun q =>
          !((ex0.filter fun n =>
            !((kc.2.map fun a => a.name.getD "").contains n)).contains
              (q.2.name.getD ""))).map
          (fun q => { q.2 with
            category := some ((lookupEntry finalCats p.1).getD 0)
            sortKey := some (some q.1) })) =
        (((mapWithIndex Prod.mk 0 p.2).filter fun q =>
          !(ex0.contains (q.2.name.getD ""))).map
          (fun q => { q.2 with
            category := some ((lookupEntry finalCats p.1).getD 0)
            sortKey := some (some q.1) })) := by
      intro p hp
      refine congrArg _ (List.filter_congr ?_)
      intro q hq
      obtain ⟨j, a, ha, rfl⟩ := mapWithIndex_mem Prod.mk p.2 0 q hq
      have h2 := hmemtrans _ (htailname p hp a ha)
      by_cases hmem : (a.name.getD "") ∈ ex0
      · simp [hmem]
        intro x hx he
        exact htailname p hp a ha (he ▸ List.mem_map_of_mem _ hx)
      · simp [hmem]
    have e2 : ∀ p ∈ rest,
        ((mapWithIndex Prod.mk 0 p.2).filterMap fun q =>
          if (q.2.name.getD "") ∈ (ex0.filter fun n =>
            !((kc.2.map fun a => a.name.getD "").contains n)) then
            (comDiff q.2
              ((lookupEntry cpComs (q.2.name.getD "")).getD defaultRCom)
              ((lookupEntry finalCats p.1).getD 0) q.1).map
              (fun d =>
                (((lookupEntry cpComs (q.2.name.getD "")).getD
                  defaultRCom).id, d))
          else none) =
        ((mapWithIndex Prod.mk 0 p.2).filterMap fun q =>
          if (q.2.name.getD "") ∈ ex0 then
            (comDiff q.2
              ((lookupEntry cpComs (q.2.name.getD "")).getD defaultRCom)
              ((lookupEntry finalCats p.1).getD 0) q.1).map
              (fun d =>
                (((lookupEntry cpComs (q.2.name.getD "")).getD
                  defaultRCom).id, d))
          else none) := by
      intro p hp
      refine filterMap_congr_mem ?_
      intro q hq
      obtain ⟨j, a, ha, rfl⟩ := mapWithIndex_mem Prod.mk p.2 0 q hq
      rw [if_congr (hmemtrans _ (htailname p hp a ha))
        (Eq.refl _) (Eq.refl _)]
    have e3 : ((ex0.filter fun n =>
          !((kc.2.map fun a => a.name.getD "").contains n)).filter fun n =>
          !((rest.flatMap fun kc' =>
            kc'.2.map fun a => a.name.getD "").contains n)) =
        (ex0.filter fun n =>
          !(((kc :: rest).flatMap fun kc' =>
            kc'.2.map fun a => a.name.getD "").contains n)) := by
      rw [List.filter_filter]
      refine List.filter_congr ?_
      intro x _
      simp only [List.flatMap_cons]
      by_cases hx : x ∈ (kc.2.map fun a => a.name.getD "")
      · simp [hx]
      · simp [hx, Bool.and_comm]
    rw [flatMap_congr_mem e1, flatMap_congr_mem e2, e3]
    simp only [List.flatMap_cons]

/-! ### Claim C10: the frame property of queued updates -/

/-- The frame property of a single logged call: a category PATCH item never
carries `name` or `assignment`, a comment PATCH item never carries `name`;
every other kind of call is unconstrained. -/
def frameCallB : NetCall → Bool
  | .patchCats items =>
    items.all fun p => p.2.name == none && p.2.assignment == none
  | .patchComs items => items.all fun p => p.2.name == none
  | _ => true

/-- Members of a successful `mapM` output are successful images of members
of the input. -/
theorem mapM_ok_mem {α β : Type} (f : α → Except String β) :
    ∀ (l : List α) (out : List β), l.mapM f = .ok out →
      ∀ b ∈ out, ∃ a ∈ l, f a = .ok b := by
  intro l
  induction l with
  | nil =>
    intro out h b hb
    simp only [List.mapM_nil, pure, Except.pure, Except.ok.injEq] at h
    subst h
    simp at hb
  | cons a as ih =>
    intro out h b hb
    rw [List.mapM_cons] at h
    cases hfa : f a with
    | error e =>
      rw [hfa] at h
      simp only [Bind.bind, Except.bind] at h
      exact Except.noConfusion h
    | ok v =>
      rw [hfa] at h
      simp only [Bind.bind, Except.bind] at h
      cases hrest : as.mapM f with
      | error e =>
        rw [hrest] at h
        simp only at h
        exact Except.noConfusion h
      | ok vs =>
        rw [hrest] at h
        simp only [pure, Except.pure, Except.ok.injEq] at h
        subst h
        rcases List.mem_cons.mp hb with rfl | hbs
        · exact ⟨a, by simp, hfa⟩
        · obtain ⟨x, hx, hfx⟩ := ih vs hrest b hbs
          exact ⟨x, by simp [hx], hfx⟩

/-- A category PATCH `data` object produced by the field diff never carries
`name` or `assignment`. -/
theorem catDiff_frame (c : CatArgs) (e : RCat) (k : Nat) (d : CatArgs)
    (h : catDiff c e k = some d) : d.name = none ∧ d.assignment = none := by
  unfold catDiff at h
  rcases c with ⟨asg, nm, pl, ht, amo, sk⟩
  rcases pl with _ | pl <;> rcases ht with _ | ht <;>
    rcases amo with _ | amo <;>
    simp only at h <;> split_ifs at h <;>
    simp_all [emptyCatArgs] <;>
    exact h ▸ ⟨rfl, rfl⟩

/-- A comment PATCH `data` object produced by the field diff never carries
`name`. -/
theorem comDiff_frame (c : ComArgs) (e : RCom) (cid k : Nat) (d : ComArgs)
    (h : comDiff c e cid k = some d) : d.name = none := by
  unfold comDiff at h
  lift_lets at h
  extract_lets b0 b1 b2 b3 b4 b5 b6 b7 b8 b9 b10 b11 b12 b13 b14 at h
  have h0 : b0.2.name = none := rfl
  have h2 : b2.2.name = none := by
    have e2 : b2 = match c.text with
      | some v =>
        if e.text ≠ v then (true, { b1 with text := some v }) else b0
      | none => b0 := rfl
    rw [e2]
    rcases c.text with _ | v
    · exact h0
    · dsimp only
      split <;> exact h0
  have h4 : b4.2.name = none := by
    have e4 : b4 = match c.pointDelta with
      | some v =>
        if e.pointDelta ≠ v then (true, { b3 with pointDelta := some v })
        else b2
      | none => b2 := rfl
    rw [e4]
    rcases c.pointDelta with _ | v
    · exact h2
    · dsimp only
      split <;> exact h2
  have h6 : b6.2.name = none := by
    have e6 : b6 = match c.explanation with
      | some v =>
        if e.explanation ≠ v then (true, { b5 with explanation := some v })
        else b4
      | none => b4 := rfl
    rw [e6]
    rcases c.explanation with _ | v
    · exact h4
    · dsimp only
      split <;> exact h4
  have h8 : b8.2.name = none := by
    have e8 : b8 = match c.instructionText with
      | some v =>
        if e.instructionText ≠ v then
          (true, { b7 with instructionText := some v })
        else b6
      | none => b6 := rfl
    rw [e8]
    rcases c.instructionText with _ | v
    · exact h6
    · dsimp only
      split <;> exact h6
  have h10 : b10.2.name = none := by
    have e10 : b10 = match c.templateTextOn with
      | some v =>
        if e.templateTextOn ≠ v then
          (true, { b9 with templateTextOn := some v })
        else b8
      | none => b8 := rfl
    rw [e10]
    rcases c.templateTextOn with _ | v
    · exact h8
    · dsimp only
      split <;> exact h8
  have h12 : b12.2.name = none := by
    have e12 : b12 = if e.category ≠ cid then
        (true, { b11 with category := some cid }) else b10 := rfl
    rw [e12]
    split <;> exact h10
  have h14 : b14.2.name = none := by
    have e14 : b14 = if e.sortKey ≠ k then
        (true, { b13 with sortKey := some (some k) }) else b12 := rfl
    rw [e14]
    split <;> exact h12
  split at h
  · cases Option.some.inj h
    exact h14
  · exact Option.noConfusion h

/-- Every category update queued by the desired-category loop has a frame
`data` object. -/
theorem reconCats_frame (cps : List (String × RCat)) (aid : Nat) :
    ∀ (gcats : List CatArgs) (k : Nat) (ex : List String) (p : Nat × CatArgs),
      p ∈ (reconCats cps aid k ex gcats).2.1 →
        p.2.name = none ∧ p.2.assignment = none := by
  intro gcats
  induction gcats with
  | nil =>
    intro k ex p hp
    simp [reconCats] at hp
  | cons g rest ih =>
    intro k ex p hp
    simp only [reconCats] at hp
    by_cases hm : (g.name.getD "") ∈ ex
    · rw [if_pos hm] at hp
      rcases hrec : reconCats cps aid (k + 1) (ex.erase (g.name.getD "")) rest
        with ⟨cs, us, ex'⟩
      rw [hrec] at hp
      simp only at hp
      cases hdiff : catDiff g
          ((lookupEntry cps (g.name.getD "")).getD defaultRCat) k with
      | some u =>
        rw [hdiff] at hp
        simp only at hp
        rcases List.mem_cons.mp hp with rfl | hp'
        · exact catDiff_frame _ _ _ _ hdiff
        · exact ih (k + 1) (ex.erase (g.name.getD "")) p
            (by rw [hrec]; exact hp')
      | none =>
        rw [hdiff] at hp
        simp only at hp
        exact ih (k + 1) (ex.erase (g.name.getD "")) p
          (by rw [hrec]; exact hp)
    · rw [if_neg hm] at hp
      rcases hrec : reconCats cps aid (k + 1) ex rest with ⟨cs, us, ex'⟩
      rw [hrec] at hp
      simp only at hp
      exact ih (k + 1) ex p (by rw [hrec]; exact hp)

/-- Every orphan-category sort update has a frame `data` object. -/
theorem orphanCatUpdates_frame (cps : List (String × RCat)) (offset : Nat) :
    ∀ (names : List String) (i : Nat) (p : Nat × CatArgs),
      p ∈ orphanCatUpdates cps offset i names →
        p.2.name = none ∧ p.2.assignment = none := by
  intro names
  induction names with
  | nil =>
    intro i p hp
    simp [orphanCatUpdates] at hp
  | cons nm rest ih =>
    intro i p hp
    simp only [orphanCatUpdates] at hp
    split at hp
    · rcases List.mem_cons.mp hp with rfl | hp'
      · exact ⟨rfl, rfl⟩
      · exact ih (i + 1) p hp'
    · exact ih (i + 1) p hp

/-- Every comment update queued by the inner desired-comment loop has a
frame `data` object. -/
theorem reconComsIn_frame (cps : List (String × RCom)) (cid : Nat) :
    ∀ (coms : List ComArgs) (k : Nat) (ex : List String) (p : Nat × ComArgs),
      p ∈ (reconComsIn cps cid k ex coms).2.1 → p.2.name = none := by
  intro coms
  induction coms with
  | nil =>
    intro k ex p hp
    simp [reconComsIn] at hp
  | cons g rest ih =>
    intro k ex p hp
    simp only [reconComsIn] at hp
    by_cases hm : (g.name.getD "") ∈ ex
    · rw [if_pos hm] at hp
      rcases hrec : reconComsIn cps cid (k + 1) (ex.erase (g.name.getD ""))
        rest with ⟨cs, us, ex'⟩
      rw [hrec] at hp
      simp only at hp
      cases hdiff : comDiff g
          ((lookupEntry cps (g.name.getD "")).getD defaultRCom) cid k with
      | some u =>
        rw [hdiff] at hp
        simp only at hp
        rcases List.mem_cons.mp hp with rfl | hp'
        · exact comDiff_frame _ _ _ _ _ hdiff
        · exact ih (k + 1) (ex.erase (g.name.getD "")) p
            (by rw [hrec]; exact hp')
      | none =>
        rw [hdiff] at hp
        simp only at hp
        exact ih (k + 1) (ex.erase (g.name.getD "")) p
          (by rw [hrec]; exact hp)
    · rw [if_neg hm] at hp
      rcases hrec : reconComsIn cps cid (k + 1) ex rest with ⟨cs, us, ex'⟩
      rw [hrec] at hp
      simp only at hp
      exact ih (k + 1) ex p (by rw [hrec]; exact hp)

/-- Every comment update queued by the outer desired-comment loop has a
frame `data` object. -/
theorem reconComsAll_frame (cps : List (String × RCom))
    (fcs : List (String × Nat)) :
    ∀ (gcoms : List (String × List ComArgs)) (ex : List String)
      (p : Nat × ComArgs),
      p ∈ (reconComsAll cps fcs ex gcoms).2.1 → p.2.name = none := by
  intro gcoms
  induction gcoms with
  | nil =>
    intro ex p hp
    simp [reconComsAll] at hp
  | cons kc rest ih =>
    intro ex p hp
    simp only [reconComsAll] at hp
    rcases hin : reconComsIn cps ((lookupEntry fcs kc.1).getD 0) 0 ex kc.2
      with ⟨cs, us, ex'⟩
    rw [hin] at hp
    simp only at hp
    rcases hout : reconComsAll cps fcs ex' rest with ⟨cs', us', ex''⟩
    rw [hout] at hp
    simp only at hp
    rcases List.mem_append.mp hp with hp' | hp'
    · exact reconComsIn_frame cps _ kc.2 0 ex p (by rw [hin]; exact hp')
    · exact ih ex' p (by rw [hout]; exact hp')

/-- Every orphan-comment sort update has a frame `data` object. -/
theorem orphanComUpdates_frame (cps : List (String × RCom)) :
    ∀ (names : List String) (sortKeys : List (Nat × Option Nat))
      (p : Nat × ComArgs),
      p ∈ orphanComUpdates cps sortKeys names → p.2.name = none := by
  intro names
  induction names with
  | nil =>
    intro sk p hp
    simp [orphanComUpdates] at hp
  | cons nm rest ih =>
    intro sk p hp
    simp only [orphanComUpdates] at hp
    split at hp
    · split at hp
      · rcases List.mem_cons.mp hp with rfl | hp'
        · rfl
        · exact ih _ p hp'
      · exact ih _ p hp
    · rcases List.mem_cons.mp hp with rfl | hp'
      · rfl
      · exact ih _ p hp'
    · rcases List.mem_cons.mp hp with rfl | hp'
      · rfl
      · exact ih _ p hp'

/-- `RubricCategory.updateAll` on frame `data` objects logs only frame
calls (`checkArgs` in update mode preserves absence of `name` and
`assignment`). -/
theorem updateAllCats_frame (s : RemoteState) (data : List (Nat × CatArgs))
    (hd : ∀ p ∈ data, p.2.name = none ∧ p.2.assignment = none) :
    ∀ call ∈ (RubricCategory.updateAll s data).1, frameCallB call = true := by
  intro call hc
  unfold RubricCategory.updateAll at hc
  cases hm : data.mapM
      (fun it => (RubricCategory.checkArgs true false it.2).map ((it.1, ·)))
    with
  | error e =>
    rw [hm] at hc
    simp at hc
  | ok checked =>
    rw [hm] at hc
    simp only at hc
    split at hc
    · simp at hc
    · have hcall : call = NetCall.patchCats checked := by simpa using hc
      subst hcall
      simp only [frameCallB, List.all_eq_true]
      intro p hp
      obtain ⟨it, hit, hfit⟩ := mapM_ok_mem _ data checked hm p hp
      cases hca : RubricCategory.checkArgs true false it.2 with
      | error e =>
        rw [hca] at hfit
        simp [Except.map] at hfit
      | ok q =>
        rw [hca] at hfit
        simp only [Except.map, Except.ok.injEq] at hfit
        obtain ⟨-, -, rfl⟩ := (catCheckArgs_updating_iff it.2 q).mp hca
        obtain ⟨h1, h2⟩ := hd it hit
        subst hfit
        simp [flipCat, h1, h2]

/-- `RubricComment.updateAll` on frame `data` objects logs only frame
calls. -/
theorem updateAllComs_frame (s : RemoteState) (data : List (Nat × ComArgs))
    (hd : ∀ p ∈ data, p.2.name = none) :
    ∀ call ∈ (RubricComment.updateAll s data).1, frameCallB call = true := by
  intro call hc
  unfold RubricComment.updateAll at hc
  cases hm : data.mapM
      (fun it => (RubricComment.checkArgs true false it.2).map ((it.1, ·)))
    with
  | error e =>
    rw [hm] at hc
    simp at hc
  | ok checked =>
    rw [hm] at hc
    simp only at hc
    split at hc
    · simp at hc
    · have hcall : call = NetCall.patchComs checked := by simpa using hc
      subst hcall
      simp only [frameCallB, List.all_eq_true]
      intro p hp
      obtain ⟨it, hit, hfit⟩ := mapM_ok_mem _ data checked hm p hp
      cases hca : RubricComment.checkArgs true false it.2 with
      | error e =>
        rw [hca] at hfit
        simp [Except.map] at hfit
      | ok q =>
        rw [hca] at hfit
        simp only [Except.map, Except.ok.injEq] at hfit
        obtain ⟨-, -, -, rfl⟩ := (comCheckArgs_updating_iff it.2 q).mp hca
        have h1 := hd it hit
        subst hfit
        simp [flipCom, h1]

/-- `RubricCategory.createAll` logs only POST calls (frame trivially). -/
theorem createAllCats_frame (s : RemoteState) (d : List CatArgs) :
    ∀ call ∈ (RubricCategory.createAll s d).1, frameCallB call = true := by
  intro call hc
  unfold RubricCategory.createAll at hc
  split at hc
  · simp at hc
  · split at hc
    · simp at hc
    · rw [List.mem_singleton] at hc
      subst hc
      rfl

/-- `RubricComment.createAll` logs only POST calls. -/
theorem createAllComs_frame (s : RemoteState) (d : List ComArgs) :
    ∀ call ∈ (RubricComment.createAll s d).1, frameCallB call = true := by
  intro call hc
  unfold RubricComment.createAll at hc
  split at hc
  · simp at hc
  · split at hc
    · simp at hc
    · rw [List.mem_singleton] at hc
      subst hc
      rfl

/-- `RubricCategory.deleteAll` logs only DELETE calls. -/
theorem deleteAllCats_frame (s : RemoteState) (ids : List Nat) :
    ∀ call ∈ (RubricCategory.deleteAll s ids).1, frameCallB call = true := by
  intro call hc
  unfold RubricCategory.deleteAll at hc
  split at hc
  · simp at hc
  · have hcall : call = NetCall.deleteCats ids := by simpa using hc
    subst hcall
    rfl

/-- `RubricComment.deleteAll` logs only DELETE calls. -/
theorem deleteAllComs_frame (s : RemoteState) (ids : List Nat) :
    ∀ call ∈ (RubricComment.deleteAll s ids).1, frameCallB call = true := by
  intro call hc
  unfold RubricComment.deleteAll at hc
  split at hc
  · simp at hc
  · have hcall : call = NetCall.deleteComs ids := by simpa using hc
    subst hcall
    rfl

/-- Membership in a conditionally dispatched singleton call list. -/
theorem frameCallB_of_guard {c : Prop} [inst : Decidable c] (call x : NetCall)
    (hc : call ∈ if c then ([] : List NetCall) else [x])
    (hx : frameCallB x = true) : frameCallB call = true := by
  split at hc
  · simp at hc
  · rw [List.mem_singleton] at hc
    subst hc
    exact hx

/-- The wipe branch logs only DELETE and POST calls, hence only frame
calls. -/
theorem importRubricWipe_frame (aid : Nat) (gcats : List CatArgs)
    (gcoms : List (String × List ComArgs)) (s : RemoteState) :
    ∀ call ∈ (importRubricWipe aid gcats gcoms s).1,
      frameCallB call = true := by
  intro call hc
  unfold importRubricWipe at hc
  split at hc
  next dlog del heqD =>
  have hdlog : ∀ x ∈ dlog, frameCallB x = true := by
    intro x hx
    refine deleteAllCats_frame s (rubricCategories s) x ?_
    rw [heqD]
    exact hx
  cases del with
  | error e =>
    simp only at hc
    exact hdlog call hc
  | ok s1 =>
    simp only at hc
    split at hc
    · try simp only at hc
      rcases List.mem_append.mp hc with h | h
      · exact hdlog call h
      · exact createAllCats_frame s1 _ call h
    · try simp only at hc
      split at hc
      · try simp only at hc
        rcases List.mem_append.mp hc with h | h
        · rcases List.mem_append.mp h with h' | h'
          · exact hdlog call h'
          · exact createAllCats_frame s1 _ call h'
        · exact createAllComs_frame _ _ call h
      · try simp only at hc
        rcases List.mem_append.mp hc with h | h
        · rcases List.mem_append.mp h with h' | h'
          · exact hdlog call h'
          · exact createAllCats_frame s1 _ call h'
        · exact createAllComs_frame _ _ call h

/-- The incremental branch logs only frame calls: both PATCH batches carry
only `data` objects built by the diffs and the orphan re-sorts, which never
include `name` or (for categories) `assignment`, and update-mode `checkArgs`
preserves absent fields. -/
theorem importRubricIncremental_frame (aid off : Nat)
    (gcats : List CatArgs) (gcoms : List (String × List ComArgs))
    (dx : Bool) (s : RemoteState) :
    ∀ call ∈ (importRubricIncremental aid off gcats gcoms dx s).1,
      frameCallB call = true := by
  intro call hc
  unfold importRubricIncremental at hc
  simp only at hc
  split at hc
  · -- category creation failed
    try simp only at hc
    simp only [List.mem_append] at hc
    rcases hc with (h | h) | h
    · exact frameCallB_of_guard call _ h rfl
    · exact frameCallB_of_guard call _ h rfl
    · exact createAllCats_frame s _ call h
  · rename_i cc s1 heqC
    split at hc
    · rename_i dlog e heqE
      -- extra-category handling failed
      have hdlog : ∀ x ∈ dlog, frameCallB x = true := by
        intro x hx
        split at heqE
        · exact absurd (congrArg Prod.snd heqE) (by simp)
        · split at heqE
          · have h1 := congrArg Prod.fst heqE
            simp only at h1
            rw [← h1] at hx
            exact deleteAllCats_frame _ _ x hx
          · exact absurd (congrArg Prod.snd heqE) (by simp)
      try simp only at hc
      simp only [List.mem_append] at hc
      rcases hc with ((h | h) | h) | h
      · exact frameCallB_of_guard call _ h rfl
      · exact frameCallB_of_guard call _ h rfl
      · exact createAllCats_frame s _ call h
      · exact hdlog call h
    · rename_i dlog s2 uc1 heqE
      have hkey : (∀ x ∈ dlog, frameCallB x = true) ∧
          (∀ p ∈ uc1, p.2.name = none ∧ p.2.assignment = none) := by
        split at heqE
        · have h1 : ([] : List NetCall) = dlog := congrArg Prod.fst heqE
          have h2 := congrArg Prod.snd heqE
          simp only at h2
          have h3 := congrArg Prod.snd (Except.ok.inj h2)
          simp only at h3
          constructor
          · intro x hx
            rw [← h1] at hx
            simp at hx
          · intro p hp
            rw [← h3] at hp
            exact reconCats_frame _ aid gcats 0 _ p hp
        · split at heqE
          · have h1 := congrArg Prod.fst heqE
            simp only at h1
            have h2 := congrArg Prod.snd heqE
            simp only at h2
            simp only [Except.map] at h2
            split at h2
            · exact absurd h2 (by simp)
            · have h3 := congrArg Prod.snd (Except.ok.inj h2)
              simp only at h3
              constructor
              · intro x hx
                rw [← h1] at hx
                exact deleteAllCats_frame _ _ x hx
              · intro p hp
                rw [← h3] at hp
                exact reconCats_frame _ aid gcats 0 _ p hp
          · have h1 : ([] : List NetCall) = dlog := congrArg Prod.fst heqE
            have h2 := congrArg Prod.snd heqE
            simp only at h2
            have h3 := congrArg Prod.snd (Except.ok.inj h2)
            simp only at h3
            constructor
            · intro x hx
              rw [← h1] at hx
              simp at hx
            · intro p hp
              rw [← h3] at hp
              rcases List.mem_append.mp hp with h | h
              · exact reconCats_frame _ aid gcats 0 _ p h
              · exact orphanCatUpdates_frame _ off _ 0 p h
      split at hc
      · -- category update failed
        try simp only at hc
        simp only [List.mem_append] at hc
        rcases hc with (((h | h) | h) | h) | h
        · exact frameCallB_of_guard call _ h rfl
        · exact frameCallB_of_guard call _ h rfl
        · exact createAllCats_frame s _ call h
        · exact hkey.1 call h
        · exact updateAllCats_frame s2 uc1 hkey.2 call h
      · rename_i upd s3 hequ
        split at hc
        · -- comment creation failed
          try simp only at hc
          simp only [List.mem_append] at hc
          rcases hc with ((((h | h) | h) | h) | h) | h
          · exact frameCallB_of_guard call _ h rfl
          · exact frameCallB_of_guard call _ h rfl
          · exact createAllCats_frame s _ call h
          · exact hkey.1 call h
          · exact updateAllCats_frame s2 uc1 hkey.2 call h
          · exact createAllComs_frame _ _ call h
        · rename_i made2 s4 heqM
          split at hc
          · rename_i dlog2 e heqEC
            -- extra-comment handling failed
            have hdlog2 : ∀ x ∈ dlog2, frameCallB x = true := by
              intro x hx
              split at heqEC
              · exact absurd (congrArg Prod.snd heqEC) (by simp)
              · split at heqEC
                · have h1 := congrArg Prod.fst heqEC
                  simp only at h1
                  rw [← h1] at hx
                  exact deleteAllComs_frame _ _ x hx
                · exact absurd (congrArg Prod.snd heqEC) (by simp)
            try simp only at hc
            simp only [List.mem_append] at hc
            rcases hc with (((((h | h) | h) | h) | h) | h) | h
            · exact frameCallB_of_guard call _ h rfl
            · exact frameCallB_of_guard call _ h rfl
            · exact createAllCats_frame s _ call h
            · exact hkey.1 call h
            · exact updateAllCats_frame s2 uc1 hkey.2 call h
            · exact createAllComs_frame _ _ call h
            · exact hdlog2 call h
          · rename_i dlog2 s5 uc2 heqEC
            have hkey2 : (∀ x ∈ dlog2, frameCallB x = true) ∧
                (∀ p ∈ uc2, p.2.name = none) := by
              split at heqEC
              · have h1 : ([] : List NetCall) = dlog2 :=
                  congrArg Prod.fst heqEC
                have h2 := congrArg Prod.snd heqEC
                simp only at h2
                have h3 := congrArg Prod.snd (Except.ok.inj h2)
                simp only at h3
                constructor
                · intro x hx
                  rw [← h1] at hx
                  simp at hx
                · intro p hp
                  rw [← h3] at hp
                  exact reconComsAll_frame _ _ gcoms _ p hp
              · split at heqEC
                · have h1 := congrArg Prod.fst heqEC
                  simp only at h1
                  have h2 := congrArg Prod.snd heqEC
                  simp only at h2
                  simp only [Except.map] at h2
                  split at h2
                  · exact absurd h2 (by simp)
                  · have h3 := congrArg Prod.snd (Except.ok.inj h2)
                    simp only at h3
                    constructor
                    · intro x hx
                      rw [← h1] at hx
                      exact deleteAllComs_frame _ _ x hx
                    · intro p hp
                      rw [← h3] at hp
                      exact reconComsAll_frame _ _ gcoms _ p hp
                · have h1 : ([] : List NetCall) = dlog2 :=
                    congrArg Prod.fst heqEC
                  have h2 := congrArg Prod.snd heqEC
                  simp only at h2
                  have h3 := congrArg Prod.snd (Except.ok.inj h2)
                  simp only at h3
                  constructor
                  · intro x hx
                    rw [← h1] at hx
                    simp at hx
                  · intro p hp
                    rw [← h3] at hp
                    rcases List.mem_append.mp hp with h | h
                    · exact reconComsAll_frame _ _ gcoms _ p h
                    · exact orphanComUpdates_frame _ _ _ p h
            split at hc
            · -- comment update failed
              try simp only at hc
              simp only [List.mem_append] at hc
              rcases hc with ((((((h | h) | h) | h) | h) | h) | h) | h
              · exact frameCallB_of_guard call _ h rfl
              · exact frameCallB_of_guard call _ h rfl
              · exact createAllCats_frame s _ call h
              · exact hkey.1 call h
              · exact updateAllCats_frame s2 uc1 hkey.2 call h
              · exact createAllComs_frame _ _ call h
              · exact hkey2.1 call h
              · exact updateAllComs_frame s5 uc2 hkey2.2 call h
            · -- run succeeded
              try simp only at hc
              simp only [List.mem_append] at hc
              rcases hc with ((((((h | h) | h) | h) | h) | h) | h) | h
              · exact frameCallB_of_guard call _ h rfl
              · exact frameCallB_of_guard call _ h rfl
              · exact createAllCats_frame s _ call h
              · exact hkey.1 call h
              · exact updateAllCats_frame s2 uc1 hkey.2 call h
              · exact createAllComs_frame _ _ call h
              · exact hkey2.1 call h
              · exact updateAllComs_frame s5 uc2 hkey2.2 call h

/-! ### Post-state machinery: successful batch calls in closed form -/

/-- A successful `mapM` relates input and output pointwise. -/
theorem mapM_ok_forall₂ {α β : Type} (f : α → Except String β) :
    ∀ (l : List α) (out : List β), l.mapM f = .ok out →
      List.Forall₂ (fun a b => f a = .ok b) l out := by
  intro l
  induction l with
  | nil =>
    intro out h
    simp only [List.mapM_nil, pure, Except.pure, Except.ok.injEq] at h
    subst h
    exact List.Forall₂.nil
  | cons a as ih =>
    intro out h
    rw [List.mapM_cons] at h
    cases hfa : f a with
    | error e =>
      rw [hfa] at h
      simp only [Bind.bind, Except.bind] at h
      exact Except.noConfusion h
    | ok v =>
      rw [hfa] at h
      simp only [Bind.bind, Except.bind] at h
      cases hrest : as.mapM f with
      | error e =>
        rw [hrest] at h
        simp only at h
        exact Except.noConfusion h
      | ok vs =>
        rw [hrest] at h
        simp only [pure, Except.pure, Except.ok.injEq] at h
        subst h
        exact List.Forall₂.cons hfa (ih vs hrest)

/-- A pointwise-determined `Forall₂` is a `map`. -/
theorem forall₂_eq_map {α β : Type} (g : α → β) :
    ∀ {l : List α} {out : List β},
      List.Forall₂ (fun a b => b = g a) l out → out = l.map g := by
  intro l out h
  induction h with
  | nil => rfl
  | cons h1 _ ih => simp [ih, h1]

/-- The PATCH fold applies, to each stored category, the first batch item
carrying its id (with distinct item ids, the only one). -/
theorem patchCatsFold_spec :
    ∀ (items : List (Nat × CatArgs)) (s : RemoteState),
      ((items.map Prod.fst).Nodup) →
      (items.foldl
        (fun st it =>
          { st with
            cats := st.cats.map fun c =>
              if c.id == it.1 then applyCatUpdate it.2 c else c })
        s) =
      { s with cats := s.cats.map fun c =>
          match items.find? (fun it => it.1 == c.id) with
          | some it => applyCatUpdate it.2 c
          | none => c } := by
  intro items
  induction items with
  | nil =>
    intro s _
    cases s
    simp [List.find?]
  | cons it rest ih =>
    intro s hnd
    simp only [List.map_cons, List.nodup_cons] at hnd
    simp only [List.foldl_cons]
    rw [ih _ hnd.2]
    congr 1
    rw [List.map_map]
    refine List.map_congr_left ?_
    intro c _
    simp only [Function.comp_apply]
    by_cases hc : c.id = it.1
    · rw [if_pos (by simpa using hc)]
      have hfind : rest.find?
          (fun it' => it'.1 == (applyCatUpdate it.2 c).id) = none := by
        rw [List.find?_eq_none]
        intro x hx hbx
        have hx1 : x.1 = c.id := by simpa using hbx
        exact hnd.1 (hc ▸ hx1 ▸ List.mem_map_of_mem Prod.fst hx)
      rw [hfind, List.find?_cons_of_pos _ (by simpa using hc.symm)]
    · rw [if_neg (by simpa using hc)]
      rw [List.find?_cons_of_neg _ (by simpa using fun h => hc h.symm)]

/-- A successful category PATCH call leaves the store with each stored
category rewritten by its batch item (if any); comments, the id counter and
the submissions are untouched. -/
theorem serverPatchCats_ok (s : RemoteState) (items : List (Nat × CatArgs))
    (hnd : (items.map Prod.fst).Nodup) (rs : List RCat) (s' : RemoteState)
    (h : serverPatchCats s items = .ok (rs, s')) :
    s' = { s with cats := s.cats.map fun c =>
      match items.find? (fun it => it.1 == c.id) with
      | some it => applyCatUpdate it.2 c
      | none => c } := by
  unfold serverPatchCats at h
  split at h
  · have h3 := congrArg Prod.snd (Except.ok.inj h)
    simp only at h3
    rw [patchCatsFold_spec items s hnd] at h3
    exact h3.symm
  · exact Except.noConfusion h

/-- The comment-phase PATCH fold touches only `coms`. -/
theorem patchComsFold_frame :
    ∀ (items : List (Nat × ComArgs)) (s : RemoteState),
      (items.foldl
        (fun st it =>
          { st with
            coms := st.coms.map fun c =>
              if c.id == it.1 then applyComUpdate it.2 c else c })
        s).cats = s.cats ∧
      (items.foldl
        (fun st it =>
          { st with
            coms := st.coms.map fun c =>
              if c.id == it.1 then applyComUpdate it.2 c else c })
        s).nextId = s.nextId ∧
      (items.foldl
        (fun st it =>
          { st with
            coms := st.coms.map fun c =>
              if c.id == it.1 then applyComUpdate it.2 c else c })
        s).subs = s.subs := by
  intro items
  induction items with
  | nil =>
    intro s
    exact ⟨rfl, rfl, rfl⟩
  | cons it rest ih =>
    intro s
    simp only [List.foldl_cons]
    exact ih _

/-- A successful `RubricComment.createAll` changes neither the categories
nor the submissions. -/
theorem comCreateAll_frame (s : RemoteState) (d : List ComArgs)
    (log : List NetCall) (r : List RCom) (s' : RemoteState)
    (h : RubricComment.createAll s d = (log, .ok (r, s'))) :
    s'.cats = s.cats ∧ s'.subs = s.subs := by
  unfold RubricComment.createAll at h
  split at h
  · exact Except.noConfusion (congrArg Prod.snd h)
  · split at h
    · have h2 := Except.ok.inj (congrArg Prod.snd h)
      have h3 := congrArg Prod.snd h2
      simp only at h3
      rw [← h3]
      exact ⟨rfl, rfl⟩
    · have h2 := Except.ok.inj (congrArg Prod.snd h)
      have h3 := congrArg Prod.snd h2
      simp only at h3
      rw [serverCreateComs_spec] at h3
      simp only at h3
      rw [← h3]
      exact ⟨rfl, rfl⟩

/-- A successful `RubricComment.updateAll` changes neither the categories
nor the submissions. -/
theorem comUpdateAll_frame (s : RemoteState) (d : List (Nat × ComArgs))
    (log : List NetCall) (r : List RCom) (s' : RemoteState)
    (h : RubricComment.updateAll s d = (log, .ok (r, s'))) :
    s'.cats = s.cats ∧ s'.subs = s.subs := by
  unfold RubricComment.updateAll at h
  split at h
  · exact Except.noConfusion (congrArg Prod.snd h)
  · split at h
    · have h2 := Except.ok.inj (congrArg Prod.snd h)
      have h3 := congrArg Prod.snd h2
      simp only at h3
      rw [← h3]
      exact ⟨rfl, rfl⟩
    · have h2 := congrArg Prod.snd h
      simp only at h2
      unfold serverPatchComs at h2
      split at h2
      · have h3 := congrArg Prod.snd (Except.ok.inj h2)
        simp only at h3
        rw [← h3]
        obtain ⟨h4, _, h5⟩ := patchComsFold_frame _ s
        exact ⟨h4, h5⟩
      · exact Except.noConfusion h2

/-- A successful `RubricComment.deleteAll` changes neither the categories
nor the submissions. -/
theorem comDeleteAll_frame (s : RemoteState) (ids : List Nat)
    (log : List NetCall) (s' : RemoteState)
    (h : RubricComment.deleteAll s ids = (log, .ok s')) :
    s'.cats = s.cats ∧ s'.subs = s.subs := by
  unfold RubricComment.deleteAll at h
  split at h
  · have h2 := Except.ok.inj (congrArg Prod.snd h)
    rw [← h2]
    exact ⟨rfl, rfl⟩
  · have h2 := congrArg Prod.snd h
    simp only at h2
    unfold serverDeleteComs at h2
    split at h2
    · have h3 := Except.ok.inj h2
      rw [← h3]
      exact ⟨rfl, rfl⟩
    · exact Except.noConfusion h2

/-- When the fetched sort key differs from the target index, the category
diff fires and carries the index as the new sort key. -/
theorem catDiff_sortKey_fires (c : CatArgs) (e : RCat) (k : Nat)
    (hne : e.sortKey ≠ k) :
    ∃ d, catDiff c e k = some d ∧ d.sortKey = some (some k) := by
  unfold catDiff
  lift_lets
  extract_lets b0 b1 b2 b3 b4 b5 b6 b7 b8
  have e8 : b8 = (true, { b7 with sortKey := some (some k) }) := by
    have h : b8 = if e.sortKey ≠ k then
        (true, { b7 with sortKey := some (some k) }) else b6 := rfl
    rw [h, if_pos hne]
  refine ⟨b8.2, ?_, ?_⟩
  · rw [e8]
    try rfl
  · rw [e8]
    try rfl

/-- When the fetched sort key already equals the target index, a fired diff
does not carry a sort key. -/
theorem catDiff_sortKey_keep (c : CatArgs) (e : RCat) (k : Nat)
    (heq : e.sortKey = k) (d : CatArgs) (h : catDiff c e k = some d) :
    d.sortKey = none := by
  unfold catDiff at h
  lift_lets at h
  extract_lets b0 b1 b2 b3 b4 b5 b6 b7 b8 at h
  have h0 : b0.2.sortKey = none := rfl
  have h2 : b2.2.sortKey = none := by
    have e2 : b2 = match c.pointLimit with
      | some v =>
        if e.pointLimit ≠ v then (true, { b1 with pointLimit := some v })
        else b0
      | none => b0 := rfl
    rw [e2]
    rcases c.pointLimit with _ | v
    · exact h0
    · dsimp only
      split <;> exact h0
  have h4 : b4.2.sortKey = none := by
    have e4 : b4 = match c.helpText with
      | some v =>
        if e.helpText ≠ v then (true, { b3 with helpText := some v })
        else b2
      | none => b2 := rfl
    rw [e4]
    rcases c.helpText with _ | v
    · exact h2
    · dsimp only
      split <;> exact h2
  have h6 : b6.2.sortKey = none := by
    have e6 : b6 = match c.atMostOnce with
      | some v =>
        if e.atMostOnce ≠ v then (true, { b5 with atMostOnce := some v })
        else b4
      | none => b4 := rfl
    rw [e6]
    rcases c.atMostOnce with _ | v
    · exact h4
    · dsimp only
      split <;> exact h4
  have e8 : b8 = b6 := by
    have hh : b8 = if e.sortKey ≠ k then
        (true, { b7 with sortKey := some (some k) }) else b6 := rfl
    rw [hh, if_neg (by simp [heq])]
  rw [e8] at h
  split at h
  · cases Option.some.inj h
    exact h6
  · exact Option.noConfusion h

/-- A silent diff means the fetched sort key already equals the index. -/
theorem catDiff_none_sortKey (c : CatArgs) (e : RCat) (k : Nat)
    (h : catDiff c e k = none) : e.sortKey = k := by
  by_contra hne
  obtain ⟨d, hd, _⟩ := catDiff_sortKey_fires c e k hne
  rw [h] at hd
  exact Option.noConfusion hd

/-- The orphan-category re-sort loop in closed form. -/
theorem orphanCatUpdates_spec (cps : List (String × RCat)) (offset : Nat) :
    ∀ (names : List String) (i0 : Nat),
      orphanCatUpdates cps offset i0 names =
        (mapWithIndex Prod.mk i0 names).filterMap (fun q =>
          if ((lookupEntry cps q.2).getD defaultRCat).sortKey ≠
              offset + q.1 then
            some (((lookupEntry cps q.2).getD defaultRCat).id,
              { emptyCatArgs with sortKey := some (some (offset + q.1)) })
          else none) := by
  intro names
  induction names with
  | nil =>
    intro i0
    rfl
  | cons nm rest ih =>
    intro i0
    simp only [orphanCatUpdates, mapWithIndex, List.filterMap_cons]
    rw [ih (i0 + 1)]
    by_cases hc : ((lookupEntry cps nm).getD defaultRCat).sortKey ≠
        offset + i0
    · rw [if_pos hc, if_pos hc]
    · rw [if_neg hc, if_neg hc]

/-- `mapWithIndex` with an index-blind function is a `map`. -/
theorem mapWithIndex_constfun {α β : Type} (f : α → β) :
    ∀ (l : List α) (i : Nat), mapWithIndex (fun _ a => f a) i l = l.map f := by
  intro l
  induction l with
  | nil =>
    intro i
    rfl
  | cons a as ih =>
    intro i
    simp [mapWithIndex, ih]

/-- The indices of the indexed list are the consecutive range. -/
theorem mapWithIndex_fst {α : Type} :
    ∀ (l : List α) (i : Nat),
      (mapWithIndex Prod.mk i l).map Prod.fst = List.range' i l.length := by
  intro l
  induction l with
  | nil =>
    intro i
    rfl
  | cons a as ih =>
    intro i
    simp [mapWithIndex, ih, List.range'_succ]

/-- The indexed list has no duplicates (its indices are distinct). -/
theorem mapWithIndex_nodup {α : Type} (l : List α) (i : Nat) :
    (mapWithIndex Prod.mk i l).Nodup := by
  have h : ((mapWithIndex Prod.mk i l).map Prod.fst).Nodup := by
    rw [mapWithIndex_fst]
    apply List.nodup_range'
    omega
  exact h.of_map

/-- `filterMap` preserves `Nodup` when the partial function is injective on
produced values. -/
theorem filterMap_nodup {α β : Type} (f : α → Option β) :
    ∀ (l : List α), l.Nodup →
      (∀ a ∈ l, ∀ b ∈ l, ∀ x, f a = some x → f b = some x → a = b) →
      (l.filterMap f).Nodup := by
  intro l
  induction l with
  | nil =>
    intro _ _
    simp
  | cons a as ih =>
    intro hnd hinj
    rw [List.filterMap_cons]
    rcases List.nodup_cons.mp hnd with ⟨hna, hnd2⟩
    cases hfa : f a with
    | none =>
      exact ih hnd2 (fun x hx y hy => hinj x (by simp [hx]) y (by simp [hy]))
    | some b =>
      rw [List.nodup_cons]
      constructor
      · intro hb
        obtain ⟨a', ha', hfa'⟩ := List.mem_filterMap.mp hb
        have := hinj a (by simp) a' (by simp [ha']) b hfa hfa'
        exact hna (this ▸ ha')
      · exact ih hnd2 (fun x hx y hy => hinj x (by simp [hx]) y (by simp [hy]))

/-! ### Claim C6: rename-safe matching of comments by name -/

/-- A successful lookup's entry is in the object. -/
theorem lookupEntry_mem {α : Type} (k : String) (v : α) :
    ∀ (m : List (String × α)), lookupEntry m k = some v → (k, v) ∈ m := by
  intro m
  induction m with
  | nil =>
    intro h
    simp [lookupEntry] at h
  | cons kv rest ih =>
    intro h
    rcases kv with ⟨a, b⟩
    simp only [lookupEntry] at h
    by_cases he : a = k
    · rw [if_pos he] at h
      obtain rfl := Option.some.inj h
      subst he
      exact List.mem_cons_self _ _
    · rw [if_neg he] at h
      exact List.mem_cons_of_mem _ (ih h)

/-- A key of the object has a value. -/
theorem mem_keys_lookup {α : Type} (k : String) :
    ∀ (m : List (String × α)), k ∈ keysOf m →
      ∃ v, lookupEntry m k = some v := by
  intro m
  induction m with
  | nil =>
    intro h
    simp [keysOf] at h
  | cons kv rest ih =>
    intro h
    rcases kv with ⟨a, b⟩
    simp only [keysOf, List.map_cons, List.mem_cons] at h
    simp only [lookupEntry]
    by_cases he : a = k
    · exact ⟨b, if_pos he⟩
    · rw [if_neg he]
      refine ih ?_
      rcases h with h | h
      · exact absurd h.symm he
      · exact h

/-- When the stored comment ids are distinct, distinct names resolve to
distinct ids. -/
theorem lookup_id_inj (cpComs : List (String × RCom))
    (hids : (cpComs.map fun kv => kv.2.id).Nodup) (m n : String)
    (cm cn : RCom) (h1 : lookupEntry cpComs m = some cm)
    (h2 : lookupEntry cpComs n = some cn) (hid : cm.id = cn.id) : m = n := by
  have hm := lookupEntry_mem m cm cpComs h1
  have hn := lookupEntry_mem n cn cpComs h2
  have := List.inj_on_of_nodup_map hids hm hn hid
  exact congrArg Prod.fst this

/-- When a desired comment's remote counterpart sits in a different
category, the field diff fires and its `data` carries the new category. -/
theorem comDiff_category (c : ComArgs) (e : RCom) (cid k : Nat)
    (hne : e.category ≠ cid) :
    ∃ d, comDiff c e cid k = some d ∧ d.category = some cid := by
  unfold comDiff
  lift_lets
  extract_lets b0 b1 b2 b3 b4 b5 b6 b7 b8 b9 b10 b11 b12 b13 b14
  have e12 : b12 = (true, { b11 with category := some cid }) := by
    have h : b12 = if e.category ≠ cid then
        (true, { b11 with category := some cid }) else b10 := rfl
    rw [h, if_pos hne]
  have h14 : b14.1 = true ∧ b14.2.category = some cid := by
    have h : b14 = if e.sortKey ≠ k then
        (true, { b13 with sortKey := some (some k) }) else b12 := rfl
    rw [h]
    split
    · refine ⟨rfl, ?_⟩
      show b12.2.category = some cid
      rw [e12]
    · rw [e12]
      exact ⟨rfl, rfl⟩
  refine ⟨b14.2, ?_, h14.2⟩
  rw [if_pos h14.1]

/-- `countP` over `flatMap` as the sum of the per-chunk counts. -/
theorem countP_flatMap {α β : Type} (f : α → List β) (p : β → Bool) :
    ∀ (l : List α), (l.flatMap f).countP p =
      (l.map fun x => (f x).countP p).sum := by
  intro l
  induction l with
  | nil => rfl
  | cons a as ih =>
    simp only [List.flatMap_cons, List.countP_append, List.map_cons,
      List.sum_cons, ih]

/-- `countP` over `filterMap` as a `countP` of the composed predicate. -/
theorem countP_filterMap {α β : Type} (f : α → Option β) (p : β → Bool) :
    ∀ (l : List α), (l.filterMap f).countP p =
      l.countP (fun a => ((f a).map p).getD false) := by
  intro l
  induction l with
  | nil => rfl
  | cons a as ih =>
    rw [List.filterMap_cons]
    cases hfa : f a with
    | none =>
      rw [List.countP_cons, hfa]
      simp [ih]
    | some b =>
      rw [List.countP_cons, List.countP_cons, hfa, ih]
      simp

/-- An index-blind count over the indexed list is a count over the list. -/
theorem countP_mapWithIndex_snd {α : Type} (P : α → Bool) :
    ∀ (l : List α) (i : Nat),
      (mapWithIndex Prod.mk i l).countP (fun q => P q.2) = l.countP P := by
  intro l
  induction l with
  | nil =>
    intro i
    rfl
  | cons a as ih =>
    intro i
    simp only [mapWithIndex, List.countP_cons, ih]

/-- Every list element appears in the indexed list at some index. -/
theorem mem_mapWithIndex_of_mem {α : Type} (a : α) :
    ∀ (l : List α) (i : Nat), a ∈ l →
      ∃ j, (j, a) ∈ mapWithIndex Prod.mk i l := by
  intro l
  induction l with
  | nil =>
    intro i h
    simp at h
  | cons b bs ih =>
    intro i h
    rcases List.mem_cons.mp h with rfl | h'
    · exact ⟨i, by simp [mapWithIndex]⟩
    · obtain ⟨j, hj⟩ := ih (i + 1) h'
      exact ⟨j, by simp [mapWithIndex, hj]⟩

/-- Every orphan update's id is the id resolved from one of the orphan
names. -/
theorem orphanComUpdates_ids (cps : List (String × RCom)) :
    ∀ (names : List String) (sortKeys : List (Nat × Option Nat))
      (q : Nat × ComArgs), q ∈ orphanComUpdates cps sortKeys names →
      ∃ m ∈ names, q.1 = ((lookupEntry cps m).getD defaultRCom).id := by
  intro names
  induction names with
  | nil =>
    intro sk q hq
    simp [orphanComUpdates] at hq
  | cons nm rest ih =>
    intro sk q hq
    simp only [orphanComUpdates] at hq
    split at hq
    · split at hq
      · rcases List.mem_cons.mp hq with rfl | hq'
        · exact ⟨nm, by simp, rfl⟩
        · obtain ⟨m, hm, he⟩ := ih _ q hq'
          exact ⟨m, by simp [hm], he⟩
      · obtain ⟨m, hm, he⟩ := ih _ q hq
        exact ⟨m, by simp [hm], he⟩
    · rcases List.mem_cons.mp hq with rfl | hq'
      · exact ⟨nm, by simp, rfl⟩
      · obtain ⟨m, hm, he⟩ := ih _ q hq'
        exact ⟨m, by simp [hm], he⟩
    · rcases List.mem_cons.mp hq with rfl | hq'
      · exact ⟨nm, by simp, rfl⟩
      · obtain ⟨m, hm, he⟩ := ih _ q hq'
        exact ⟨m, by simp [hm], he⟩

/-- C6: rename-safe matching of comments by name — when a desired comment
keeps its name `n` but is listed under a category resolving to a different
id than its remote counterpart's current `category`, the desired-comment
reconciliation queues no create carrying name `n`, queues an update for the
existing comment's id whose `data` carries the new category id, queues
exactly one update referencing that id, and leaves `n` out of the leftover
set — so the extra-comment pass (delete or orphan re-sort) never touches
that comment's id either. -/
theorem reconComs_rename_safe
    (cpComs : List (String × RCom)) (finalCats : List (String × Nat))
    (gcoms : List (String × List ComArgs)) (catName n : String)
    (coms : List ComArgs) (a : ComArgs) (com : RCom)
    (hkc : (catName, coms) ∈ gcoms) (ha : a ∈ coms) (han : a.name = some n)
    (hlk : lookupEntry cpComs n = some com)
    (hkeys : (cpComs.map Prod.fst).Nodup)
    (hids : (cpComs.map fun kv => kv.2.id).Nodup)
    (hnames : (gcoms.flatMap fun kc =>
      kc.2.map fun x => x.name.getD "").Nodup)
    (hneq : com.category ≠ (lookupEntry finalCats catName).getD 0) :
    (∀ p ∈ (reconComsAll cpComs finalCats (keysOf cpComs) gcoms).1,
      p.name ≠ some n) ∧
    (∃ d, (com.id, d) ∈
        (reconComsAll cpComs finalCats (keysOf cpComs) gcoms).2.1 ∧
      d.category = some ((lookupEntry finalCats catName).getD 0)) ∧
    ((reconComsAll cpComs finalCats (keysOf cpComs) gcoms).2.1.countP
      (fun p => p.1 == com.id)) = 1 ∧
    n ∉ (reconComsAll cpComs finalCats (keysOf cpComs) gcoms).2.2 ∧
    (∀ (sortKeys : List (Nat × Option Nat)) (q : Nat × ComArgs),
      q ∈ orphanComUpdates cpComs sortKeys
        (reconComsAll cpComs finalCats (keysOf cpComs) gcoms).2.2 →
      q.1 ≠ com.id) := by
  have hnin : n ∈ keysOf cpComs :=
    List.mem_map_of_mem Prod.fst (lookupEntry_mem n com cpComs hlk)
  have hnameA : a.name.getD "" = n := by
    rw [han]
    rfl
  have hnflat : n ∈ gcoms.flatMap fun kc => kc.2.map fun x => x.name.getD "" :=
    List.mem_flatMap.mpr ⟨(catName, coms), hkc,
      hnameA ▸ List.mem_map_of_mem _ ha⟩
  have hspec := reconComsAll_spec cpComs finalCats gcoms (keysOf cpComs)
    hnames hkeys
  rw [hspec]
  simp only
  refine ⟨?_, ?_, ?_, ?_, ?_⟩
  · -- no create carries name n
    intro p hp heq
    obtain ⟨kc, hkck, hpin⟩ := List.mem_flatMap.mp hp
    obtain ⟨q, hq, rfl⟩ := List.mem_map.mp hpin
    have hqf := (List.mem_filter.mp hq).2
    simp only at heq
    have : q.2.name.getD "" = n := by
      rw [heq]
      rfl
    rw [this] at hqf
    simp [hnin] at hqf
  · -- the update for the existing id carries the new category
    obtain ⟨j, hja⟩ := mem_mapWithIndex_of_mem a coms 0 ha
    obtain ⟨d, hd, hdc⟩ := comDiff_category a com
      ((lookupEntry finalCats catName).getD 0) j hneq
    refine ⟨d, ?_, hdc⟩
    refine List.mem_flatMap.mpr ⟨(catName, coms), hkc, ?_⟩
    refine List.mem_filterMap.mpr ⟨(j, a), hja, ?_⟩
    simp only
    rw [hnameA, if_pos hnin, hlk]
    simp only [Option.getD_some]
    rw [hd]
    rfl
  · -- exactly one queued update references the id
    rw [countP_flatMap]
    have hle : (gcoms.map fun kc =>
        (((mapWithIndex Prod.mk 0 kc.2).filterMap (fun p =>
          if (p.2.name.getD "") ∈ keysOf cpComs then
            (comDiff p.2
              ((lookupEntry cpComs (p.2.name.getD "")).getD defaultRCom)
              ((lookupEntry finalCats kc.1).getD 0) p.1).map
              (fun d =>
                (((lookupEntry cpComs (p.2.name.getD "")).getD
                  defaultRCom).id, d))
          else none)).countP (fun p => p.1 == com.id))).sum ≤
        (gcoms.map fun kc =>
          kc.2.countP fun x => x.name.getD "" == n).sum := by
      refine List.sum_le_sum ?_
      intro kc hkcm
      rw [countP_filterMap]
      rw [← countP_mapWithIndex_snd (fun x => x.name.getD "" == n) kc.2 0]
      refine List.countP_mono_left ?_
      intro q hq hind
      by_cases hqm : (q.2.name.getD "") ∈ keysOf cpComs
      · rw [if_pos hqm] at hind
        obtain ⟨vm, hvm⟩ := mem_keys_lookup (q.2.name.getD "") cpComs hqm
        rw [hvm] at hind
        simp only [Option.getD_some] at hind
        cases hdq : comDiff q.2 vm ((lookupEntry finalCats kc.1).getD 0)
            q.1 with
        | none =>
          rw [hdq] at hind
          simp at hind
        | some d2 =>
          rw [hdq] at hind
          simp only [Option.map_some', Option.map_map] at hind
          have hid : vm.id = com.id := by
            simpa using hind
          have := lookup_id_inj cpComs hids (q.2.name.getD "") n vm com
            hvm hlk hid
          simp [this]
      · rw [if_neg hqm] at hind
        simp at hind
    have hflatcount : (gcoms.map fun kc =>
        kc.2.countP fun x => x.name.getD "" == n).sum =
        ((gcoms.flatMap fun kc =>
          kc.2.map fun x => x.name.getD "").countP (· == n)) := by
      rw [countP_flatMap]
      congr 1
      refine List.map_congr_left ?_
      intro kc _
      rw [List.countP_map]
      rfl
    have hone : ((gcoms.flatMap fun kc =>
        kc.2.map fun x => x.name.getD "").countP (· == n)) = 1 := by
      have := List.count_eq_one_of_mem hnames hnflat
      simpa [List.count] using this
    have hpos : 0 < (gcoms.map fun kc =>
        (((mapWithIndex Prod.mk 0 kc.2).filterMap (fun p =>
          if (p.2.name.getD "") ∈ keysOf cpComs then
            (comDiff p.2
              ((lookupEntry cpComs (p.2.name.getD "")).getD defaultRCom)
              ((lookupEntry finalCats kc.1).getD 0) p.1).map
              (fun d =>
                (((lookupEntry cpComs (p.2.name.getD "")).getD
                  defaultRCom).id, d))
          else none)).countP (fun p => p.1 == com.id))).sum := by
      rw [← countP_flatMap]
      rw [List.countP_pos_iff]
      obtain ⟨j, hja⟩ := mem_mapWithIndex_of_mem a coms 0 ha
      obtain ⟨d, hd, hdc⟩ := comDiff_category a com
        ((lookupEntry finalCats catName).getD 0) j hneq
      refine ⟨(com.id, d), ?_, by simp⟩
      refine List.mem_flatMap.mpr ⟨(catName, coms), hkc, ?_⟩
      refine List.mem_filterMap.mpr ⟨(j, a), hja, ?_⟩
      simp only
      rw [hnameA, if_pos hnin, hlk]
      simp only [Option.getD_some]
      rw [hd]
      rfl
    rw [hflatcount, hone] at hle
    omega
  · -- n is consumed from the existing set
    intro hmem
    have := (List.mem_filter.mp hmem).2
    simp [hnflat] at this
  · -- the orphan pass resolves only other names, hence other ids
    intro sortKeys q hq heqid
    obtain ⟨m, hm, he⟩ := orphanComUpdates_ids cpComs _ sortKeys q hq
    have hmk : m ∈ keysOf cpComs := (List.mem_filter.mp hm).1
    have hmne : m ≠ n := by
      intro hmn
      have := (List.mem_filter.mp hm).2
      rw [hmn] at this
      simp [hnflat] at this
    obtain ⟨vm, hvm⟩ := mem_keys_lookup m cpComs hmk
    rw [hvm] at he
    simp only [Option.getD_some] at he
    have hid : vm.id = com.id := by
      rw [← he]
      exact heqid
    exact hmne (lookup_id_inj cpComs hids m n vm com hvm hlk hid)

/-- C6 witness: one remote comment `"X"` (id 21) currently in category 3,
desired under `"B"` which resolves to id 7 — the reconciliation queues the
single update `(21, category := 7)` and no create or leftover for `"X"`. -/
theorem reconComs_rename_safe_witness :
    ∃ d : ComArgs, (21, d) ∈
      (reconComsAll
        [("X", (⟨21, "X", 3, -1, "t", "", "", false, 0⟩ : RCom))]
        [("B", 7)]
        (keysOf [("X", (⟨21, "X", 3, -1, "t", "", "", false, 0⟩ : RCom))])
        [("B", [(⟨none, some "X", some (-1), some "t", none, none, none,
          none⟩ : ComArgs)])]).2.1 ∧
      d.category = some 7 := by
  have h := reconComs_rename_safe
    [("X", ⟨21, "X", 3, -1, "t", "", "", false, 0⟩)] [("B", 7)]
    [("B", [⟨none, some "X", some (-1), some "t", none, none, none, none⟩])]
    "B" "X"
    [⟨none, some "X", some (-1), some "t", none, none, none, none⟩]
    ⟨none, some "X", some (-1), some "t", none, none, none, none⟩
    ⟨21, "X", 3, -1, "t", "", "", false, 0⟩
    (List.mem_cons_self _ _) (List.mem_cons_self _ _) rfl rfl
    (by decide) (by decide) (by decide) (by decide)
  exact h.2.1

/-! ### Claim C5: category order preservation and orphan non-interleaving -/

/-- Every element of a list appears in an indexed image at some index. -/
theorem mem_mapWithIndex_image {α β : Type} (f : Nat → α → β) (a : α) :
    ∀ (l : List α) (i : Nat), a ∈ l →
      ∃ j, f j a ∈ mapWithIndex f i l := by
  intro l
  induction l with
  | nil =>
    intro i h
    simp at h
  | cons b bs ih =>
    intro i h
    rcases List.mem_cons.mp h with rfl | h'
    · exact ⟨i, by simp [mapWithIndex]⟩
    · obtain ⟨j, hj⟩ := ih (i + 1) h'
      exact ⟨j, by simp [mapWithIndex, hj]⟩

/-! ### The category phase of the incremental path in closed form -/

/-- The entry object the incremental path builds from the fetched
categories (stored categories with distinct ids fetch completely, and with
distinct names `Object.fromEntries` drops none of them). -/
def catCp (s : RemoteState) : List (String × RCat) :=
  (s.cats.map catDecode).map fun c => (c.name, c)

/-- The create payloads of the desired-category loop, in closed form. -/
def catCcs (s : RemoteState) (gcats : List CatArgs) (aid : Nat) :
    List CatArgs :=
  ((mapWithIndex Prod.mk 0 gcats).filter fun p =>
      !((s.cats.map RCat.name).contains (p.2.name.getD ""))).map
    fun p => { p.2 with assignment := some aid, sortKey := some (some p.1) }

/-- The update items of the desired-category loop, in closed form. -/
def catUcs (s : RemoteState) (gcats : List CatArgs) : List (Nat × CatArgs) :=
  (mapWithIndex Prod.mk 0 gcats).filterMap fun p =>
    if (p.2.name.getD "") ∈ s.cats.map RCat.name then
      (catDiff p.2
          ((lookupEntry (catCp s) (p.2.name.getD "")).getD defaultRCat)
          p.1).map
        (fun d =>
          (((lookupEntry (catCp s) (p.2.name.getD "")).getD
              defaultRCat).id, d))
    else none

/-- The leftover existing names after the desired-category loop. -/
def catExF (s : RemoteState) (gcats : List CatArgs) : List String :=
  (s.cats.map RCat.name).filter fun n =>
    !((gcats.map fun g => g.name.getD "").contains n)

/-- The records a successful category POST of the incremental path appends
to the store. -/
def catNewRecs (s : RemoteState) (gcats : List CatArgs) (aid : Nat) :
    List RCat :=
  mapWithIndex (fun j p => serverNewCat (s.nextId + j) p) 0
    ((catCcs s gcats aid).map flipCat)

/-- The PATCH items of the category phase for `deleteExtra = false`: the
field diffs of the matched categories, then the orphan re-sorts. -/
def catItems (s : RemoteState) (gcats : List CatArgs) (off : Nat) :
    List (Nat × CatArgs) :=
  catUcs s gcats ++ orphanCatUpdates (catCp s) off 0 (catExF s gcats)

/-- Applying a PATCH batch to one stored category record. -/
def patchCatFn (items : List (Nat × CatArgs)) (c : RCat) : RCat :=
  ((items.find? (fun it => it.1 == c.id)).map
    fun it => applyCatUpdate it.2 c).getD c

/-- With distinct item ids, `find?` locates a member item by its id. -/
theorem find?_fst_self {α : Type} (k : Nat) (v : α) :
    ∀ (items : List (Nat × α)), ((items.map Prod.fst).Nodup) →
      (k, v) ∈ items → items.find? (fun it => it.1 == k) = some (k, v) := by
  intro items
  induction items with
  | nil => intro _ h; simp at h
  | cons it rest ih =>
    intro hnd hmem
    simp only [List.map_cons, List.nodup_cons] at hnd
    rcases List.mem_cons.mp hmem with rfl | hmem2
    · simp [List.find?]
    · have hne : (it.1 == k) = false := by
        simp only [beq_eq_false_iff_ne, ne_eq]
        intro he
        refine hnd.1 ?_
        rw [he]
        exact List.mem_map_of_mem Prod.fst hmem2
      simp only [List.find?, hne]
      exact ih hnd.2 hmem2

theorem mapWithIndex_snd {α : Type} (l : List α) (i : Nat) :
    (mapWithIndex Prod.mk i l).map Prod.snd = l := by
  rw [map_mapWithIndex]
  exact mapWithIndex_idfun l i

theorem mapWithIndex_snd_names (gcats : List CatArgs) :
    (mapWithIndex Prod.mk 0 gcats).map (fun p => p.2.name.getD "") =
      gcats.map fun g => g.name.getD "" := by
  rw [map_mapWithIndex,
    mapWithIndex_congr (g := fun _ (a : CatArgs) => a.name.getD "")
      (fun j a => rfl) 0 _]
  exact mapWithIndex_constfun _ gcats 0

theorem mapWithIndex_getElem_mem {α : Type} (l : List α) (i : Nat)
    (h : i < l.length) : (i, l[i]) ∈ mapWithIndex Prod.mk 0 l := by
  have h2 : i < (mapWithIndex Prod.mk 0 l).length := by
    rw [mapWithIndex_length]
    exact h
  have hg := mapWithIndex_getElem Prod.mk l 0 i h h2
  simp only [Nat.zero_add] at hg
  rw [← hg]
  exact List.getElem_mem h2

/-- Looking a stored category's name up in the fetched entry object returns
its decoded record. -/
theorem catCp_lookup (s : RemoteState)
    (hwfnm : (s.cats.map RCat.name).Nodup) :
    ∀ c ∈ s.cats, lookupEntry (catCp s) c.name = some (catDecode c) := by
  intro c hc
  have hnd2 : ((s.cats.map catDecode).map RCat.name).Nodup := by
    have he : (s.cats.map catDecode).map RCat.name =
        s.cats.map RCat.name := by
      rw [List.map_map]
      exact List.map_congr_left fun c _ => rfl
    rw [he]
    exact hwfnm
  have h := lookup_map_nodup RCat.name id (s.cats.map catDecode) hnd2
    (List.mem_map_of_mem catDecode hc)
  simp only [id_eq] at h
  have h2 : RCat.name (catDecode c) = c.name := rfl
  rw [h2] at h
  exact h

/-- The desired-category loop of the incremental path, on the fetched data
of a well-formed store, in closed form. -/
theorem reconCats_closed (s : RemoteState) (aid : Nat) (gcats : List CatArgs)
    (hwfnm : (s.cats.map RCat.name).Nodup)
    (hnames : (gcats.map fun g => g.name.getD "").Nodup) :
    reconCats (catCp s) aid 0 (keysOf (catCp s)) gcats =
      (catCcs s gcats aid, catUcs s gcats, catExF s gcats) := by
  have hkeys : keysOf (catCp s) = s.cats.map RCat.name := by
    show ((s.cats.map catDecode).map fun c => (c.name, c)).map Prod.fst = _
    rw [List.map_map, List.map_map]
    exact List.map_congr_left fun c _ => rfl
  rw [hkeys, reconCats_spec (catCp s) aid gcats 0 (s.cats.map RCat.name)
    hnames hwfnm]
  rfl

/-- What a fired entry of the desired-category loop's update branch says:
it carries the id of the stored category with the matched name, and its
data is the field diff against that category's decoded record. -/
theorem catUcs_fun_elim (s : RemoteState) (gcats : List CatArgs)
    (hwfnm : (s.cats.map RCat.name).Nodup) (p it : Nat × CatArgs)
    (hf : (if (p.2.name.getD "") ∈ s.cats.map RCat.name then
          (catDiff p.2
              ((lookupEntry (catCp s) (p.2.name.getD "")).getD defaultRCat)
              p.1).map
            (fun d =>
              (((lookupEntry (catCp s) (p.2.name.getD "")).getD
                  defaultRCat).id, d))
        else none) = some it) :
    ∃ c ∈ s.cats, c.name = p.2.name.getD "" ∧ it.1 = c.id ∧
      catDiff p.2 (catDecode c) p.1 = some it.2 := by
  by_cases hmem : (p.2.name.getD "") ∈ s.cats.map RCat.name
  · rw [if_pos hmem] at hf
    obtain ⟨c, hc, hcname⟩ := List.mem_map.mp hmem
    rw [← hcname, catCp_lookup s hwfnm c hc] at hf
    simp only [Option.getD_some] at hf
    cases hd : catDiff p.2 (catDecode c) p.1 with
    | none =>
      rw [hd] at hf
      exact Option.noConfusion hf
    | some d =>
      rw [hd] at hf
      simp only [Option.map_some'] at hf
      have h2 := Option.some.inj hf
      refine ⟨c, hc, hcname, ?_, ?_⟩
      · rw [← h2]
        rfl
      · rw [hd, ← h2]
  · rw [if_neg hmem] at hf
    exact Option.noConfusion hf

theorem catUcs_elim (s : RemoteState) (gcats : List CatArgs)
    (hwfnm : (s.cats.map RCat.name).Nodup) :
    ∀ it ∈ catUcs s gcats, ∃ p ∈ mapWithIndex Prod.mk 0 gcats,
      ∃ c ∈ s.cats, c.name = p.2.name.getD "" ∧ it.1 = c.id ∧
        catDiff p.2 (catDecode c) p.1 = some it.2 := by
  intro it hit
  obtain ⟨p, hp, hf⟩ := List.mem_filterMap.mp hit
  obtain ⟨c, hc, h⟩ := catUcs_fun_elim s gcats hwfnm p it hf
  exact ⟨p, hp, c, hc, h⟩

theorem catUcs_intro (s : RemoteState) (gcats : List CatArgs)
    (hwfnm : (s.cats.map RCat.name).Nodup) (p : Nat × CatArgs)
    (hp : p ∈ mapWithIndex Prod.mk 0 gcats) (c : RCat) (hc : c ∈ s.cats)
    (hcname : c.name = p.2.name.getD "") (d : CatArgs)
    (hd : catDiff p.2 (catDecode c) p.1 = some d) :
    (c.id, d) ∈ catUcs s gcats := by
  refine List.mem_filterMap.mpr ⟨p, hp, ?_⟩
  show (if (p.2.name.getD "") ∈ s.cats.map RCat.name then
      (catDiff p.2
          ((lookupEntry (catCp s) (p.2.name.getD "")).getD defaultRCat)
          p.1).map
        (fun d =>
          (((lookupEntry (catCp s) (p.2.name.getD "")).getD
              defaultRCat).id, d))
    else none) = some (c.id, d)
  have hmem : (p.2.name.getD "") ∈ s.cats.map RCat.name := by
    rw [← hcname]
    exact List.mem_map_of_mem RCat.name hc
  rw [if_pos hmem, ← hcname, catCp_lookup s hwfnm c hc]
  simp only [Option.getD_some, hd, Option.map_some']
  rfl

/-- What a fired entry of the orphan re-sort says. -/
theorem catOrph_fun_elim (s : RemoteState) (off : Nat) (q : Nat × String)
    (it : Nat × CatArgs) (hwfnm : (s.cats.map RCat.name).Nodup)
    (hq2 : q.2 ∈ s.cats.map RCat.name)
    (hf : (if ((lookupEntry (catCp s) q.2).getD defaultRCat).sortKey ≠
          off + q.1 then
        some (((lookupEntry (catCp s) q.2).getD defaultRCat).id,
          { emptyCatArgs with sortKey := some (some (off + q.1)) })
      else none) = some it) :
    ∃ c ∈ s.cats, c.name = q.2 ∧ it.1 = c.id ∧ c.sortKey ≠ off + q.1 ∧
      it.2 = { emptyCatArgs with sortKey := some (some (off + q.1)) } := by
  obtain ⟨c, hc, hcname⟩ := List.mem_map.mp hq2
  rw [← hcname, catCp_lookup s hwfnm c hc] at hf
  simp only [Option.getD_some] at hf
  by_cases hsk : (catDecode c).sortKey ≠ off + q.1
  · rw [if_pos hsk] at hf
    have h2 := Option.some.inj hf
    refine ⟨c, hc, hcname, ?_, hsk, ?_⟩
    · rw [← h2]
      rfl
    · rw [← h2]
  · rw [if_neg hsk] at hf
    exact Option.noConfusion hf

theorem catOrph_elim (s : RemoteState) (gcats : List CatArgs) (off : Nat)
    (hwfnm : (s.cats.map RCat.name).Nodup) :
    ∀ it ∈ orphanCatUpdates (catCp s) off 0 (catExF s gcats),
      ∃ q ∈ mapWithIndex Prod.mk 0 (catExF s gcats), ∃ c ∈ s.cats,
        c.name = q.2 ∧ it.1 = c.id ∧ c.sortKey ≠ off + q.1 ∧
        it.2 = { emptyCatArgs with sortKey := some (some (off + q.1)) } := by
  intro it hit
  rw [orphanCatUpdates_spec] at hit
  obtain ⟨q, hq, hf⟩ := List.mem_filterMap.mp hit
  have hq2 : q.2 ∈ s.cats.map RCat.name := by
    have hqex : q.2 ∈ catExF s gcats := by
      obtain ⟨j, a, ha, rfl⟩ := mapWithIndex_mem Prod.mk (catExF s gcats) 0 q hq
      exact ha
    exact (List.mem_filter.mp hqex).1
  obtain ⟨c, hc, h⟩ := catOrph_fun_elim s off q it hwfnm hq2 hf
  exact ⟨q, hq, c, hc, h⟩

theorem catOrph_intro (s : RemoteState) (gcats : List CatArgs) (off : Nat)
    (hwfnm : (s.cats.map RCat.name).Nodup) (j : Nat) (c : RCat)
    (hc : c ∈ s.cats)
    (hq : (j, c.name) ∈ mapWithIndex Prod.mk 0 (catExF s gcats))
    (hsk : c.sortKey ≠ off + j) :
    (c.id, { emptyCatArgs with sortKey := some (some (off + j)) }) ∈
      orphanCatUpdates (catCp s) off 0 (catExF s gcats) := by
  rw [orphanCatUpdates_spec]
  refine List.mem_filterMap.mpr ⟨(j, c.name), hq, ?_⟩
  show (if ((lookupEntry (catCp s) c.name).getD defaultRCat).sortKey ≠
        off + j then
      some (((lookupEntry (catCp s) c.name).getD defaultRCat).id,
        { emptyCatArgs with sortKey := some (some (off + j)) })
    else none) =
    some (c.id, { emptyCatArgs with sortKey := some (some (off + j)) })
  rw [catCp_lookup s hwfnm c hc]
  simp only [Option.getD_some]
  rw [if_pos (show (catDecode c).sortKey ≠ off + j from hsk)]
  rfl

/-- The PATCH items of the category phase carry pairwise-distinct ids. -/
theorem catItems_ids_nodup (s : RemoteState) (gcats : List CatArgs)
    (off : Nat) (hwfid : (s.cats.map RCat.id).Nodup)
    (hwfnm : (s.cats.map RCat.name).Nodup)
    (hnames : (gcats.map fun g => g.name.getD "").Nodup) :
    ((catItems s gcats off).map Prod.fst).Nodup := by
  have hcatinj : ∀ a ∈ s.cats, ∀ b ∈ s.cats, a.id = b.id → a = b :=
    fun a ha b hb h => List.inj_on_of_nodup_map hwfid ha hb h
  have hpinj : ∀ a ∈ mapWithIndex Prod.mk 0 gcats,
      ∀ b ∈ mapWithIndex Prod.mk 0 gcats,
      (a.2.name.getD "") = (b.2.name.getD "") → a = b := by
    have hnd : ((mapWithIndex Prod.mk 0 gcats).map
        (fun p => p.2.name.getD "")).Nodup := by
      rw [mapWithIndex_snd_names]
      exact hnames
    exact fun a ha b hb h => List.inj_on_of_nodup_map hnd ha hb h
  have hexFnd : (catExF s gcats).Nodup := hwfnm.filter _
  have hqinj : ∀ a ∈ mapWithIndex Prod.mk 0 (catExF s gcats),
      ∀ b ∈ mapWithIndex Prod.mk 0 (catExF s gcats), a.2 = b.2 → a = b := by
    have hnd : ((mapWithIndex Prod.mk 0 (catExF s gcats)).map
        Prod.snd).Nodup := by
      rw [mapWithIndex_snd]
      exact hexFnd
    exact fun a ha b hb h => List.inj_on_of_nodup_map hnd ha hb h
  unfold catItems
  rw [List.map_append, List.nodup_append]
  refine ⟨?_, ?_, ?_⟩
  · unfold catUcs
    rw [List.map_filterMap]
    refine filterMap_nodup _ _ (mapWithIndex_nodup gcats 0) ?_
    intro a ha b hb x hfa hfb
    obtain ⟨ita, hita, hxa⟩ := Option.map_eq_some'.mp hfa
    obtain ⟨itb, hitb, hxb⟩ := Option.map_eq_some'.mp hfb
    obtain ⟨ca, hca, hcaname, hcaid, _⟩ :=
      catUcs_fun_elim s gcats hwfnm a ita hita
    obtain ⟨cb, hcb, hcbname, hcbid, _⟩ :=
      catUcs_fun_elim s gcats hwfnm b itb hitb
    have hid : ca.id = cb.id := by
      rw [← hcaid, hxa, ← hxb, hcbid]
    have hcc : ca = cb := hcatinj ca hca cb hcb hid
    refine hpinj a ha b hb ?_
    rw [← hcaname, hcc, hcbname]
  · rw [orphanCatUpdates_spec, List.map_filterMap]
    refine filterMap_nodup _ _ (mapWithIndex_nodup (catExF s gcats) 0) ?_
    intro a ha b hb x hfa hfb
    obtain ⟨ita, hita, hxa⟩ := Option.map_eq_some'.mp hfa
    obtain ⟨itb, hitb, hxb⟩ := Option.map_eq_some'.mp hfb
    have ha2 : a.2 ∈ s.cats.map RCat.name := by
      have hin : a.2 ∈ catExF s gcats := by
        obtain ⟨j, n, hn, rfl⟩ :=
          mapWithIndex_mem Prod.mk (catExF s gcats) 0 a ha
        exact hn
      exact (List.mem_filter.mp hin).1
    have hb2 : b.2 ∈ s.cats.map RCat.name := by
      have hin : b.2 ∈ catExF s gcats := by
        obtain ⟨j, n, hn, rfl⟩ :=
          mapWithIndex_mem Prod.mk (catExF s gcats) 0 b hb
        exact hn
      exact (List.mem_filter.mp hin).1
    obtain ⟨ca, hca, hcaname, hcaid, _⟩ :=
      catOrph_fun_elim s off a ita hwfnm ha2 hita
    obtain ⟨cb, hcb, hcbname, hcbid, _⟩ :=
      catOrph_fun_elim s off b itb hwfnm hb2 hitb
    have hid : ca.id = cb.id := by
      rw [← hcaid, hxa, ← hxb, hcbid]
    have hcc : ca = cb := hcatinj ca hca cb hcb hid
    refine hqinj a ha b hb ?_
    rw [← hcaname, hcc, hcbname]
  · intro x hx1 hx2
    obtain ⟨ita, hita, hxa⟩ := List.mem_map.mp hx1
    obtain ⟨itb, hitb, hxb⟩ := List.mem_map.mp hx2
    obtain ⟨p, hp, ca, hca, hcaname, hcaid, _⟩ :=
      catUcs_elim s gcats hwfnm ita hita
    obtain ⟨q, hq, cb, hcb, hcbname, hcbid, _⟩ :=
      catOrph_elim s gcats off hwfnm itb hitb
    have hid : ca.id = cb.id := by
      rw [← hcaid, hxa, ← hxb, hcbid]
    have hcc : ca = cb := hcatinj ca hca cb hcb hid
    have hdes : cb.name ∈ gcats.map fun g => g.name.getD "" := by
      rw [← hcc, hcaname]
      obtain ⟨j, g, hg, rfl⟩ := mapWithIndex_mem Prod.mk gcats 0 p hp
      exact List.mem_map_of_mem _ hg
    have hnot : cb.name ∉ gcats.map fun g => g.name.getD "" := by
      rw [hcbname]
      have hqex : q.2 ∈ catExF s gcats := by
        obtain ⟨j, n, hn, rfl⟩ :=
          mapWithIndex_mem Prod.mk (catExF s gcats) 0 q hq
        exact hn
      have hcond := (List.mem_filter.mp hqex).2
      simpa using hcond
    exact hnot hdes

/-- The state change of a successful `RubricCategory.createAll`. -/
theorem catCreateAll_ok_state (s : RemoteState) (d : List CatArgs)
    (r : List RCat) (s2 : RemoteState)
    (h : (RubricCategory.createAll s d).2 = .ok (r, s2)) :
    ∃ checked, d.mapM (RubricCategory.checkArgs false true) = .ok checked ∧
      checked = d.map flipCat ∧
      s2.cats = s.cats ++
        mapWithIndex (fun j p => serverNewCat (s.nextId + j) p) 0 checked ∧
      s2.coms = s.coms ∧ s2.subs = s.subs ∧
      s2.nextId = s.nextId + checked.length := by
  unfold RubricCategory.createAll at h
  cases hm : d.mapM (RubricCategory.checkArgs false true) with
  | error e =>
    rw [hm] at h
    exact Except.noConfusion h
  | ok checked =>
    rw [hm] at h
    simp only at h
    have hchk : checked = d.map flipCat := by
      refine forall₂_eq_map flipCat ?_
      refine (mapM_ok_forall₂ _ d checked hm).imp ?_
      intro a b hab
      exact ((catCheckArgs_creating_iff a b).mp hab).2.2.2.2
    by_cases he : checked.isEmpty
    · rw [if_pos he] at h
      have h2 := Except.ok.inj h
      have hs : s = s2 := congrArg Prod.snd h2
      have hnil : checked = [] := by
        cases hx : checked with
        | nil => rfl
        | cons y ys => rw [hx] at he; simp at he
      subst hnil
      refine ⟨[], rfl, hchk, ?_, ?_, ?_, ?_⟩
      · rw [← hs]
        simp [mapWithIndex]
      · rw [← hs]
      · rw [← hs]
      · rw [← hs]
        simp
    · rw [if_neg he] at h
      have h2 : serverCreateCats s checked = (r, s2) := Except.ok.inj h
      rw [serverCreateCats_spec] at h2
      have hs := congrArg Prod.snd h2
      simp only at hs
      exact ⟨checked, rfl, hchk, (congrArg RemoteState.cats hs).symm,
        (congrArg RemoteState.coms hs).symm,
        (congrArg RemoteState.subs hs).symm,
        (congrArg RemoteState.nextId hs).symm⟩

/-- The state change of a successful `RubricCategory.updateAll` with
distinct item ids: each stored category is rewritten by its item, if any
(the `data` objects go through update-mode `checkArgs`, which flips
`pointLimit`). -/
theorem catUpdateAll_ok_state (s : RemoteState) (d : List (Nat × CatArgs))
    (r : List RCat) (s2 : RemoteState) (hnd : ((d.map Prod.fst).Nodup))
    (h : (RubricCategory.updateAll s d).2 = .ok (r, s2)) :
    s2.cats = s.cats.map
        (patchCatFn (d.map fun it => (it.1, flipCat it.2))) ∧
      s2.coms = s.coms ∧ s2.subs = s.subs ∧ s2.nextId = s.nextId := by
  unfold RubricCategory.updateAll at h
  cases hm : d.mapM
      (fun it => (RubricCategory.checkArgs true false it.2).map
        ((it.1, ·))) with
  | error e =>
    rw [hm] at h
    exact Except.noConfusion h
  | ok checked =>
    rw [hm] at h
    simp only at h
    have hchk : checked = d.map fun it => (it.1, flipCat it.2) := by
      refine forall₂_eq_map _ ?_
      refine (mapM_ok_forall₂ _ d checked hm).imp ?_
      intro a b hab
      cases hc : RubricCategory.checkArgs true false a.2 with
      | error e =>
        rw [hc] at hab
        exact Except.noConfusion hab
      | ok out =>
        rw [hc] at hab
        have hb : (a.1, out) = b := Except.ok.inj hab
        rw [← hb, ((catCheckArgs_updating_iff a.2 out).mp hc).2.2]
    by_cases he : checked.isEmpty
    · rw [if_pos he] at h
      have h2 := Except.ok.inj h
      have hs : s = s2 := congrArg Prod.snd h2
      have hnil : checked = [] := by
        cases hx : checked with
        | nil => rfl
        | cons y ys => rw [hx] at he; simp at he
      have hdnil : d = [] := by
        rw [hnil] at hchk
        exact List.map_eq_nil_iff.mp hchk.symm
      subst hdnil
      refine ⟨?_, ?_, ?_, ?_⟩ <;> rw [← hs]
      symm
      have hone : ∀ c : RCat, patchCatFn (([] : List (Nat × CatArgs)).map
          (fun it => (it.1, flipCat it.2))) c = c := fun c => rfl
      rw [List.map_congr_left fun c _ => hone c]
      exact List.map_id s.cats
    · rw [if_neg he] at h
      have h2 : serverPatchCats s checked = .ok (r, s2) := h
      have hnd2 : (checked.map Prod.fst).Nodup := by
        rw [hchk, List.map_map,
          show (Prod.fst ∘ fun it : Nat × CatArgs =>
            (it.1, flipCat it.2)) = Prod.fst from rfl]
        exact hnd
      have hs := serverPatchCats_ok s checked hnd2 r s2 h2
      rw [hchk] at hs
      have hbr : (s.cats.map fun c =>
          match (d.map fun it => (it.1, flipCat it.2)).find?
              (fun it => it.1 == c.id) with
            | some it => applyCatUpdate it.2 c
            | none => c) =
          s.cats.map (patchCatFn (d.map fun it => (it.1, flipCat it.2))) := by
        refine List.map_congr_left fun c _ => ?_
        unfold patchCatFn
        cases hfc : (d.map fun it => (it.1, flipCat it.2)).find?
            (fun it => it.1 == c.id) with
        | none => rfl
        | some v => rfl
      refine ⟨?_, ?_, ?_, ?_⟩ <;> rw [hs]
      exact hbr

/-- A successful `Except.map` came from a successful computation. -/
theorem except_map_ok {α β γ : Type} (f : β → γ) (x : Except α β) (c : γ)
    (h : Except.map f x = .ok c) : ∃ b, x = .ok b ∧ c = f b := by
  cases x with
  | error e =>
    simp only [Except.map] at h
    exact Except.noConfusion h
  | ok b =>
    simp only [Except.map] at h
    exact ⟨b, rfl, (Except.ok.inj h).symm⟩

/-- Every id in the extra-category DELETE batch is the id of a stored
category whose name is left over after the desired-category loop. -/
theorem catDelIds_elim (s : RemoteState) (gcats : List CatArgs)
    (hwfnm : (s.cats.map RCat.name).Nodup) :
    ∀ x ∈ (catExF s gcats).map (fun n =>
        ((lookupEntry (catCp s) n).getD defaultRCat).id),
      ∃ c ∈ s.cats, c.name ∈ catExF s gcats ∧ x = c.id := by
  intro x hx
  obtain ⟨n, hn, rfl⟩ := List.mem_map.mp hx
  have hn2 : n ∈ s.cats.map RCat.name := (List.mem_filter.mp hn).1
  obtain ⟨c, hc, hcname⟩ := List.mem_map.mp hn2
  refine ⟨c, hc, ?_, ?_⟩
  · rw [hcname]
    exact hn
  · rw [← hcname, catCp_lookup s hwfnm c hc]
    rfl

/-- The state change of a successful `RubricCategory.deleteAll`. -/
theorem catDeleteAll_ok_state (s : RemoteState) (ids : List Nat)
    (s2 : RemoteState) (h : (RubricCategory.deleteAll s ids).2 = .ok s2) :
    s2.cats = s.cats.filter (fun c => !(ids.contains c.id)) ∧
      s2.nextId = s.nextId ∧ s2.subs = s.subs := by
  unfold RubricCategory.deleteAll at h
  by_cases he : ids.isEmpty
  · rw [if_pos he] at h
    have h2 : s = s2 := Except.ok.inj h
    have hnil : ids = [] := by
      cases hx : ids with
      | nil => rfl
      | cons a as => rw [hx] at he; simp at he
    subst hnil
    have h5 : s.cats.filter (fun c => !(([] : List Nat).contains c.id)) =
        s.cats := List.filter_eq_self.mpr fun a _ => rfl
    refine ⟨?_, ?_, ?_⟩ <;> rw [← h2]
    rw [h5]
  · rw [if_neg he] at h
    have h2 : serverDeleteCats s ids = .ok s2 := h
    unfold serverDeleteCats at h2
    split at h2
    · have h3 := Except.ok.inj h2
      exact ⟨(congrArg RemoteState.cats h3).symm,
        (congrArg RemoteState.nextId h3).symm,
        (congrArg RemoteState.subs h3).symm⟩
    · exact Except.noConfusion h2

theorem comDeleteAll_frameP (s : RemoteState) (ids : List Nat)
    (s2 : RemoteState) (h : (RubricComment.deleteAll s ids).2 = .ok s2) :
    s2.cats = s.cats ∧ s2.subs = s.subs :=
  comDeleteAll_frame s ids (RubricComment.deleteAll s ids).1 s2
    (by rw [← h])

theorem comCreateAll_frameP (s : RemoteState) (d : List ComArgs)
    (r : List RCom) (s2 : RemoteState)
    (h : (RubricComment.createAll s d).2 = .ok (r, s2)) :
    s2.cats = s.cats ∧ s2.subs = s.subs :=
  comCreateAll_frame s d (RubricComment.createAll s d).1 r s2 (by rw [← h])

theorem comUpdateAll_frameP (s : RemoteState) (d : List (Nat × ComArgs))
    (r : List RCom) (s2 : RemoteState)
    (h : (RubricComment.updateAll s d).2 = .ok (r, s2)) :
    s2.cats = s.cats ∧ s2.subs = s.subs :=
  comUpdateAll_frame s d (RubricComment.updateAll s d).1 r s2 (by rw [← h])

/-- The category phase of a successful incremental run with
`deleteExtra = false`, in closed form: the final categories are the initial
ones plus the fresh creations, each rewritten by the single PATCH item (if
any) that carries its id. -/
theorem incremental_cats_state (aid off : Nat) (gcats : List CatArgs)
    (gcoms : List (String × List ComArgs)) (s s6 : RemoteState)
    (log : List NetCall) (hwf : WF s)
    (hnames : (gcats.map fun g => g.name.getD "").Nodup)
    (hrun : importRubricIncremental aid off gcats gcoms false s =
      (log, .ok s6)) :
    s6.cats = (s.cats ++ catNewRecs s gcats aid).map
      (patchCatFn ((catItems s gcats off).map fun it =>
        (it.1, flipCat it.2))) := by
  have hinc := congrArg Prod.snd hrun
  simp only at hinc
  unfold importRubricIncremental at hinc
  simp only at hinc
  split at hinc
  · simp at hinc
  · rename_i createdCats s1 heqC
    split at hinc
    · simp at hinc
    · rename_i dlog s2 uc1 heqE
      split at hinc
      · simp at hinc
      · rename_i updatedCats s3 hequ
        split at hinc
        · simp at hinc
        · rename_i r4 s4 heqM
          split at hinc
          · simp at hinc
          · rename_i dlog2 s5 uc2 heqEC
            split at hinc
            · simp at hinc
            · rename_i r6 s6x hequ2
              have hfetch : RubricCategory.getByIds s (rubricCategories s) =
                  s.cats.map catDecode := getByIds_cats_all hwf.1
              rw [hfetch] at heqC heqE
              have hkeys2 : (List.map (fun c => (c.name, c))
                  (s.cats.map catDecode)).map Prod.fst =
                  s.cats.map RCat.name := by
                rw [List.map_map, List.map_map]
                exact List.map_congr_left fun c _ => rfl
              have hcpe : fromEntries (List.map (fun c => (c.name, c))
                  (s.cats.map catDecode)) = catCp s := by
                rw [fromEntries_nodup _ (by rw [hkeys2]; exact hwf.2.1)]
                rfl
              rw [hcpe] at heqC heqE
              rw [reconCats_closed s aid gcats hwf.2.1 hnames] at heqC heqE
              simp only at heqC heqE
              obtain ⟨checked, hmapM, hchk, hs1cats, hs1coms, hs1subs,
                hs1next⟩ := catCreateAll_ok_state s (catCcs s gcats aid)
                  createdCats s1 heqC
              have hext : s2 = s1 ∧ uc1 = catItems s gcats off := by
                simp only [Bool.false_eq_true, if_false] at heqE
                split at heqE
                · rename_i hemp
                  have h2 := Except.ok.inj (congrArg Prod.snd heqE)
                  have hnil : catExF s gcats = [] := by
                    cases hx : catExF s gcats with
                    | nil => rfl
                    | cons a as => rw [hx] at hemp; simp at hemp
                  refine ⟨(congrArg Prod.fst h2).symm, ?_⟩
                  show uc1 = catUcs s gcats ++
                    orphanCatUpdates (catCp s) off 0 (catExF s gcats)
                  rw [hnil,
                    show orphanCatUpdates (catCp s) off 0 [] = [] from rfl,
                    List.append_nil]
                  exact (congrArg Prod.snd h2).symm
                · have h2 := Except.ok.inj (congrArg Prod.snd heqE)
                  exact ⟨(congrArg Prod.fst h2).symm,
                    (congrArg Prod.snd h2).symm⟩
              obtain ⟨hs2eq, huc1⟩ := hext
              rw [hs2eq, huc1] at hequ
              have hidnd := catItems_ids_nodup s gcats off hwf.1 hwf.2.1
                hnames
              obtain ⟨hs3cats, hs3coms, hs3subs, hs3next⟩ :=
                catUpdateAll_ok_state s1 (catItems s gcats off) updatedCats
                  s3 hidnd hequ
              have hf4 := comCreateAll_frameP s3 _ r4 s4 heqM
              have hs5eq : s5 = s4 := by
                simp only [Bool.false_eq_true, if_false] at heqEC
                split at heqEC <;>
                exact (congrArg Prod.fst (Except.ok.inj
                  (congrArg Prod.snd heqEC))).symm
              have hf6 := comUpdateAll_frameP s5 uc2 r6 s6x hequ2
              have hs6eq : s6 = s6x := by
                have h2 : (Except.ok s6x : Except String RemoteState) =
                    .ok s6 := hinc
                exact (Except.ok.inj h2).symm
              rw [hs6eq, hf6.1, hs5eq, hf4.1, hs3cats, hs1cats, hchk]
              rfl

/-- The stored categories together with the fresh creations still carry
pairwise-distinct names. -/
theorem catBase_names_nodup (s : RemoteState) (gcats : List CatArgs)
    (aid : Nat) (hwfnm : (s.cats.map RCat.name).Nodup)
    (hnames : (gcats.map fun g => g.name.getD "").Nodup) :
    ((s.cats ++ catNewRecs s gcats aid).map RCat.name).Nodup := by
  rw [List.map_append, List.nodup_append]
  have hlist : (catNewRecs s gcats aid).map RCat.name =
      ((mapWithIndex Prod.mk 0 gcats).filter fun p =>
        !((s.cats.map RCat.name).contains (p.2.name.getD ""))).map
        (fun p => p.2.name.getD "") := by
    unfold catNewRecs
    rw [map_mapWithIndex,
      mapWithIndex_congr
        (f := fun j (a : CatArgs) => (serverNewCat (s.nextId + j) a).name)
        (g := fun _ (a : CatArgs) => a.name.getD "")
        (fun j a => rfl) 0 _,
      mapWithIndex_constfun (fun p : CatArgs => p.name.getD "") _ 0]
    unfold catCcs
    rw [List.map_map, List.map_map]
    exact List.map_congr_left fun p _ => rfl
  refine ⟨hwfnm, ?_, ?_⟩
  · rw [hlist]
    refine List.Nodup.sublist ((List.filter_sublist _).map _) ?_
    rw [mapWithIndex_snd_names]
    exact hnames
  · intro nm h1 h2
    rw [hlist] at h2
    obtain ⟨p, hpf, rfl⟩ := List.mem_map.mp h2
    have hcond := (List.mem_filter.mp hpf).2
    have hnot2 : p.2.name.getD "" ∉ s.cats.map RCat.name := by
      simpa using hcond
    exact hnot2 h1

/-- The category phase of a successful incremental run with
`deleteExtra = true`, in closed form: the final categories are the initial
ones plus the fresh creations, minus the leftover-named ones (whose ids are
DELETEd in one batch), each survivor rewritten by the single PATCH item (if
any) that carries its id. -/
theorem incremental_cats_state_dx (aid off : Nat) (gcats : List CatArgs)
    (gcoms : List (String × List ComArgs)) (s s6 : RemoteState)
    (log : List NetCall) (hwf : WF s)
    (hnames : (gcats.map fun g => g.name.getD "").Nodup)
    (hrun : importRubricIncremental aid off gcats gcoms true s =
      (log, .ok s6)) :
    s6.cats = ((s.cats ++ catNewRecs s gcats aid).filter
        (fun c => !(((catExF s gcats).map fun n =>
          ((lookupEntry (catCp s) n).getD defaultRCat).id).contains
          c.id))).map
      (patchCatFn ((catUcs s gcats).map fun it =>
        (it.1, flipCat it.2))) := by
  have hinc := congrArg Prod.snd hrun
  simp only at hinc
  unfold importRubricIncremental at hinc
  simp only at hinc
  split at hinc
  · simp at hinc
  · rename_i createdCats s1 heqC
    split at hinc
    · simp at hinc
    · rename_i dlog s2 uc1 heqE
      split at hinc
      · simp at hinc
      · rename_i updatedCats s3 hequ
        split at hinc
        · simp at hinc
        · rename_i r4 s4 heqM
          split at hinc
          · simp at hinc
          · rename_i dlog2 s5 uc2 heqEC
            split at hinc
            · simp at hinc
            · rename_i r6 s6x hequ2
              have hfetch : RubricCategory.getByIds s (rubricCategories s) =
                  s.cats.map catDecode := getByIds_cats_all hwf.1
              rw [hfetch] at heqC heqE
              have hkeys2 : (List.map (fun c => (c.name, c))
                  (s.cats.map catDecode)).map Prod.fst =
                  s.cats.map RCat.name := by
                rw [List.map_map, List.map_map]
                exact List.map_congr_left fun c _ => rfl
              have hcpe : fromEntries (List.map (fun c => (c.name, c))
                  (s.cats.map catDecode)) = catCp s := by
                rw [fromEntries_nodup _ (by rw [hkeys2]; exact hwf.2.1)]
                rfl
              rw [hcpe] at heqC heqE
              rw [reconCats_closed s aid gcats hwf.2.1 hnames] at heqC heqE
              simp only at heqC heqE
              obtain ⟨checked, hmapM, hchk, hs1cats, hs1coms, hs1subs,
                hs1next⟩ := catCreateAll_ok_state s (catCcs s gcats aid)
                  createdCats s1 heqC
              have hext : s2.cats = ((s.cats ++ mapWithIndex
                    (fun j p => serverNewCat (s.nextId + j) p) 0
                    checked).filter
                    (fun c => !(((catExF s gcats).map fun n =>
                      ((lookupEntry (catCp s) n).getD
                        defaultRCat).id).contains c.id))) ∧
                  uc1 = catUcs s gcats := by
                split at heqE
                · rename_i hemp
                  have h2 := Except.ok.inj (congrArg Prod.snd heqE)
                  have hnil : catExF s gcats = [] := by
                    cases hx : catExF s gcats with
                    | nil => rfl
                    | cons a as => rw [hx] at hemp; simp at hemp
                  refine ⟨?_, (congrArg Prod.snd h2).symm⟩
                  have hs2 : s2 = s1 := (congrArg Prod.fst h2).symm
                  have h5 : ∀ l : List RCat, l.filter (fun c =>
                      !((([] : List String).map fun n =>
                        ((lookupEntry (catCp s) n).getD
                          defaultRCat).id).contains c.id)) = l :=
                    fun l => List.filter_eq_self.mpr fun a _ => rfl
                  rw [hs2, hnil, h5, hs1cats]
                · have hsnd := congrArg Prod.snd heqE
                  simp only at hsnd
                  obtain ⟨sdel, hXdel, hc⟩ := except_map_ok _ _ _ hsnd
                  obtain ⟨hdcats, hdnext, hdsubs⟩ :=
                    catDeleteAll_ok_state s1 _ sdel hXdel
                  have hs2 : s2 = sdel := congrArg Prod.fst hc
                  refine ⟨?_, congrArg Prod.snd hc⟩
                  rw [hs2, hdcats, hs1cats]
              obtain ⟨hs2cats, huc1⟩ := hext
              rw [huc1] at hequ
              have hndu : ((catUcs s gcats).map Prod.fst).Nodup := by
                have h2 := catItems_ids_nodup s gcats 0 hwf.1 hwf.2.1 hnames
                unfold catItems at h2
                rw [List.map_append, List.nodup_append] at h2
                exact h2.1
              obtain ⟨hs3cats, hs3coms, hs3subs, hs3next⟩ :=
                catUpdateAll_ok_state s2 (catUcs s gcats) updatedCats s3
                  hndu hequ
              have hf4 := comCreateAll_frameP s3 _ r4 s4 heqM
              have hs5cats : s5.cats = s4.cats := by
                split at heqEC
                · have h2 := Except.ok.inj (congrArg Prod.snd heqEC)
                  have h4 : s4 = s5 := congrArg Prod.fst h2
                  rw [← h4]
                · have hsnd2 := congrArg Prod.snd heqEC
                  simp only at hsnd2
                  obtain ⟨sdel2, hXdel2, hc2⟩ := except_map_ok _ _ _ hsnd2
                  obtain ⟨hbcats, hbsubs⟩ :=
                    comDeleteAll_frameP s4 _ sdel2 hXdel2
                  have h5 : s5 = sdel2 := congrArg Prod.fst hc2
                  rw [h5, hbcats]
              have hf6 := comUpdateAll_frameP s5 uc2 r6 s6x hequ2
              have hs6eq : s6 = s6x := by
                have h2 : (Except.ok s6x : Except String RemoteState) =
                    .ok s6 := hinc
                exact (Except.ok.inj h2).symm
              rw [hs6eq, hf6.1, hs5cats, hf4.1, hs3cats, hs2cats, hchk]
              rfl

/-- The category phase of a successful incremental run with
`deleteExtra = false`: every desired category ends with its input index as
sort key, every other stored category ends at the offset plus its position
in the leftover list, and the stored names stay unique. -/
theorem incremental_cats_spec (aid off : Nat) (gcats : List CatArgs)
    (gcoms : List (String × List ComArgs)) (s s6 : RemoteState)
    (log : List NetCall) (hwf : WF s)
    (hnames : (gcats.map fun g => g.name.getD "").Nodup)
    (hrun : importRubricIncremental aid off gcats gcoms false s =
      (log, .ok s6)) :
    (s6.cats.map RCat.name).Nodup ∧
    (∀ i, ∀ hi : i < gcats.length, ∃ c ∈ s6.cats,
      c.name = gcats[i].name.getD "" ∧ c.sortKey = i) ∧
    (∀ c ∈ s6.cats, c.name ∉ gcats.map (fun g => g.name.getD "") →
      ∃ j, (j, c.name) ∈ mapWithIndex Prod.mk 0 (catExF s gcats) ∧
        c.sortKey = off + j) := by
  have hstate := incremental_cats_state aid off gcats gcoms s s6 log hwf
    hnames hrun
  set items := (catItems s gcats off).map (fun it => (it.1, flipCat it.2))
    with hdefitems
  have hcatinj : ∀ a ∈ s.cats, ∀ b ∈ s.cats, a.id = b.id → a = b :=
    fun a ha b hb h => List.inj_on_of_nodup_map hwf.1 ha hb h
  have hpinj : ∀ a ∈ mapWithIndex Prod.mk 0 gcats,
      ∀ b ∈ mapWithIndex Prod.mk 0 gcats,
      (a.2.name.getD "") = (b.2.name.getD "") → a = b := by
    have hnd : ((mapWithIndex Prod.mk 0 gcats).map
        (fun p => p.2.name.getD "")).Nodup := by
      rw [mapWithIndex_snd_names]
      exact hnames
    exact fun a ha b hb h => List.inj_on_of_nodup_map hnd ha hb h
  have hqinj : ∀ a ∈ mapWithIndex Prod.mk 0 (catExF s gcats),
      ∀ b ∈ mapWithIndex Prod.mk 0 (catExF s gcats), a.2 = b.2 → a = b := by
    have hnd : ((mapWithIndex Prod.mk 0 (catExF s gcats)).map
        Prod.snd).Nodup := by
      rw [mapWithIndex_snd]
      exact hwf.2.1.filter _
    exact fun a ha b hb h => List.inj_on_of_nodup_map hnd ha hb h
  have hidnd : (items.map Prod.fst).Nodup := by
    rw [hdefitems, List.map_map,
      show (Prod.fst ∘ fun it : Nat × CatArgs =>
        (it.1, flipCat it.2)) = Prod.fst from rfl]
    exact catItems_ids_nodup s gcats off hwf.1 hwf.2.1 hnames
  have howner : ∀ it ∈ catItems s gcats off, ∃ c ∈ s.cats, it.1 = c.id ∧
      ((∃ p ∈ mapWithIndex Prod.mk 0 gcats, c.name = p.2.name.getD "" ∧
          catDiff p.2 (catDecode c) p.1 = some it.2) ∨
        (∃ q ∈ mapWithIndex Prod.mk 0 (catExF s gcats), c.name = q.2 ∧
          c.sortKey ≠ off + q.1 ∧
          it.2 = { emptyCatArgs with
            sortKey := some (some (off + q.1)) })) := by
    intro it hit
    rcases List.mem_append.mp hit with h | h
    · obtain ⟨p, hp, c, hc, h1, h2, h3⟩ := catUcs_elim s gcats hwf.2.1 it h
      exact ⟨c, hc, h2, Or.inl ⟨p, hp, h1, h3⟩⟩
    · obtain ⟨q, hq, c, hc, h1, h2, h3, h4⟩ :=
        catOrph_elim s gcats off hwf.2.1 it h
      exact ⟨c, hc, h2, Or.inr ⟨q, hq, h1, h3, h4⟩⟩
  have hitname : ∀ it ∈ items, it.2.name = none := by
    intro it hit
    rw [hdefitems] at hit
    obtain ⟨a, ha, rfl⟩ := List.mem_map.mp hit
    show (flipCat a.2).name = none
    obtain ⟨c, hc, _, hcase⟩ := howner a ha
    rcases hcase with ⟨p, hp, _, hdiff⟩ | ⟨q, hq, _, _, hdat⟩
    · exact (catDiff_frame p.2 (catDecode c) p.1 a.2 hdiff).1
    · rw [hdat]
      rfl
  have hpatch_name : ∀ x : RCat, (patchCatFn items x).name = x.name := by
    intro x
    unfold patchCatFn
    cases hf : items.find? (fun it => it.1 == x.id) with
    | none => rfl
    | some it =>
      have h1 := hitname it (List.mem_of_find?_eq_some hf)
      show it.2.name.getD x.name = x.name
      rw [h1]
      rfl
  have hpatch_keep : ∀ x : RCat,
      items.find? (fun it => it.1 == x.id) = none →
      patchCatFn items x = x := by
    intro x hf
    unfold patchCatFn
    rw [hf]
    rfl
  have hpatch_hit : ∀ (x : RCat) (it : Nat × CatArgs),
      items.find? (fun it => it.1 == x.id) = some it →
      patchCatFn items x = applyCatUpdate it.2 x := by
    intro x it hf
    unfold patchCatFn
    rw [hf]
    rfl
  have happly_sk : ∀ (d2 : CatArgs) (x : RCat) (k : Nat),
      d2.sortKey = some (some k) → (applyCatUpdate d2 x).sortKey = k := by
    intro d2 x k h
    simp only [applyCatUpdate]
    rw [h]
  have happly_sk_none : ∀ (d2 : CatArgs) (x : RCat),
      d2.sortKey = none → (applyCatUpdate d2 x).sortKey = x.sortKey := by
    intro d2 x h
    simp only [applyCatUpdate]
    rw [h]
  refine ⟨?_, ?_, ?_⟩
  · -- the stored names stay unique
    have hnames6 : (s6.cats.map RCat.name) =
        (s.cats ++ catNewRecs s gcats aid).map RCat.name := by
      rw [hstate, List.map_map]
      exact List.map_congr_left fun x _ => hpatch_name x
    rw [hnames6]
    exact catBase_names_nodup s gcats aid hwf.2.1 hnames
  · -- every desired category lands at its index
    intro i hi
    have hp : (i, gcats[i]) ∈ mapWithIndex Prod.mk 0 gcats :=
      mapWithIndex_getElem_mem gcats i hi
    by_cases hni : gcats[i].name.getD "" ∈ s.cats.map RCat.name
    · obtain ⟨c, hc, hcname⟩ := List.mem_map.mp hni
      cases hd : catDiff gcats[i] (catDecode c) i with
      | none =>
        have hnone : items.find? (fun it => it.1 == c.id) = none := by
          rw [List.find?_eq_none]
          intro it hit
          rw [hdefitems] at hit
          obtain ⟨a, ha, rfl⟩ := List.mem_map.mp hit
          simp only [beq_iff_eq]
          intro heq
          obtain ⟨c2, hc2, hid, hcase⟩ := howner a ha
          have hcc : c2 = c := hcatinj c2 hc2 c hc (hid.symm.trans heq)
          rcases hcase with ⟨p2, hp2, hnm2, hdiff2⟩ | ⟨q, hq, hnm2, _, _⟩
          · have hpe : p2 = (i, gcats[i]) := by
              refine hpinj p2 hp2 (i, gcats[i]) hp ?_
              rw [← hnm2, hcc, hcname]
            rw [hpe, hcc] at hdiff2
            exact Option.noConfusion (hd.symm.trans hdiff2)
          · have hqex : q.2 ∈ catExF s gcats := by
              obtain ⟨j, n, hn, rfl⟩ :=
                mapWithIndex_mem Prod.mk (catExF s gcats) 0 q hq
              exact hn
            have hnotdes : q.2 ∉ gcats.map fun g => g.name.getD "" := by
              have hcond := (List.mem_filter.mp hqex).2
              simpa using hcond
            refine hnotdes ?_
            rw [← hnm2, hcc, hcname]
            exact List.mem_map_of_mem _ (List.getElem_mem hi)
        refine ⟨c, ?_, hcname, ?_⟩
        · rw [hstate]
          exact List.mem_map.mpr ⟨c, List.mem_append_left _ hc,
            hpatch_keep c hnone⟩
        · exact catDiff_none_sortKey gcats[i] (catDecode c) i hd
      | some d =>
        have hmemu : (c.id, d) ∈ catUcs s gcats :=
          catUcs_intro s gcats hwf.2.1 (i, gcats[i]) hp c hc hcname d hd
        have hmemi : (c.id, flipCat d) ∈ items := by
          rw [hdefitems]
          refine List.mem_map.mpr ⟨(c.id, d), ?_, rfl⟩
          exact List.mem_append_left _ hmemu
        have hfind := find?_fst_self c.id (flipCat d) items hidnd hmemi
        refine ⟨patchCatFn items c, ?_, ?_, ?_⟩
        · rw [hstate]
          exact List.mem_map_of_mem _ (List.mem_append_left _ hc)
        · rw [hpatch_name c]
          exact hcname
        · rw [hpatch_hit c (c.id, flipCat d) hfind]
          by_cases hsk : c.sortKey = i
          · have hknone := catDiff_sortKey_keep gcats[i] (catDecode c) i
              hsk d hd
            exact (happly_sk_none (flipCat d) c hknone).trans hsk
          · obtain ⟨d2, hd2, hd2sk⟩ := catDiff_sortKey_fires gcats[i]
              (catDecode c) i hsk
            have hdd : d2 = d := Option.some.inj (hd2.symm.trans hd)
            refine happly_sk (flipCat d) c i ?_
            rw [← hdd]
            exact hd2sk
    · have hpfil : (i, gcats[i]) ∈ (mapWithIndex Prod.mk 0 gcats).filter
          (fun p =>
            !((s.cats.map RCat.name).contains (p.2.name.getD ""))) := by
        refine List.mem_filter.mpr ⟨hp, ?_⟩
        simpa using hni
      have hpay : ({ gcats[i] with
          assignment := some aid,
          sortKey := some (some i) } : CatArgs) ∈ catCcs s gcats aid := by
        unfold catCcs
        exact List.mem_map_of_mem _ hpfil
      have hflip : flipCat { gcats[i] with
          assignment := some aid,
          sortKey := some (some i) } ∈ (catCcs s gcats aid).map flipCat :=
        List.mem_map_of_mem _ hpay
      obtain ⟨j, hj⟩ := mem_mapWithIndex_image
        (fun j p => serverNewCat (s.nextId + j) p) _
        ((catCcs s gcats aid).map flipCat) 0 hflip
      have hjm : serverNewCat (s.nextId + j)
          (flipCat { gcats[i] with
            assignment := some aid,
            sortKey := some (some i) }) ∈ catNewRecs s gcats aid := hj
      have hnone : items.find? (fun it => it.1 ==
          (serverNewCat (s.nextId + j) (flipCat { gcats[i] with
            assignment := some aid,
            sortKey := some (some i) })).id) =
          none := by
        rw [List.find?_eq_none]
        intro it hit
        rw [hdefitems] at hit
        obtain ⟨a, ha, rfl⟩ := List.mem_map.mp hit
        simp only [beq_iff_eq]
        intro heq
        obtain ⟨c2, hc2, hid, _⟩ := howner a ha
        have hlt := hwf.2.2.2.2.1 c2 hc2
        have he2 : c2.id = s.nextId + j := by
          rw [← hid]
          exact heq
        omega
      refine ⟨serverNewCat (s.nextId + j) (flipCat { gcats[i] with
          assignment := some aid,
          sortKey := some (some i) }), ?_, ?_, ?_⟩
      · rw [hstate]
        exact List.mem_map.mpr ⟨_, List.mem_append_right _ hjm,
          hpatch_keep _ hnone⟩
      · rfl
      · rfl
  · -- every other stored category lands at or beyond the offset
    intro c0 hc6 hnot
    rw [hstate] at hc6
    obtain ⟨x, hx, rfl⟩ := List.mem_map.mp hc6
    rw [hpatch_name x] at hnot
    rcases List.mem_append.mp hx with hxs | hxn
    · have hxname : x.name ∈ catExF s gcats := by
        refine List.mem_filter.mpr ⟨List.mem_map_of_mem RCat.name hxs, ?_⟩
        simpa using hnot
      obtain ⟨j, hj⟩ := mem_mapWithIndex_image Prod.mk x.name
        (catExF s gcats) 0 hxname
      by_cases hsk : x.sortKey = off + j
      · have hnone : items.find? (fun it => it.1 == x.id) = none := by
          rw [List.find?_eq_none]
          intro it hit
          rw [hdefitems] at hit
          obtain ⟨a, ha, rfl⟩ := List.mem_map.mp hit
          simp only [beq_iff_eq]
          intro heq
          obtain ⟨c2, hc2, hid, hcase⟩ := howner a ha
          have hcc : c2 = x := hcatinj c2 hc2 x hxs (hid.symm.trans heq)
          rcases hcase with ⟨p2, hp2, hnm2, _⟩ | ⟨q, hq, hnm2, hsk2, _⟩
          · refine hnot ?_
            have hxn2 : x.name = p2.2.name.getD "" := by
              rw [← hcc]
              exact hnm2
            rw [hxn2]
            obtain ⟨j2, g, hg, rfl⟩ := mapWithIndex_mem Prod.mk gcats 0 p2 hp2
            exact List.mem_map_of_mem _ hg
          · have hqeq : q = (j, x.name) := by
              refine hqinj q hq (j, x.name) hj ?_
              rw [← hnm2, hcc]
            rw [hqeq, hcc] at hsk2
            exact hsk2 hsk
        rw [hpatch_keep x hnone]
        exact ⟨j, hj, hsk⟩
      · have horman := catOrph_intro s gcats off hwf.2.1 j x hxs hj hsk
        have hmemi : (x.id, flipCat { emptyCatArgs with
            sortKey := some (some (off + j)) }) ∈ items := by
          rw [hdefitems]
          refine List.mem_map.mpr ⟨(x.id, { emptyCatArgs with
            sortKey := some (some (off + j)) }), ?_, rfl⟩
          exact List.mem_append_right _ horman
        have hfind := find?_fst_self x.id _ items hidnd hmemi
        refine ⟨j, ?_, ?_⟩
        · rw [hpatch_name x]
          exact hj
        · rw [hpatch_hit x _ hfind]
          exact happly_sk ((x.id, flipCat { emptyCatArgs with
            sortKey := some (some (off + j)) }) : Nat × CatArgs).2 x
            (off + j) rfl
    · unfold catNewRecs at hxn
      obtain ⟨j, a, ha, rfl⟩ := mapWithIndex_mem
        (fun j p => serverNewCat (s.nextId + j) p)
        ((catCcs s gcats aid).map flipCat) 0 x hxn
      obtain ⟨b, hb, rfl⟩ := List.mem_map.mp ha
      unfold catCcs at hb
      obtain ⟨p, hpf, rfl⟩ := List.mem_map.mp hb
      have hpm : p ∈ mapWithIndex Prod.mk 0 gcats :=
        (List.mem_filter.mp hpf).1
      obtain ⟨j2, g, hg, rfl⟩ := mapWithIndex_mem Prod.mk gcats 0 p hpm
      refine absurd ?_ hnot
      show (fun g : CatArgs => g.name.getD "") g ∈
        gcats.map fun g => g.name.getD ""
      exact List.mem_map_of_mem _ hg

/-- Desired-category placement after a successful incremental run with
`deleteExtra = true`: every desired category ends with its input index as
sort key and the stored names stay unique. -/
theorem incremental_cats_spec_dx (aid off : Nat) (gcats : List CatArgs)
    (gcoms : List (String × List ComArgs)) (s s6 : RemoteState)
    (log : List NetCall) (hwf : WF s)
    (hnames : (gcats.map fun g => g.name.getD "").Nodup)
    (hrun : importRubricIncremental aid off gcats gcoms true s =
      (log, .ok s6)) :
    (s6.cats.map RCat.name).Nodup ∧
    (∀ i, ∀ hi : i < gcats.length, ∃ c ∈ s6.cats,
      c.name = gcats[i].name.getD "" ∧ c.sortKey = i) := by
  have hstate := incremental_cats_state_dx aid off gcats gcoms s s6 log hwf
    hnames hrun
  set items := (catUcs s gcats).map (fun it => (it.1, flipCat it.2))
    with hdefitems
  set dels := (catExF s gcats).map (fun n =>
    ((lookupEntry (catCp s) n).getD defaultRCat).id) with hdefdels
  have hcatinj : ∀ a ∈ s.cats, ∀ b ∈ s.cats, a.id = b.id → a = b :=
    fun a ha b hb h => List.inj_on_of_nodup_map hwf.1 ha hb h
  have hpinj : ∀ a ∈ mapWithIndex Prod.mk 0 gcats,
      ∀ b ∈ mapWithIndex Prod.mk 0 gcats,
      (a.2.name.getD "") = (b.2.name.getD "") → a = b := by
    have hnd : ((mapWithIndex Prod.mk 0 gcats).map
        (fun p => p.2.name.getD "")).Nodup := by
      rw [mapWithIndex_snd_names]
      exact hnames
    exact fun a ha b hb h => List.inj_on_of_nodup_map hnd ha hb h
  have hidnd : (items.map Prod.fst).Nodup := by
    rw [hdefitems, List.map_map,
      show (Prod.fst ∘ fun it : Nat × CatArgs =>
        (it.1, flipCat it.2)) = Prod.fst from rfl]
    have h2 := catItems_ids_nodup s gcats off hwf.1 hwf.2.1 hnames
    unfold catItems at h2
    rw [List.map_append, List.nodup_append] at h2
    exact h2.1
  have hitname : ∀ it ∈ items, it.2.name = none := by
    intro it hit
    rw [hdefitems] at hit
    obtain ⟨a, ha, rfl⟩ := List.mem_map.mp hit
    show (flipCat a.2).name = none
    obtain ⟨p, hp, c, hc, h1, h2, h3⟩ := catUcs_elim s gcats hwf.2.1 a ha
    exact (catDiff_frame p.2 (catDecode c) p.1 a.2 h3).1
  have hpatch_name : ∀ x : RCat, (patchCatFn items x).name = x.name := by
    intro x
    unfold patchCatFn
    cases hf : items.find? (fun it => it.1 == x.id) with
    | none => rfl
    | some it =>
      have h1 := hitname it (List.mem_of_find?_eq_some hf)
      show it.2.name.getD x.name = x.name
      rw [h1]
      rfl
  have hpatch_keep : ∀ x : RCat,
      items.find? (fun it => it.1 == x.id) = none →
      patchCatFn items x = x := by
    intro x hf
    unfold patchCatFn
    rw [hf]
    rfl
  have hpatch_hit : ∀ (x : RCat) (it : Nat × CatArgs),
      items.find? (fun it => it.1 == x.id) = some it →
      patchCatFn items x = applyCatUpdate it.2 x := by
    intro x it hf
    unfold patchCatFn
    rw [hf]
    rfl
  have happly_sk : ∀ (d2 : CatArgs) (x : RCat) (k : Nat),
      d2.sortKey = some (some k) → (applyCatUpdate d2 x).sortKey = k := by
    intro d2 x k h
    simp only [applyCatUpdate]
    rw [h]
  have happly_sk_none : ∀ (d2 : CatArgs) (x : RCat),
      d2.sortKey = none → (applyCatUpdate d2 x).sortKey = x.sortKey := by
    intro d2 x h
    simp only [applyCatUpdate]
    rw [h]
  refine ⟨?_, ?_⟩
  · have hnames6 : (s6.cats.map RCat.name) =
        ((s.cats ++ catNewRecs s gcats aid).filter
          (fun c => !(dels.contains c.id))).map RCat.name := by
      rw [hstate, List.map_map]
      exact List.map_congr_left fun x _ => hpatch_name x
    rw [hnames6]
    refine List.Nodup.sublist ((List.filter_sublist _).map _) ?_
    exact catBase_names_nodup s gcats aid hwf.2.1 hnames
  · intro i hi
    have hp : (i, gcats[i]) ∈ mapWithIndex Prod.mk 0 gcats :=
      mapWithIndex_getElem_mem gcats i hi
    by_cases hni : gcats[i].name.getD "" ∈ s.cats.map RCat.name
    · obtain ⟨c, hc, hcname⟩ := List.mem_map.mp hni
      have hcid : c.id ∉ dels := by
        intro hmem
        rw [hdefdels] at hmem
        obtain ⟨c2, hc2, hc2ex, hc2id⟩ :=
          catDelIds_elim s gcats hwf.2.1 c.id hmem
        have hcc : c2 = c := hcatinj c2 hc2 c hc hc2id.symm
        have hnotdes : c2.name ∉ gcats.map fun g => g.name.getD "" := by
          have hcond := (List.mem_filter.mp hc2ex).2
          simpa using hcond
        refine hnotdes ?_
        rw [hcc, hcname]
        exact List.mem_map_of_mem _ (List.getElem_mem hi)
      have hkeep : (!(dels.contains c.id)) = true := by
        simpa using hcid
      have hcmem : c ∈ (s.cats ++ catNewRecs s gcats aid).filter
          (fun c => !(dels.contains c.id)) :=
        List.mem_filter.mpr ⟨List.mem_append_left _ hc, hkeep⟩
      cases hd : catDiff gcats[i] (catDecode c) i with
      | none =>
        have hnone : items.find? (fun it => it.1 == c.id) = none := by
          rw [List.find?_eq_none]
          intro it hit
          rw [hdefitems] at hit
          obtain ⟨a, ha, rfl⟩ := List.mem_map.mp hit
          simp only [beq_iff_eq]
          intro heq
          obtain ⟨p2, hp2, c2, hc2, hnm2, hid, hdiff2⟩ :=
            catUcs_elim s gcats hwf.2.1 a ha
          have hcc : c2 = c := hcatinj c2 hc2 c hc (hid.symm.trans heq)
          have hpe : p2 = (i, gcats[i]) := by
            refine hpinj p2 hp2 (i, gcats[i]) hp ?_
            rw [← hnm2, hcc, hcname]
          rw [hpe, hcc] at hdiff2
          exact Option.noConfusion (hd.symm.trans hdiff2)
        refine ⟨c, ?_, hcname, ?_⟩
        · rw [hstate]
          exact List.mem_map.mpr ⟨c, hcmem, hpatch_keep c hnone⟩
        · exact catDiff_none_sortKey gcats[i] (catDecode c) i hd
      | some d =>
        have hmemu : (c.id, d) ∈ catUcs s gcats :=
          catUcs_intro s gcats hwf.2.1 (i, gcats[i]) hp c hc hcname d hd
        have hmemi : (c.id, flipCat d) ∈ items := by
          rw [hdefitems]
          exact List.mem_map.mpr ⟨(c.id, d), hmemu, rfl⟩
        have hfind := find?_fst_self c.id (flipCat d) items hidnd hmemi
        refine ⟨patchCatFn items c, ?_, ?_, ?_⟩
        · rw [hstate]
          exact List.mem_map_of_mem _ hcmem
        · rw [hpatch_name c]
          exact hcname
        · rw [hpatch_hit c (c.id, flipCat d) hfind]
          by_cases hsk : c.sortKey = i
          · have hknone := catDiff_sortKey_keep gcats[i] (catDecode c) i
              hsk d hd
            exact (happly_sk_none (flipCat d) c hknone).trans hsk
          · obtain ⟨d2, hd2, hd2sk⟩ := catDiff_sortKey_fires gcats[i]
              (catDecode c) i hsk
            have hdd : d2 = d := Option.some.inj (hd2.symm.trans hd)
            refine happly_sk (flipCat d) c i ?_
            rw [← hdd]
            exact hd2sk
    · have hpfil : (i, gcats[i]) ∈ (mapWithIndex Prod.mk 0 gcats).filter
          (fun p =>
            !((s.cats.map RCat.name).contains (p.2.name.getD ""))) := by
        refine List.mem_filter.mpr ⟨hp, ?_⟩
        simpa using hni
      have hpay : ({ gcats[i] with
          assignment := some aid,
          sortKey := some (some i) } : CatArgs) ∈ catCcs s gcats aid := by
        unfold catCcs
        exact List.mem_map_of_mem _ hpfil
      have hflip : flipCat { gcats[i] with
          assignment := some aid,
          sortKey := some (some i) } ∈ (catCcs s gcats aid).map flipCat :=
        List.mem_map_of_mem _ hpay
      obtain ⟨j, hj⟩ := mem_mapWithIndex_image
        (fun j p => serverNewCat (s.nextId + j) p) _
        ((catCcs s gcats aid).map flipCat) 0 hflip
      have hjm : serverNewCat (s.nextId + j)
          (flipCat { gcats[i] with
            assignment := some aid,
            sortKey := some (some i) }) ∈ catNewRecs s gcats aid := hj
      have hnrid : (serverNewCat (s.nextId + j) (flipCat { gcats[i] with
          assignment := some aid,
          sortKey := some (some i) })).id ∉ dels := by
        intro hmem
        rw [hdefdels] at hmem
        obtain ⟨c2, hc2, _, hc2id⟩ := catDelIds_elim s gcats hwf.2.1 _ hmem
        have hlt := hwf.2.2.2.2.1 c2 hc2
        have he2 : s.nextId + j = c2.id := hc2id
        omega
      have hkeepN : (!(dels.contains (serverNewCat (s.nextId + j)
          (flipCat { gcats[i] with
            assignment := some aid,
            sortKey := some (some i) })).id)) = true := by
        simpa using hnrid
      have hnmem : serverNewCat (s.nextId + j) (flipCat { gcats[i] with
          assignment := some aid,
          sortKey := some (some i) }) ∈
          (s.cats ++ catNewRecs s gcats aid).filter
            (fun c => !(dels.contains c.id)) :=
        List.mem_filter.mpr ⟨List.mem_append_right _ hjm, hkeepN⟩
      have hnone : items.find? (fun it => it.1 ==
          (serverNewCat (s.nextId + j) (flipCat { gcats[i] with
            assignment := some aid,
            sortKey := some (some i) })).id) = none := by
        rw [List.find?_eq_none]
        intro it hit
        rw [hdefitems] at hit
        obtain ⟨a, ha, rfl⟩ := List.mem_map.mp hit
        simp only [beq_iff_eq]
        intro heq
        obtain ⟨p2, hp2, c2, hc2, hnm2, hid, hdiff2⟩ :=
          catUcs_elim s gcats hwf.2.1 a ha
        have hlt := hwf.2.2.2.2.1 c2 hc2
        have he2 : c2.id = s.nextId + j := by
          rw [← hid]
          exact heq
        omega
      refine ⟨serverNewCat (s.nextId + j) (flipCat { gcats[i] with
          assignment := some aid,
          sortKey := some (some i) }), ?_, ?_, ?_⟩
      · rw [hstate]
        exact List.mem_map.mpr ⟨_, hnmem, hpatch_keep _ hnone⟩
      · rfl
      · rfl

/-- Every indexed element of a `mapWithIndex Prod.mk` carries an index at
or beyond the start index. -/
theorem mapWithIndex_fst_ge {α : Type} (l : List α) (k : Nat)
    (p : Nat × α) (h : p ∈ mapWithIndex Prod.mk k l) : k ≤ p.1 := by
  have h2 : p.1 ∈ (mapWithIndex Prod.mk k l).map Prod.fst :=
    List.mem_map_of_mem _ h
  rw [mapWithIndex_fst] at h2
  have h3 := List.mem_range'_1.mp h2
  omega

/-- Filtering a duplicate-free list preserves the relative order of its
surviving elements, stated on indexed memberships. -/
theorem filter_mwi_mono {α : Type} (P : α → Bool) :
    ∀ (l : List α), l.Nodup →
      ∀ (n i1 i2 : Nat) (x1 x2 : α),
        (i1, x1) ∈ mapWithIndex Prod.mk n l →
        (i2, x2) ∈ mapWithIndex Prod.mk n l → i1 < i2 →
      ∀ (m j1 j2 : Nat), (j1, x1) ∈ mapWithIndex Prod.mk m (l.filter P) →
        (j2, x2) ∈ mapWithIndex Prod.mk m (l.filter P) → j1 < j2 := by
  intro l
  induction l with
  | nil =>
    intro _ n i1 i2 x1 x2 h1
    simp [mapWithIndex] at h1
  | cons a t ih =>
    intro hnd n i1 i2 x1 x2 h1 h2 hlt m j1 j2 hj1 hj2
    rcases List.nodup_cons.mp hnd with ⟨hna, hndt⟩
    simp only [mapWithIndex, List.mem_cons] at h1 h2
    rcases h1 with h1 | h1
    · have hx1 : x1 = a := congrArg Prod.snd h1
      have hi1 : i1 = n := congrArg Prod.fst h1
      rcases h2 with h2 | h2
      · have hi2 : i2 = n := congrArg Prod.fst h2
        omega
      · have hx2t : x2 ∈ t := by
          obtain ⟨j, b, hb, he⟩ := mapWithIndex_mem Prod.mk t (n + 1) _ h2
          rw [show x2 = b from congrArg Prod.snd he]
          exact hb
        cases hP : P a with
        | true =>
          rw [List.filter_cons_of_pos hP] at hj1 hj2
          simp only [mapWithIndex, List.mem_cons] at hj1 hj2
          rcases hj2 with h4 | h4
          · rw [show x2 = a from congrArg Prod.snd h4] at hx2t
            exact absurd hx2t hna
          · have hge : m + 1 ≤ (j2, x2).1 :=
              mapWithIndex_fst_ge (t.filter P) (m + 1) _ h4
            have hge2 : m + 1 ≤ j2 := hge
            rcases hj1 with h3 | h3
            · have hje : j1 = m := congrArg Prod.fst h3
              omega
            · obtain ⟨j, b, hb, he⟩ :=
                mapWithIndex_mem Prod.mk (t.filter P) (m + 1) _ h3
              have hat : a ∈ t.filter P := by
                rw [← hx1, show x1 = b from congrArg Prod.snd he]
                exact hb
              exact absurd (List.mem_of_mem_filter hat) hna
        | false =>
          rw [List.filter_cons_of_neg (by simp [hP])] at hj1 hj2
          obtain ⟨j, b, hb, he⟩ :=
            mapWithIndex_mem Prod.mk (t.filter P) m _ hj1
          have hat : a ∈ t.filter P := by
            rw [← hx1, show x1 = b from congrArg Prod.snd he]
            exact hb
          exact absurd (List.mem_of_mem_filter hat) hna
    · have hge1 : n + 1 ≤ (i1, x1).1 := mapWithIndex_fst_ge t (n + 1) _ h1
      have hge1b : n + 1 ≤ i1 := hge1
      have hx1t : x1 ∈ t := by
        obtain ⟨j, b, hb, he⟩ := mapWithIndex_mem Prod.mk t (n + 1) _ h1
        rw [show x1 = b from congrArg Prod.snd he]
        exact hb
      rcases h2 with h2 | h2
      · have hi2 : i2 = n := congrArg Prod.fst h2
        omega
      · cases hP : P a with
        | true =>
          rw [List.filter_cons_of_pos hP] at hj1 hj2
          simp only [mapWithIndex, List.mem_cons] at hj1 hj2
          rcases hj1 with h3 | h3
          · rw [show x1 = a from congrArg Prod.snd h3] at hx1t
            exact absurd hx1t hna
          · rcases hj2 with h4 | h4
            · have hx2t : x2 ∈ t := by
                obtain ⟨j, b, hb, he⟩ :=
                  mapWithIndex_mem Prod.mk t (n + 1) _ h2
                rw [show x2 = b from congrArg Prod.snd he]
                exact hb
              rw [show x2 = a from congrArg Prod.snd h4] at hx2t
              exact absurd hx2t hna
            · exact ih hndt (n + 1) i1 i2 x1 x2 h1 h2 hlt (m + 1) j1 j2
                h3 h4
        | false =>
          rw [List.filter_cons_of_neg (by simp [hP])] at hj1 hj2
          exact ih hndt (n + 1) i1 i2 x1 x2 h1 h2 hlt m j1 j2 hj1 hj2

/-- **Claim C5.**  Order preservation and orphan non-interleaving at the
category level: after a successful non-wipe import of a rubric into a
well-formed remote state that is not stopped by the submissions prompt —
with either value of `deleteExtra` — (1) each desired category name is
carried by a stored category whose `sortKey` equals its input index, and
(2) stored categories are determined by their name, so the desired names'
sort keys are strictly increasing in input order; with
`deleteExtra = false` additionally (3) every stored category whose name is
not among the desired ones ends with a `sortKey` strictly greater than
every desired category's `sortKey`, and (4) any two such leftover
categories keep the relative order they had in the pre-import store. -/
theorem importRubric_category_order (aid : Nat)
    (entries : List RubricEntry) (deleteExtra confirm : Bool)
    (s sf : RemoteState) (log : List NetCall) (hwf : WF s)
    (hguard : s.subs = 0 ∨ confirm = true)
    (hrun : importRubric_ (some aid) (some entries) false deleteExtra
      confirm s = (log, .ok sf)) :
    (∀ i, ∀ hi : i < entries.length, ∃ c ∈ sf.cats,
      c.name = catNameOf entries[i] ∧ c.sortKey = i) ∧
    (∀ c ∈ sf.cats, ∀ c2 ∈ sf.cats, c.name = c2.name → c = c2) ∧
    (deleteExtra = false →
      (∀ c ∈ sf.cats, c.name ∉ entries.map catNameOf →
        ∀ i, ∀ hi : i < entries.length, ∀ c2 ∈ sf.cats,
          c2.name = catNameOf entries[i] → c2.sortKey < c.sortKey) ∧
      (∀ a ∈ sf.cats, ∀ b ∈ sf.cats, a.name ∉ entries.map catNameOf →
        b.name ∉ entries.map catNameOf →
        ∀ i1 i2, ∀ hi1 : i1 < s.cats.length, ∀ hi2 : i2 < s.cats.length,
          s.cats[i1].name = a.name → s.cats[i2].name = b.name →
          i1 < i2 → a.sortKey < b.sortKey)) := by
  unfold importRubric_ at hrun
  simp only at hrun
  cases hcv : checkValidRubric_ (some entries) with
  | error e =>
    rw [hcv] at hrun
    simp at hrun
  | ok pr =>
    rw [hcv] at hrun
    rcases pr with ⟨gcats, gcoms⟩
    simp only at hrun
    have hg : (decide (s.subs > 0) && !confirm) = false := by
      rcases hguard with h | h
      · rw [h]
        rfl
      · rw [h]
        simp
    simp only [hg, Bool.false_eq_true, if_false] at hrun
    obtain ⟨h1, h2, h3⟩ := checkValidRubric_ok hcv
    have hsnd : (importRubricIncremental aid
        ((some entries : Option (List RubricEntry)).getD []).length gcats
        gcoms deleteExtra s).2 = .ok sf := congrArg Prod.snd hrun
    have h4 : (importRubricIncremental aid entries.length gcats gcoms
        deleteExtra s).2 = .ok sf := hsnd
    have hfull : importRubricIncremental aid entries.length gcats gcoms
        deleteExtra s = ((importRubricIncremental aid entries.length
          gcats gcoms deleteExtra s).1, .ok sf) := by
      rw [← h4]
    have hnames : (gcats.map fun g => g.name.getD "").Nodup := by
      rw [h1, List.map_map,
        show ((fun g : CatArgs => g.name.getD "") ∘
          fun e : RubricEntry => { e.cat with assignment := none }) =
          catNameOf from rfl]
      exact (cleanEntriesB_facts entries [] [] h3).2.1
    have hlen : entries.length = gcats.length := by
      rw [h1, List.length_map]
    have hgeq : ∀ i, ∀ hi : i < entries.length, ∀ hi2 : i < gcats.length,
        gcats[i].name.getD "" = catNameOf entries[i] := by
      intro i hi hi2
      have h5 : gcats[i] = { entries[i].cat with assignment := none } := by
        simp only [h1, List.getElem_map]
      rw [h5]
      rfl
    have hmapeq : gcats.map (fun g => g.name.getD "") =
        entries.map catNameOf := by
      rw [h1, List.map_map,
        show ((fun g : CatArgs => g.name.getD "") ∘
          fun e : RubricEntry => { e.cat with assignment := none }) =
          catNameOf from rfl]
    cases deleteExtra with
    | true =>
      obtain ⟨hnd6, hdes⟩ := incremental_cats_spec_dx aid entries.length
        gcats gcoms s sf _ hwf hnames hfull
      have hnameinj : ∀ a ∈ sf.cats, ∀ b ∈ sf.cats, a.name = b.name →
          a = b := fun a ha b hb h => List.inj_on_of_nodup_map hnd6 ha hb h
      refine ⟨?_, hnameinj, ?_⟩
      · intro i hi
        obtain ⟨c, hc, hn, hk⟩ := hdes i (by rw [← hlen]; exact hi)
        refine ⟨c, hc, ?_, hk⟩
        rw [hn]
        exact hgeq i hi (by rw [← hlen]; exact hi)
      · intro hfalse
        exact Bool.noConfusion hfalse
    | false =>
      obtain ⟨hnd6, hdes, horph⟩ := incremental_cats_spec aid
        entries.length gcats gcoms s sf _ hwf hnames hfull
      have hnameinj : ∀ a ∈ sf.cats, ∀ b ∈ sf.cats, a.name = b.name →
          a = b := fun a ha b hb h => List.inj_on_of_nodup_map hnd6 ha hb h
      refine ⟨?_, hnameinj, fun _ => ⟨?_, ?_⟩⟩
      · intro i hi
        obtain ⟨c, hc, hn, hk⟩ := hdes i (by rw [← hlen]; exact hi)
        refine ⟨c, hc, ?_, hk⟩
        rw [hn]
        exact hgeq i hi (by rw [← hlen]; exact hi)
      · intro c hc hnotin i hi c2 hc2 hn2
        obtain ⟨c3, hc3, hn3, hk3⟩ := hdes i (by rw [← hlen]; exact hi)
        have hceq : c2 = c3 := by
          refine hnameinj c2 hc2 c3 hc3 ?_
          rw [hn2, hn3]
          exact (hgeq i hi (by rw [← hlen]; exact hi)).symm
        obtain ⟨j, hjm, hjk⟩ := horph c hc (by rw [hmapeq]; exact hnotin)
        rw [hceq, hk3, hjk]
        omega
      · intro a ha b hb hna hnb i1 i2 hi1 hi2 he1 he2 hlt
        obtain ⟨j1, hm1, hk1⟩ := horph a ha (by rw [hmapeq]; exact hna)
        obtain ⟨j2, hm2, hk2⟩ := horph b hb (by rw [hmapeq]; exact hnb)
        have hb1 : i1 < (s.cats.map RCat.name).length := by
          rw [List.length_map]
          exact hi1
        have hb2 : i2 < (s.cats.map RCat.name).length := by
          rw [List.length_map]
          exact hi2
        have hmm1 := mapWithIndex_getElem_mem (s.cats.map RCat.name) i1 hb1
        have hmm2 := mapWithIndex_getElem_mem (s.cats.map RCat.name) i2 hb2
        have hge1 : (s.cats.map RCat.name)[i1] = a.name := by
          simp only [List.getElem_map]
          exact he1
        have hge2 : (s.cats.map RCat.name)[i2] = b.name := by
          simp only [List.getElem_map]
          exact he2
        rw [hge1] at hmm1
        rw [hge2] at hmm2
        have hm1b : (j1, a.name) ∈ mapWithIndex Prod.mk 0
            ((s.cats.map RCat.name).filter fun n =>
              !((gcats.map fun g => g.name.getD "").contains n)) := hm1
        have hm2b : (j2, b.name) ∈ mapWithIndex Prod.mk 0
            ((s.cats.map RCat.name).filter fun n =>
              !((gcats.map fun g => g.name.getD "").contains n)) := hm2
        have hjlt : j1 < j2 :=
          filter_mwi_mono _ (s.cats.map RCat.name) hwf.2.1 0 i1 i2 a.name
            b.name hmm1 hmm2 hlt 0 j1 j2 hm1b hm2b
        omega

theorem importRubric_category_order_witness :
    WF ⟨[⟨5, "B", none, "", false, 0⟩], [], 7, 0⟩ ∧
    (∀ i, ∀ hi : i < ([⟨⟨none, some "A", none, none, none, none⟩,
        some []⟩] : List RubricEntry).length,
      ∃ c ∈ (⟨[⟨5, "B", none, "", false, 1⟩,
          ⟨7, "A", none, "", false, 0⟩], [], 8, 0⟩ : RemoteState).cats,
        c.name = catNameOf ([⟨⟨none, some "A", none, none, none, none⟩,
          some []⟩] : List RubricEntry)[i] ∧ c.sortKey = i) :=
  ⟨by unfold WF; decide,
    (importRubric_category_order 1
      [⟨⟨none, some "A", none, none, none, none⟩, some []⟩] false true
      ⟨[⟨5, "B", none, "", false, 0⟩], [], 7, 0⟩
      ⟨[⟨5, "B", none, "", false, 1⟩, ⟨7, "A", none, "", false, 0⟩], [],
        8, 0⟩
      [.getAssignment 1, .getSubmissions 1, .getCats [5],
        .postCats [⟨some 1, some "A", none, none, none, some (some 0)⟩],
        .patchCats [(5, ⟨none, none, none, none, none, some (some 1)⟩)]]
      (by unfold WF; decide) (Or.inr rfl) (by rfl)).1⟩

/-! ### Claim C3: orphaned-comment sortKey continuation -/

/-- Modelled from the spec: the sort key an orphaned comment at position `i`
of the orphan list receives — its category counter's base value plus the
number of earlier orphans of the same category. -/
def orphanKeyOf (cps : List (String × RCom))
    (sortKeys : List (Nat × Option Nat)) (names : List String) (i : Nat)
    (n : String) : Nat :=
  (((lookupNatEntry sortKeys
      ((lookupEntry cps n).getD defaultRCom).category).getD none).getD 0) +
    ((names.take i).countP fun m =>
      ((lookupEntry cps m).getD defaultRCom).category ==
        ((lookupEntry cps n).getD defaultRCom).category)

/-- Modelled from the spec: the orphan updates in closed form — each orphan
whose key differs from its current `sortKey` is queued with the continued
per-category key, in the orphans' pre-existing relative order. -/
def orphanUpdatesSpec (cps : List (String × RCom))
    (sortKeys : List (Nat × Option Nat)) (names : List String) :
    List (Nat × ComArgs) :=
  (mapWithIndex Prod.mk 0 names).filterMap (fun q =>
    let com := (lookupEntry cps q.2).getD defaultRCom
    let key := orphanKeyOf cps sortKeys names q.1 q.2
    if com.sortKey ≠ key then
      some (com.id, { emptyComArgs with sortKey := some (some key) })
    else none)

/-- Lookup after insert in a Nat-keyed JS object. -/
theorem lookupNat_insertNat (k k' : Nat) (v : Option Nat) :
    ∀ (m : List (Nat × Option Nat)),
      lookupNatEntry (insertNatEntry m k v) k' =
        if k' = k then some v else lookupNatEntry m k' := by
  intro m
  induction m with
  | nil =>
    simp only [insertNatEntry, lookupNatEntry]
    split_ifs <;> first | rfl | omega
  | cons kv rest ih =>
    rcases kv with ⟨a, b⟩
    simp only [insertNatEntry]
    by_cases h1 : a = k
    · rw [if_pos h1]
      simp only [lookupNatEntry]
      split_ifs <;> first | rfl | omega
    · rw [if_neg h1]
      simp only [lookupNatEntry]
      rw [ih]
      split_ifs <;> first | rfl | omega

/-- Bumping the head orphan's category counter accounts exactly for the head
in the closed form's same-category count. -/
theorem orphanUpdatesSpec_shift (cps : List (String × RCom))
    (sortKeys : List (Nat × Option Nat)) (n : String) (k0 : Nat)
    (hk0 : lookupNatEntry sortKeys
      ((lookupEntry cps n).getD defaultRCom).category = some (some k0)) :
    ∀ (rest : List String),
      ((mapWithIndex Prod.mk 1 rest).filterMap (fun q =>
        let com := (lookupEntry cps q.2).getD defaultRCom
        let key := orphanKeyOf cps sortKeys (n :: rest) q.1 q.2
        if com.sortKey ≠ key then
          some (com.id, { emptyComArgs with sortKey := some (some key) })
        else none)) =
      orphanUpdatesSpec cps
        (insertNatEntry sortKeys
          ((lookupEntry cps n).getD defaultRCom).category (some (k0 + 1)))
        rest := by
  intro rest
  unfold orphanUpdatesSpec
  rw [mapWithIndex_shift rest Prod.mk 1,
    ← map_mapWithIndex Prod.mk (fun q => (1 + q.1, q.2)) rest 0,
    List.filterMap_map]
  refine filterMap_congr_mem ?_
  intro q hq
  simp only [Function.comp_apply]
  by_cases hcm : ((lookupEntry cps q.2).getD defaultRCom).category =
      ((lookupEntry cps n).getD defaultRCom).category
  · have hkey : orphanKeyOf cps sortKeys (n :: rest) (1 + q.1) q.2 =
        orphanKeyOf cps
          (insertNatEntry sortKeys
            ((lookupEntry cps n).getD defaultRCom).category (some (k0 + 1)))
          rest q.1 q.2 := by
      unfold orphanKeyOf
      rw [hcm, lookupNat_insertNat, if_pos rfl, hk0]
      rw [Nat.add_comm 1 q.1, List.take_succ_cons, List.countP_cons]
      have hbeq : (((lookupEntry cps n).getD defaultRCom).category ==
          ((lookupEntry cps n).getD defaultRCom).category) = true := by
        simp
      rw [hbeq]
      simp only [Option.getD_some, if_true]
      omega
    rw [hkey]
  · have hkey : orphanKeyOf cps sortKeys (n :: rest) (1 + q.1) q.2 =
        orphanKeyOf cps
          (insertNatEntry sortKeys
            ((lookupEntry cps n).getD defaultRCom).category (some (k0 + 1)))
          rest q.1 q.2 := by
      unfold orphanKeyOf
      rw [lookupNat_insertNat, if_neg hcm]
      rw [Nat.add_comm 1 q.1, List.take_succ_cons, List.countP_cons]
      have hbeq : (((lookupEntry cps n).getD defaultRCom).category ==
          ((lookupEntry cps q.2).getD defaultRCom).category) = false := by
        simp only [beq_eq_false_iff_ne, ne_eq]
        exact fun he => hcm he.symm
      rw [hbeq]
      simp
    rw [hkey]

/-- C3 (amended): with `deleteExtra = false`, when every orphaned comment's
parent category has a counter (it is seeded exactly for the categories of
the desired rubric, with the category's desired-comment count), the orphan
loop queues updates per the closed form: each orphan's sort key continues
its own category's counter (base plus the number of earlier same-category
orphans), counters run independently per category, the orphans' relative
order is preserved, and an update is queued only when the key differs from
the comment's current `sortKey`.  (An orphan whose category has no counter
instead gets a `NaN` sort key queued unconditionally and the run fails; see
the counterexample.) -/
theorem orphanComUpdates_sortKey_continuation (cps : List (String × RCom)) :
    ∀ (names : List String) (sortKeys : List (Nat × Option Nat)),
      (∀ n ∈ names, ∃ k, lookupNatEntry sortKeys
        ((lookupEntry cps n).getD defaultRCom).category = some (some k)) →
      orphanComUpdates cps sortKeys names =
        orphanUpdatesSpec cps sortKeys names := by
  intro names
  induction names with
  | nil =>
    intro sortKeys _
    rfl
  | cons n rest ih =>
    intro sortKeys h
    obtain ⟨k0, hk0⟩ := h n (List.mem_cons_self n rest)
    have hrest : ∀ m ∈ rest, ∃ k', lookupNatEntry
        (insertNatEntry sortKeys
          ((lookupEntry cps n).getD defaultRCom).category (some (k0 + 1)))
        ((lookupEntry cps m).getD defaultRCom).category = some (some k') := by
      intro m hm
      by_cases hcm : ((lookupEntry cps m).getD defaultRCom).category =
          ((lookupEntry cps n).getD defaultRCom).category
      · refine ⟨k0 + 1, ?_⟩
        rw [hcm, lookupNat_insertNat, if_pos rfl]
      · obtain ⟨k', hk'⟩ := h m (List.mem_cons_of_mem n hm)
        refine ⟨k', ?_⟩
        rw [lookupNat_insertNat, if_neg hcm]
        exact hk'
    have hhead : orphanKeyOf cps sortKeys (n :: rest) 0 n = k0 := by
      unfold orphanKeyOf
      rw [hk0]
      rfl
    simp only [orphanComUpdates]
    rw [hk0]
    simp only
    simp only [orphanUpdatesSpec, mapWithIndex, List.filterMap_cons]
    rw [hhead]
    rw [ih _ hrest]
    rw [orphanUpdatesSpec_shift cps sortKeys n k0 hk0 rest]
    by_cases hC : ((lookupEntry cps n).getD defaultRCom).sortKey ≠ k0
    · rw [if_pos hC, if_pos hC]
    · rw [if_neg hC, if_neg hC]

/-- C3 witness: three orphans in two categories with counters 2 and 2 — the
first (current `sortKey` 9) is re-sorted to key 2, the second and third
already sit at their continued keys 2 and 3, so exactly one update is
queued. -/
theorem orphanComUpdates_sortKey_continuation_witness :
    orphanComUpdates
      [("X", ⟨11, "X", 5, -1, "t", "", "", false, 9⟩),
        ("Y", ⟨12, "Y", 7, -1, "t", "", "", false, 2⟩),
        ("Z", ⟨13, "Z", 5, -1, "t", "", "", false, 3⟩)]
      [(5, some 2), (7, some 2)] ["X", "Y", "Z"] =
    orphanUpdatesSpec
      [("X", ⟨11, "X", 5, -1, "t", "", "", false, 9⟩),
        ("Y", ⟨12, "Y", 7, -1, "t", "", "", false, 2⟩),
        ("Z", ⟨13, "Z", 5, -1, "t", "", "", false, 3⟩)]
      [(5, some 2), (7, some 2)] ["X", "Y", "Z"] := by
  refine orphanComUpdates_sortKey_continuation _ ["X", "Y", "Z"]
    [(5, some 2), (7, some 2)] ?_
  intro n hn
  fin_cases hn
  · exact ⟨2, rfl⟩
  · exact ⟨2, rfl⟩
  · exact ⟨2, rfl⟩

/-- C3 counterexample: with `deleteExtra = false` and an empty desired
rubric, an existing comment whose parent category is not in the desired
rubric is not given a continued sort key — its category has no counter, the
JS post-increment yields `NaN`, and the queued update then fails `checkArgs`
validation, aborting the run with `"sortKey": not a number` instead of
re-sorting the orphan. -/
theorem importRubric_orphan_nan_cex :
    (importRubric_ (some 1) (some []) false false true
      ⟨[⟨0, "A", none, "", false, 0⟩],
        [⟨1, "X", 0, -5, "t", "", "", false, 0⟩], 10, 0⟩).2 =
      .error "\"sortKey\": not a number" := by
  rfl

/-- C10: every update payload the engine queues for an existing
(name-matched) category contains only fields from
`{pointLimit, helpText, atMostOnce, sortKey}`, and every update payload
for an existing comment only fields from `{text, pointDelta, explanation,
instructionText, templateTextOn, category, sortKey}`: in the run log of
`importRubric_`, every category PATCH item has `name` and `assignment`
absent and every comment PATCH item has `name` absent, so identity fields
of existing resources are never modified by synchronization. -/
theorem importRubric_update_frame (assignmentId : Option Nat)
    (rubric : Option (List RubricEntry)) (wipe deleteExtra confirm : Bool)
    (s : RemoteState) :
    ((importRubric_ assignmentId rubric wipe deleteExtra confirm s).1.all
      frameCallB) = true := by
  rw [List.all_eq_true]
  intro call hc
  unfold importRubric_ at hc
  cases assignmentId with
  | none => simp at hc
  | some aid =>
    simp only at hc
    cases hcv : checkValidRubric_ rubric with
    | error e =>
      rw [hcv] at hc
      simp at hc
    | ok pr =>
      rw [hcv] at hc
      rcases pr with ⟨gcats, gcoms⟩
      simp only at hc
      split at hc
      · have : call = NetCall.getAssignment aid ∨
            call = NetCall.getSubmissions aid := by simpa using hc
        rcases this with rfl | rfl <;> rfl
      · split at hc
        · try simp only at hc
          rcases List.mem_append.mp hc with h | h
          · have : call = NetCall.getAssignment aid ∨
                call = NetCall.getSubmissions aid := by simpa using h
            rcases this with rfl | rfl <;> rfl
          · exact importRubricWipe_frame aid gcats gcoms s call h
        · try simp only at hc
          rcases List.mem_append.mp hc with h | h
          · have : call = NetCall.getAssignment aid ∨
                call = NetCall.getSubmissions aid := by simpa using h
            rcases this with rfl | rfl <;> rfl
          · exact importRubricIncremental_frame aid
              ((rubric.getD []).length) gcats gcoms deleteExtra s call h

end CodePost
